import Mathlib

/-!
# The authproxy connector of dex: `connector/authproxy/authproxy.go`

A shallow embedding of `Config.Open`, `callback.LoginURL` and
`callback.HandleCallback`, together with the parts of the Go standard library
they call (`strings`, `net/textproto`, `net/http`, `net/url`; transcribed from
the Go 1.22 sources, `(*URL).String` with the later change for a path that
begins with `//`), followed by theorems about them.

Go strings are sequences of bytes; they are embedded as lists of `Fin 256`.
A Go function returning `(T, error)` is embedded as a function returning a
pair whose second component is `none` for a `nil` error.
-/

set_option autoImplicit false
set_option linter.dupNamespace false

namespace Authproxy

/-! ## Go strings -/

/-- One byte of a Go string. -/
abbrev Byte := Fin 256

/-- A Go `string`: an immutable sequence of bytes. -/
abbrev GoString := List Byte

/-- The Go string constant written with the ASCII text `s` (used only for ASCII
literals of the sources). -/
def ascii (s : String) : GoString := s.toList.map (fun c => Fin.ofNat c.toNat)

/-- Equality of the results of fallible functions is decidable. -/
instance instDecidableEqExcept {ε α : Type} [DecidableEq ε] [DecidableEq α] :
    DecidableEq (Except ε α)
  | .ok a, .ok b => if h : a = b then isTrue (by rw [h]) else isFalse (fun e => h (by cases e; rfl))
  | .error a, .error b =>
    if h : a = b then isTrue (by rw [h]) else isFalse (fun e => h (by cases e; rfl))
  | .ok _, .error _ => isFalse (fun e => by cases e)
  | .error _, .ok _ => isFalse (fun e => by cases e)

/-! ## Package `strings` -/

/-- `strings.HasPrefix`. -/
def HasPrefix (s pre : GoString) : Bool := pre.isPrefixOf s

/-- `strings.Index(s, substr)`: the index of the first instance of `substr` in
`s`, `none` for Go's `-1`. -/
def Index : GoString → GoString → Option Nat
  | [], substr => if substr = [] then some 0 else none
  | c :: t, substr =>
    if HasPrefix (c :: t) substr then some 0 else (Index t substr).map (· + 1)

/-- The loop of `strings.Count` for a `substr` of two bytes or more: count the
non-overlapping instances from the left. `fuel` bounds the number of
iterations; `Count` passes the length of `s`, which is never exhausted because
every iteration removes at least two bytes. -/
def countLoop (substr : GoString) : Nat → GoString → Nat
  | 0, _ => 0
  | fuel + 1, s =>
    match Index s substr with
    | none => 0
    | some i => countLoop substr fuel (s.drop (i + substr.length)) + 1

/-- `strings.Count(s, substr)` for a non-empty `substr`: a one-byte `substr` is
counted byte by byte (`bytealg.CountString`), a longer one by the `Index` loop.
(The branch for an empty `substr`, which counts UTF-8 sequences, is not
reached from `genSplit`, which treats the empty separator before counting.) -/
def Count (s substr : GoString) : Nat :=
  match substr with
  | [c] => s.count c
  | _ => countLoop substr s.length s

/-- The loop of `strings.genSplit` (with `sepSave = 0`): at most `n` cuts at
the successive instances of `sep`, then the rest of `s`. -/
def genSplitLoop (sep : GoString) : Nat → GoString → List GoString
  | 0, s => [s]
  | n + 1, s =>
    match Index s sep with
    | none => [s]
    | some m => s.take m :: genSplitLoop sep n (s.drop (m + sep.length))

/-- `strings.Split(s, sep)`, that is `genSplit(s, sep, 0, -1)`, for a
non-empty `sep`: `n = Count(s, sep) + 1` slots, hence `Count(s, sep)` cuts.
The `sep == ""` branch of `genSplit` (`explode`, one element per UTF-8
sequence) is not embedded: `HandleCallback` passes the constant `";"`; on an
empty separator this definition yields the empty list. -/
def Split (s sep : GoString) : List GoString :=
  if sep = [] then [] else genSplitLoop sep (Count s sep) s

/-- `strings.Join(elems, sep)`. -/
def Join : List GoString → GoString → GoString
  | [], _ => []
  | [e], _ => e
  | e :: e2 :: rest, sep => e ++ sep ++ Join (e2 :: rest) sep

/-! ## Package `net/textproto` and `net/http`: headers -/

/-- The test `'a' <= c && c <= 'z'`. -/
def isLowerAZ (c : Byte) : Bool := 0x61 ≤ c && c ≤ 0x7a

/-- The test `'A' <= c && c <= 'Z'`. -/
def isUpperAZ (c : Byte) : Bool := 0x41 ≤ c && c ≤ 0x5a

/-- The test `'0' <= c && c <= '9'`. -/
def isDigit (c : Byte) : Bool := 0x30 ≤ c && c ≤ 0x39

/-- `textproto.validHeaderFieldByte`: the token bytes of RFC 7230, that is
letters, digits and one of ``!#$%&'*+-.^_`|~``. -/
def validHeaderFieldByte (c : Byte) : Bool :=
  isDigit c || isLowerAZ c || isUpperAZ c ||
    c ∈ ([0x21, 0x23, 0x24, 0x25, 0x26, 0x27, 0x2a, 0x2b, 0x2d, 0x2e, 0x5e, 0x5f, 0x60,
      0x7c, 0x7e] : List Byte)

/-- The second loop of `textproto.canonicalMIMEHeaderKey`: upper case for the
first letter and for a letter after a dash, lower case for the other letters. -/
def canonicalizeLoop : Bool → GoString → GoString
  | _, [] => []
  | upper, c :: rest =>
    let c1 : Byte :=
      if upper && isLowerAZ c then c - 0x20
      else if !upper && isUpperAZ c then c + 0x20
      else c
    c1 :: canonicalizeLoop (c1 == 0x2d) rest

/-- `textproto.canonicalMIMEHeaderKey`: a key with a byte that is neither a
token byte nor a space is returned unchanged (`ok = false`), a key with a space
is returned unchanged, any other key is canonicalized. (The final lookup in the
`commonHeader` table returns a string equal to the key it is given.) -/
def canonicalMIMEHeaderKey (a : GoString) : GoString × Bool :=
  if a.any (fun c => !validHeaderFieldByte c && c != 0x20) then (a, false)
  else if a.any (fun c => !validHeaderFieldByte c) then (a, true)
  else (canonicalizeLoop true a, true)

/-- The quick check of `textproto.CanonicalMIMEHeaderKey` over the rest `rest`
of the key `s`, with the loop variable `upper`. -/
def canonicalQuickCheck (s : GoString) : Bool → GoString → GoString
  | _, [] => s
  | upper, c :: rest =>
    if !validHeaderFieldByte c then s
    else if upper && isLowerAZ c then (canonicalMIMEHeaderKey s).1
    else if !upper && isUpperAZ c then (canonicalMIMEHeaderKey s).1
    else canonicalQuickCheck s (c == 0x2d) rest

/-- `textproto.CanonicalMIMEHeaderKey`. -/
def CanonicalMIMEHeaderKey (s : GoString) : GoString :=
  canonicalQuickCheck s true s

/-- `http.Header`, a `map[string][]string`, as an association list; the value
of a key is that of its first binding. -/
abbrev Header := List (GoString × List GoString)

/-- The map index expression `h[key]`: the values stored under `key`, the
`nil` slice when the key is absent. -/
def Header.index (h : Header) (key : GoString) : List GoString :=
  (h.lookup key).getD []

/-- `http.Header.Get` (`textproto.MIMEHeader.Get`): the first value stored
under the canonical form of `key`, `""` when there is none. -/
def Header.Get (h : Header) (key : GoString) : GoString :=
  match h.index (CanonicalMIMEHeaderKey key) with
  | [] => []
  | v :: _ => v

/-- The fields of `http.Request` an HTTP handler sees besides the headers are
kept as plain strings; `HandleCallback` reads `Header` only. -/
structure Request where
  Method : GoString
  URL : GoString
  Header : Header
  Body : GoString
deriving DecidableEq, Repr

/-! ## Package `strings`, continued -/

/-- `strings.LastIndex(s, substr)`: the index of the last instance of `substr`
in `s`, `none` for Go's `-1`. -/
def LastIndex : GoString → GoString → Option Nat
  | [], substr => if substr = [] then some 0 else none
  | c :: t, substr =>
    match LastIndex t substr with
    | some i => some (i + 1)
    | none => if HasPrefix (c :: t) substr then some 0 else none

/-- `strings.Contains`. -/
def Contains (s substr : GoString) : Bool := (Index s substr).isSome

/-- `strings.HasSuffix`. -/
def HasSuffix (s suffix : GoString) : Bool := suffix.isSuffixOf s

/-- `strings.Cut(s, sep)`: the text before and after the first instance of
`sep`, and whether `sep` was found. -/
def Cut (s sep : GoString) : GoString × GoString × Bool :=
  match Index s sep with
  | some i => (s.take i, s.drop (i + sep.length), true)
  | none => (s, [], false)

/-- `strings.ToLower` on a string of ASCII bytes: the letters `A` to `Z` are
mapped to lower case. (For a string with a byte of `0x80` or more Go maps
`unicode.ToLower` over the runes; that branch is not embedded: `url.Parse`
applies `ToLower` to a scheme, which `getScheme` makes of ASCII letters,
digits, `+`, `-` and `.`.) -/
def ToLower (s : GoString) : GoString :=
  s.map (fun c => if isUpperAZ c then c + 0x20 else c)

/-- The order `<` of Go strings: lexicographic on the bytes. -/
def stringLess : GoString → GoString → Bool
  | [], [] => false
  | [], _ :: _ => true
  | _ :: _, [] => false
  | a :: s, b :: t => a < b || (a == b && stringLess s t)

/-- `slices.Sort` on strings (any sorting algorithm gives the same result on a
list without repetition, as the keys of a map are). -/
def sortStrings (l : List GoString) : List GoString :=
  l.insertionSort (fun a b => stringLess b a = false)

/-! ## Package `net/url` -/

/-- The errors `net/url` returns: `errors.New(msg)`, `EscapeError(s)`,
`InvalidHostError(s)` and `fmt.Errorf("invalid port %q after host", colonPort)`. -/
inductive UrlErr where
  | errorString (msg : GoString)
  | EscapeError (s : GoString)
  | InvalidHostError (s : GoString)
  | invalidPort (colonPort : GoString)
deriving DecidableEq, Repr

/-- The method `Error()` of the errors of `net/url`. `Quote` stands for
`strconv.Quote`, which is not embedded. -/
def UrlErr.Error (Quote : GoString → GoString) : UrlErr → GoString
  | .errorString msg => msg
  | .EscapeError s => ascii "invalid URL escape " ++ Quote s
  | .InvalidHostError s => ascii "invalid character " ++ Quote s ++ ascii " in host name"
  | .invalidPort colonPort => ascii "invalid port " ++ Quote colonPort ++ ascii " after host"

/-- `url.Error`: the operation, the URL and the error that occurred. -/
structure Error where
  Op : GoString
  URL : GoString
  Err : UrlErr
deriving DecidableEq, Repr

/-- `(*url.Error).Error()`, that is `fmt.Sprintf("%s %q: %s", e.Op, e.URL, e.Err)`. -/
def Error.Error (Quote : GoString → GoString) (e : Error) : GoString :=
  e.Op ++ ascii " " ++ Quote e.URL ++ ascii ": " ++ e.Err.Error Quote

/-- The type `encoding` of `net/url`. -/
inductive encoding where
  | encodePath
  | encodePathSegment
  | encodeHost
  | encodeZone
  | encodeUserPassword
  | encodeQueryComponent
  | encodeFragment
deriving DecidableEq, Repr

/-- `url.ishex`. -/
def ishex (c : Byte) : Bool :=
  isDigit c || (0x61 ≤ c && c ≤ 0x66) || (0x41 ≤ c && c ≤ 0x46)

/-- `url.unhex`. -/
def unhex (c : Byte) : Byte :=
  if isDigit c then c - 0x30
  else if 0x61 ≤ c && c ≤ 0x66 then c - 0x61 + 10
  else if 0x41 ≤ c && c ≤ 0x46 then c - 0x41 + 10
  else 0

/-- The table `upperhex = "0123456789ABCDEF"`, indexed by a byte. -/
def upperhex (n : Byte) : Byte := (ascii "0123456789ABCDEF").getD n.val 0

/-- `url.shouldEscape`. -/
def shouldEscape (c : Byte) (mode : encoding) : Bool :=
  -- §2.3 Unreserved characters (alphanum)
  if isLowerAZ c || isUpperAZ c || isDigit c then false
  else if (mode = .encodeHost || mode = .encodeZone) &&
      c ∈ ascii "!$&'()*+,;=:[]<>\"" then false
  -- §2.3 Unreserved characters (mark)
  else if c ∈ ascii "-_.~" then false
  -- §2.2 Reserved characters (reserved)
  else if c ∈ ascii "$&+,/:;=?@" && mode = .encodePath then c = 0x3f
  else if c ∈ ascii "$&+,/:;=?@" && mode = .encodePathSegment then
    c = 0x2f || c = 0x3b || c = 0x2c || c = 0x3f
  else if c ∈ ascii "$&+,/:;=?@" && mode = .encodeUserPassword then
    c = 0x40 || c = 0x2f || c = 0x3f || c = 0x3a
  else if c ∈ ascii "$&+,/:;=?@" && mode = .encodeQueryComponent then true
  else if c ∈ ascii "$&+,/:;=?@" && mode = .encodeFragment then false
  else if mode = .encodeFragment && c ∈ ascii "!()*" then false
  -- Everything else must be escaped.
  else true

/-- The first loop of `url.unescape`: the first error found in `s`, if any.
A `%` must be followed by two hexadecimal digits; in a host only `%25` and the
escapes of non-ASCII bytes are allowed, in a zone only `%25`, `%20` and the
escapes of bytes a host may hold; a host or zone holds no ASCII byte that
`shouldEscape` rejects. -/
def unescapeCheck (mode : encoding) : GoString → Option UrlErr
  | [] => none
  | c :: a :: b :: rest2 =>
    if c = 0x25 then
      if !ishex a || !ishex b then some (.EscapeError [c, a, b])
      else if mode = .encodeHost && unhex a < 8 && [c, a, b] ≠ ascii "%25" then
        some (.EscapeError [c, a, b])
      else if mode = .encodeZone && [c, a, b] ≠ ascii "%25" &&
          (unhex a <<< 4 ||| unhex b) ≠ 0x20 &&
          shouldEscape (unhex a <<< 4 ||| unhex b) .encodeHost then
        some (.EscapeError [c, a, b])
      else unescapeCheck mode rest2
    else if c = 0x2b then unescapeCheck mode (a :: b :: rest2)
    else if (mode = .encodeHost || mode = .encodeZone) && c < 0x80 &&
        shouldEscape c .encodeHost then
      some (.InvalidHostError [c])
    else unescapeCheck mode (a :: b :: rest2)
  | c :: rest =>
    -- fewer than two bytes follow `c`
    if c = 0x25 then some (.EscapeError (c :: rest))
    else if c = 0x2b then unescapeCheck mode rest
    else if (mode = .encodeHost || mode = .encodeZone) && c < 0x80 &&
        shouldEscape c .encodeHost then
      some (.InvalidHostError [c])
    else unescapeCheck mode rest

/-- The second loop of `url.unescape`: `%XX` becomes the byte `XX`, and `+` a
space in a query component. -/
def unescapeDecode (mode : encoding) : GoString → GoString
  | [] => []
  | c :: a :: b :: rest2 =>
    if c = 0x25 then (unhex a <<< 4 ||| unhex b) :: unescapeDecode mode rest2
    else if c = 0x2b then
      (if mode = .encodeQueryComponent then 0x20 else 0x2b) ::
        unescapeDecode mode (a :: b :: rest2)
    else c :: unescapeDecode mode (a :: b :: rest2)
  | c :: rest =>
    -- fewer than two bytes follow `c`, which is no `%` when the first loop passed
    if c = 0x2b then
      (if mode = .encodeQueryComponent then 0x20 else 0x2b) :: unescapeDecode mode rest
    else c :: unescapeDecode mode rest

/-- `url.unescape`. (When `s` has no `%` and no `+` to turn into a space Go
returns `s` itself, which is what the second loop computes too.) -/
def unescape (s : GoString) (mode : encoding) : Except UrlErr GoString :=
  match unescapeCheck mode s with
  | some e => .error e
  | none => .ok (unescapeDecode mode s)

/-- What `url.escape` writes for the byte `c`. -/
def escapeByte (mode : encoding) (c : Byte) : GoString :=
  if c = 0x20 && mode = .encodeQueryComponent then [0x2b]
  else if shouldEscape c mode then [0x25, upperhex (c >>> 4), upperhex (c &&& 15)]
  else [c]

/-- `url.escape`. (The counting pass and the two shortcuts of the Go function,
for a string with nothing to escape and for one where only spaces become `+`,
return what the general loop embedded here returns.) -/
def escape : GoString → encoding → GoString
  | [], _ => []
  | c :: rest, mode => escapeByte mode c ++ escape rest mode

/-- `url.QueryEscape`. -/
def QueryEscape (s : GoString) : GoString := escape s .encodeQueryComponent

/-- `url.QueryUnescape`. -/
def QueryUnescape (s : GoString) : Except UrlErr GoString := unescape s .encodeQueryComponent

/-- `url.Userinfo`. -/
structure Userinfo where
  username : GoString
  password : GoString
  passwordSet : Bool
deriving DecidableEq, Repr

/-- `(*url.Userinfo).String` for a non-nil receiver. -/
def Userinfo.String (u : Userinfo) : GoString :=
  let s := escape u.username .encodeUserPassword
  if u.passwordSet then s ++ ascii ":" ++ escape u.password .encodeUserPassword else s

/-- `url.URL`; a nil `User` is `none`. -/
structure URL where
  Scheme : GoString
  Opaque : GoString
  User : Option Userinfo
  Host : GoString
  Path : GoString
  RawPath : GoString
  OmitHost : Bool
  ForceQuery : Bool
  RawQuery : GoString
  Fragment : GoString
  RawFragment : GoString
deriving DecidableEq, Repr

/-- The zero value `URL{}`. -/
def URL.zero : URL :=
  { Scheme := [], Opaque := [], User := none, Host := [], Path := [], RawPath := [],
    OmitHost := false, ForceQuery := false, RawQuery := [], Fragment := [], RawFragment := [] }

/-- The loop of `url.getScheme` over the rest of `rawURL`; `pre` is the text
`rawURL[:i]` read so far. The result is the scheme and the text after its
colon, or an empty scheme and `rawURL`. -/
def getSchemeLoop (rawURL : GoString) : GoString → GoString → Except UrlErr (GoString × GoString)
  | _, [] => .ok ([], rawURL)
  | pre, c :: rest =>
    if isLowerAZ c || isUpperAZ c then getSchemeLoop rawURL (pre ++ [c]) rest
    else if isDigit c || c = 0x2b || c = 0x2d || c = 0x2e then
      if pre = [] then .ok ([], rawURL) else getSchemeLoop rawURL (pre ++ [c]) rest
    else if c = 0x3a then
      if pre = [] then .error (.errorString (ascii "missing protocol scheme"))
      else .ok (pre, rest)
    else .ok ([], rawURL)

/-- `url.getScheme`. -/
def getScheme (rawURL : GoString) : Except UrlErr (GoString × GoString) :=
  getSchemeLoop rawURL [] rawURL

/-- `url.stringContainsCTLByte`. -/
def stringContainsCTLByte (s : GoString) : Bool := s.any (fun b => b < 0x20 || b = 0x7f)

/-- `url.validOptionalPort`: empty, or a colon followed by digits. -/
def validOptionalPort (port : GoString) : Bool :=
  match port with
  | [] => true
  | c :: rest => c = 0x3a && rest.all (fun b => !(b < 0x30 || b > 0x39))

/-- `url.validUserinfo`. (Go ranges over the runes of `s`; a byte of `0x80` or
more gives a rune outside the allowed set, as it does here.) -/
def validUserinfo (s : GoString) : Bool :=
  s.all (fun r => isUpperAZ r || isLowerAZ r || isDigit r || r ∈ ascii "-._:~!$&'()*+,;=%@")

/-- `url.parseHost`, as of Go 1.22. (Later Go releases reject, besides, a
bracketed host that is not an IPv6 address, such as `[abc]`; that check, made by
`net/netip`, is not embedded. The theorems on `LoginURL` take the success of
`Parse` as a hypothesis: for a bracketed host they are about the code where the
host is an IPv6 address.) -/
def parseHost (host : GoString) : Except UrlErr GoString :=
  if HasPrefix host (ascii "[") then
    -- Parse an IP-Literal in RFC 3986 and RFC 6874.
    match LastIndex host (ascii "]") with
    | none => .error (.errorString (ascii "missing ']' in host"))
    | some i =>
      let colonPort := host.drop (i + 1)
      if !validOptionalPort colonPort then .error (.invalidPort colonPort)
      else
        match Index (host.take i) (ascii "%25") with
        | some zone =>
          match unescape (host.take zone) .encodeHost with
          | .error e => .error e
          | .ok host1 =>
            match unescape ((host.take i).drop zone) .encodeZone with
            | .error e => .error e
            | .ok host2 =>
              match unescape (host.drop i) .encodeHost with
              | .error e => .error e
              | .ok host3 => .ok (host1 ++ host2 ++ host3)
        | none => unescape host .encodeHost
  else
    match LastIndex host (ascii ":") with
    | some i =>
      let colonPort := host.drop i
      if !validOptionalPort colonPort then .error (.invalidPort colonPort)
      else unescape host .encodeHost
    | none => unescape host .encodeHost

/-- `url.parseAuthority`: the user information and the host of an authority
`[userinfo@]host`. -/
def parseAuthority (authority : GoString) : Except UrlErr (Option Userinfo × GoString) :=
  let i := LastIndex authority (ascii "@")
  let hostResult :=
    match i with
    | none => parseHost authority
    | some i => parseHost (authority.drop (i + 1))
  match hostResult with
  | .error e => .error e
  | .ok host =>
    match i with
    | none => .ok (none, host)
    | some i =>
      let userinfo := authority.take i
      if !validUserinfo userinfo then .error (.errorString (ascii "net/url: invalid userinfo"))
      else if !Contains userinfo (ascii ":") then
        match unescape userinfo .encodeUserPassword with
        | .error e => .error e
        | .ok userinfo =>
          .ok (some { username := userinfo, password := [], passwordSet := false }, host)
      else
        let username := (Cut userinfo (ascii ":")).1
        let password := (Cut userinfo (ascii ":")).2.1
        match unescape username .encodeUserPassword with
        | .error e => .error e
        | .ok username =>
          match unescape password .encodeUserPassword with
          | .error e => .error e
          | .ok password =>
            .ok (some { username := username, password := password, passwordSet := true }, host)

/-- `(*URL).setPath`. -/
def URL.setPath (u : URL) (p : GoString) : Except UrlErr URL :=
  match unescape p .encodePath with
  | .error e => .error e
  | .ok path =>
    if p = escape path .encodePath then .ok { u with Path := path, RawPath := [] }
    else .ok { u with Path := path, RawPath := p }

/-- `(*URL).setFragment`. -/
def URL.setFragment (u : URL) (f : GoString) : Except UrlErr URL :=
  match unescape f .encodeFragment with
  | .error e => .error e
  | .ok frag =>
    if f = escape frag .encodeFragment then .ok { u with Fragment := frag, RawFragment := [] }
    else .ok { u with Fragment := frag, RawFragment := f }

/-- The second half of `url.parse`, after the scheme and the query are split
off: `rest` is an opaque part, or an authority and a path, or a path. -/
def parseHier (url : URL) (rest : GoString) : Except UrlErr URL :=
  if !HasPrefix rest (ascii "/") && url.Scheme ≠ [] then
    -- We consider rootless paths per RFC 3986 as opaque.
    .ok { url with Opaque := rest }
  else if !HasPrefix rest (ascii "/") && Contains (Cut rest (ascii "/")).1 (ascii ":") then
    -- First path segment has colon. Not allowed in relative URL.
    .error (.errorString (ascii "first path segment in URL cannot contain colon"))
  else if (url.Scheme ≠ [] || !HasPrefix rest (ascii "///")) && HasPrefix rest (ascii "//") then
    let authority := rest.drop 2
    match Index authority (ascii "/") with
    | some i =>
      match parseAuthority (authority.take i) with
      | .error e => .error e
      | .ok (user, host) => { url with User := user, Host := host }.setPath (authority.drop i)
    | none =>
      match parseAuthority authority with
      | .error e => .error e
      | .ok (user, host) => { url with User := user, Host := host }.setPath []
  else if url.Scheme ≠ [] && HasPrefix rest (ascii "/") then
    -- OmitHost is set to true when rawURL has an empty host (authority).
    { url with OmitHost := true }.setPath rest
  else url.setPath rest

/-- `url.parse(rawURL, viaRequest)` with `viaRequest = false`, as `url.Parse`
calls it: the scheme is split off, then the query at the first `?`. -/
def parse (rawURL : GoString) : Except UrlErr URL :=
  if stringContainsCTLByte rawURL then
    .error (.errorString (ascii "net/url: invalid control character in URL"))
  else if rawURL = ascii "*" then .ok { URL.zero with Path := ascii "*" }
  else
    -- Split off possible leading "http:", "mailto:", etc.
    match getScheme rawURL with
    | .error e => .error e
    | .ok (scheme, rest) =>
      let url := { URL.zero with Scheme := ToLower scheme }
      if HasSuffix rest (ascii "?") && Count rest (ascii "?") = 1 then
        parseHier { url with ForceQuery := true } (rest.take (rest.length - 1))
      else
        parseHier { url with RawQuery := (Cut rest (ascii "?")).2.1 } (Cut rest (ascii "?")).1

/-- `url.Parse`: the fragment is cut off at the first `#` and parsed apart. -/
def Parse (rawURL : GoString) : Except Error URL :=
  let u := (Cut rawURL (ascii "#")).1
  let frag := (Cut rawURL (ascii "#")).2.1
  match parse u with
  | .error err => .error { Op := ascii "parse", URL := u, Err := err }
  | .ok url =>
    if frag = [] then .ok url
    else
      match url.setFragment frag with
      | .error err => .error { Op := ascii "parse", URL := rawURL, Err := err }
      | .ok url => .ok url

/-- `url.validEncoded`. -/
def validEncoded (s : GoString) (mode : encoding) : Bool :=
  s.all (fun c => c ∈ ascii "!$&'()*+,;=:@[]%" || !shouldEscape c mode)

/-- `(*URL).EscapedPath`. -/
def URL.EscapedPath (u : URL) : GoString :=
  if u.RawPath ≠ [] ∧ validEncoded u.RawPath .encodePath = true ∧
      unescape u.RawPath .encodePath = .ok u.Path then u.RawPath
  else if u.Path = ascii "*" then ascii "*"
  else escape u.Path .encodePath

/-- `(*URL).EscapedFragment`. -/
def URL.EscapedFragment (u : URL) : GoString :=
  if u.RawFragment ≠ [] ∧ validEncoded u.RawFragment .encodeFragment = true ∧
      unescape u.RawFragment .encodeFragment = .ok u.Fragment then u.RawFragment
  else escape u.Fragment .encodeFragment

/-- The part of `(*URL).String` that writes the authority and the path of a
URL without opaque part onto `buf`, which holds `scheme:` or nothing. Where the
host is omitted after a scheme, a path that begins with `//` would be read back
as an authority: its first slash is written `%2F`, as the Go releases after
1.22 do (`http:%2F/x` for the path `//x`; Go 1.22 wrote `http://x`). -/
def URL.writeHierPart (u : URL) (buf : GoString) : GoString :=
  let buf :=
    if u.Scheme ≠ [] || u.Host ≠ [] || u.User.isSome then
      if u.OmitHost && u.Host = [] && u.User.isNone then buf -- omit the host
      else
        let buf := if u.Host ≠ [] || u.Path ≠ [] || u.User.isSome then buf ++ ascii "//" else buf
        let buf :=
          match u.User with
          | some ui => buf ++ ui.String ++ ascii "@"
          | none => buf
        if u.Host ≠ [] then buf ++ escape u.Host .encodeHost else buf
    else buf
  let path := u.EscapedPath
  let slashes : Bool :=
    decide (u.Scheme ≠ []) && u.OmitHost && u.Host = [] && u.User.isNone &&
      HasPrefix path (ascii "//")
  let buf := if slashes then buf ++ ascii "%2F" else buf
  let path := if slashes then path.drop 1 else path
  let buf := if path ≠ [] && path.head? ≠ some 0x2f && u.Host ≠ [] then buf ++ ascii "/" else buf
  let buf :=
    if buf = [] && Contains (Cut path (ascii "/")).1 (ascii ":") then buf ++ ascii "./" else buf
  buf ++ path

/-- `(*URL).String`. -/
def URL.String (u : URL) : GoString :=
  let buf : GoString := if u.Scheme ≠ [] then u.Scheme ++ ascii ":" else []
  let buf := if u.Opaque ≠ [] then buf ++ u.Opaque else u.writeHierPart buf
  let buf := if u.ForceQuery || u.RawQuery ≠ [] then buf ++ ascii "?" ++ u.RawQuery else buf
  if u.Fragment ≠ [] then buf ++ ascii "#" ++ u.EscapedFragment else buf

/-- `url.Values`, a `map[string][]string`, as an association list with one
binding per key; the order of the bindings has no meaning. -/
abbrev Values := List (GoString × List GoString)

/-- The map index expression `v[key]`. -/
def Values.index (v : Values) (key : GoString) : List GoString :=
  (v.lookup key).getD []

/-- The map assignment `v[key] = vs`. -/
def Values.store (v : Values) (key : GoString) (vs : List GoString) : Values :=
  (key, vs) :: v.filter (fun p => p.1 ≠ key)

/-- `url.Values.Set`: `v[key] = []string{value}`. -/
def Values.Set (v : Values) (key value : GoString) : Values := v.store key [value]

/-- The loop of `url.parseQuery` with the map `m` and the error `err` found so
far. Every iteration removes at least one byte of `query` or empties it, so
`fuel = len(query)` iterations are enough. -/
def parseQueryLoop : Nat → GoString → Values × Option UrlErr → Values × Option UrlErr
  | 0, _, acc => acc
  | fuel + 1, query, (m, err) =>
    if query = [] then (m, err)
    else
      let key := (Cut query (ascii "&")).1
      let query := (Cut query (ascii "&")).2.1
      if Contains key (ascii ";") then
        parseQueryLoop fuel query
          (m, some (.errorString (ascii "invalid semicolon separator in query")))
      else if key = [] then parseQueryLoop fuel query (m, err)
      else
        let value := (Cut key (ascii "=")).2.1
        let key := (Cut key (ascii "=")).1
        match QueryUnescape key with
        | .error err1 => parseQueryLoop fuel query (m, if err = none then some err1 else err)
        | .ok key =>
          match QueryUnescape value with
          | .error err1 => parseQueryLoop fuel query (m, if err = none then some err1 else err)
          | .ok value => parseQueryLoop fuel query (m.store key (m.index key ++ [value]), err)

/-- `url.ParseQuery`. -/
def ParseQuery (query : GoString) : Values × Option UrlErr :=
  parseQueryLoop query.length query ([], none)

/-- `(*URL).Query`: the parsed `RawQuery`, malformed pairs dropped. -/
def URL.Query (u : URL) : Values := (ParseQuery u.RawQuery).1

/-- The inner loop of `url.Values.Encode`: the pairs `key=value` of one key,
each preceded by `&` unless the buffer is empty. -/
def encodeValues (keyEscaped : GoString) : List GoString → GoString → GoString
  | [], buf => buf
  | value :: vs, buf =>
    encodeValues keyEscaped vs
      ((if buf ≠ [] then buf ++ ascii "&" else buf) ++ keyEscaped ++ ascii "=" ++ QueryEscape value)

/-- The outer loop of `url.Values.Encode` over the sorted keys. -/
def encodeKeys (v : Values) : List GoString → GoString → GoString
  | [], buf => buf
  | k :: keys, buf => encodeKeys v keys (encodeValues (QueryEscape k) (v.index k) buf)

/-- `url.Values.Encode`: the "URL encoded" form `bar=baz&foo=quux`, sorted by
key. -/
def Values.Encode (v : Values) : GoString :=
  encodeKeys v (sortStrings (v.map (·.1))) []

/-! ## Package `connector` -/

/-- `connector.Scopes`. -/
structure Scopes where
  OfflineAccess : Bool
  Groups : Bool
deriving DecidableEq, Repr

/-- `connector.Identity`; a `nil` slice is the empty list. -/
structure Identity where
  UserID : GoString
  Username : GoString
  PreferredUsername : GoString
  Email : GoString
  EmailVerified : Bool
  Groups : List GoString
  ConnectorData : List Byte
deriving DecidableEq, Repr

/-- The zero value `connector.Identity{}`. -/
def Identity.zero : Identity :=
  { UserID := [], Username := [], PreferredUsername := [], Email := [],
    EmailVerified := false, Groups := [], ConnectorData := [] }

/-! ## Package `authproxy` -/

/-- `Config`. -/
structure Config where
  UserHeader : GoString
deriving DecidableEq, Repr

/-- The struct `callback`. Its `logger` field is left out: `Debugf` is called
for its side effect only and returns nothing. -/
structure callback where
  userHeader : GoString
  pathSuffix : GoString
deriving DecidableEq, Repr

/-- `Config.Open`. -/
def Config.Open (c : Config) (id : GoString) : callback × Option GoString :=
  let userHeader := if c.UserHeader = [] then ascii "X-Remote-User" else c.UserHeader
  ({ userHeader := userHeader, pathSuffix := ascii "/" ++ id }, none)

/-- The error `fmt.Errorf("failed to parse callbackURL %q: %v", callbackURL, err)`
of `LoginURL`, given by the two operands of the format. -/
structure CallbackURLError where
  callbackURL : GoString
  err : Error
deriving DecidableEq, Repr

/-- The message of a `CallbackURLError`. `Quote` stands for `strconv.Quote`
(the verb `%q`), which is not embedded. -/
def CallbackURLError.Error (Quote : GoString → GoString) (e : CallbackURLError) : GoString :=
  ascii "failed to parse callbackURL " ++ Quote e.callbackURL ++ ascii ": " ++ e.err.Error Quote

/-- `callback.LoginURL`. -/
def callback.LoginURL (m : callback) (_s : Scopes) (callbackURL state : GoString) :
    GoString × Option CallbackURLError :=
  match Parse callbackURL with
  | .error err => ([], some { callbackURL := callbackURL, err := err })
  | .ok u =>
    let u := { u with Path := u.Path ++ m.pathSuffix }
    let v := u.Query
    let v := v.Set (ascii "state") state
    let u := { u with RawQuery := v.Encode }
    (u.String, none)

/-- `callback.HandleCallback`. The error is given by its message. -/
def callback.HandleCallback (m : callback) (_s : Scopes) (r : Request) :
    Identity × Option GoString :=
  let remoteUser := r.Header.Get m.userHeader
  if remoteUser = [] then
    (Identity.zero, some (ascii "need login redirect"))
  else
    let identity := { Identity.zero with UserID := remoteUser }
    let displayName := r.Header.Get (ascii "X-Shib-displayName")
    let identity :=
      if displayName ≠ [] then { identity with Username := displayName } else identity
    let eppn := r.Header.Get (ascii "X-Shib-eduPersonPrincipalName")
    let identity :=
      if eppn ≠ [] then { identity with PreferredUsername := eppn } else identity
    let shibMail := r.Header.Get (ascii "X-Shib-mail")
    let identity :=
      if shibMail ≠ [] then { identity with Email := shibMail, EmailVerified := true }
      else identity
    let shibAffiliation := r.Header.Get (ascii "X-Shib-eduPersonScopedAffiliation")
    let identity :=
      if shibAffiliation ≠ [] then
        { identity with Groups := Split shibAffiliation (ascii ";") }
      else identity
    (identity, none)

/-! ## Sample values -/

/-- The connector opened from the default configuration under the id
`authproxy`. -/
def defaultConnector : callback := (Config.Open { UserHeader := [] } (ascii "authproxy")).1

/-- No scope requested. -/
def noScopes : Scopes := { OfflineAccess := false, Groups := false }

/-- A request carrying the headers `h`. -/
def requestWith (h : Header) : Request :=
  { Method := ascii "GET", URL := ascii "/callback/authproxy", Header := h, Body := [] }

/-- A request carrying all five headers the connector reads. -/
def fullRequest : Request :=
  requestWith
    [(ascii "X-Remote-User", [ascii "alice"]),
     (ascii "X-Shib-Displayname", [ascii "Alice A."]),
     (ascii "X-Shib-Edupersonprincipalname", [ascii "alice@example.org"]),
     (ascii "X-Shib-Mail", [ascii "alice@example.com"]),
     (ascii "X-Shib-Edupersonscopedaffiliation", [ascii "staff;alumni;"])]

/-- The URL `https://dex.example.com/callback?foo=bar&state=old#frag`, parsed. -/
def sampleURL : URL :=
  { Scheme := ascii "https", Opaque := [], User := none, Host := ascii "dex.example.com",
    Path := ascii "/callback", RawPath := [], OmitHost := false, ForceQuery := false,
    RawQuery := ascii "foo=bar&state=old", Fragment := ascii "frag", RawFragment := [] }

/-- The URL `http://[fe80::1%25é]/cb`, whose host has an IPv6 zone with the two
non-ASCII bytes of `é`. -/
def zoneCallbackURL : GoString := ascii "http://[fe80::1%25" ++ [0xc3, 0xa9] ++ ascii "]/cb"

/-- The URL `https://dex.example.com/a%20b/c`, parsed: the path is written in
the default escaped form, so that the raw path is empty. -/
def spacePathURL : URL :=
  { Scheme := ascii "https", Opaque := [], User := none, Host := ascii "dex.example.com",
    Path := ascii "/a b/c", RawPath := [], OmitHost := false, ForceQuery := false,
    RawQuery := [], Fragment := [], RawFragment := [] }

/-- The URL `https://h/cb?z=1&a=2&z=3&state=old`, parsed. -/
def multiQueryURL : URL :=
  { Scheme := ascii "https", Opaque := [], User := none, Host := ascii "h",
    Path := ascii "/cb", RawPath := [], OmitHost := false, ForceQuery := false,
    RawQuery := ascii "z=1&a=2&z=3&state=old", Fragment := [], RawFragment := [] }

/-- The relative reference `a%3Ab`, parsed: the path is `a:b`, and the raw path
is kept because the path is not written in the default escaped form. -/
def colonPathURL : URL :=
  { Scheme := [], Opaque := [], User := none, Host := [],
    Path := ascii "a:b", RawPath := ascii "a%3Ab", OmitHost := false, ForceQuery := false,
    RawQuery := [], Fragment := [], RawFragment := [] }

/-! ## Auxiliary notions for the proofs -/

/-- The modes in which `unescape` makes no check beyond the form of the escapes. -/
def plainMode (mode : encoding) : Prop := mode ≠ .encodeHost ∧ mode ≠ .encodeZone

/-- The bytes `url.getScheme` accepts in a scheme. -/
def isSchemeByte (c : Byte) : Bool :=
  isLowerAZ c || isUpperAZ c || isDigit c || c = 0x2b || c = 0x2d || c = 0x2e

/-- A scheme as `url.getScheme` accepts it: a letter followed by scheme bytes. -/
def validScheme (sc : GoString) : Prop :=
  (∃ c t, sc = c :: t ∧ (isLowerAZ c || isUpperAZ c) = true) ∧ ∀ c ∈ sc, isSchemeByte c = true

/-- The authority `[userinfo@]host` as `(*URL).String` writes it. -/
def authorityText (u : URL) : GoString :=
  (match u.User with
    | some ui => ui.String ++ ascii "@"
    | none => []) ++ escape u.Host .encodeHost

/-- The fragment, with its `#`, as `(*URL).String` writes it. -/
def fragmentText (u : URL) : GoString :=
  if u.Fragment ≠ [] then ascii "#" ++ u.EscapedFragment else []

/-- What `(*URL).String` writes between `scheme:` and `?query` for the URL `u`
with the path `path`, escaped afresh: the opaque part, or the path alone when
the host is omitted (with `%2F` for its first slash when it begins with `//`),
or `//`, the authority and the path. -/
def hierText (u : URL) (path : GoString) : GoString :=
  if u.Opaque ≠ [] then u.Opaque
  else if u.OmitHost = true ∧ u.Host = [] ∧ u.User = none then
    if HasPrefix (escape path .encodePath) (ascii "//") = true then
      ascii "%2F" ++ (escape path .encodePath).drop 1
    else escape path .encodePath
  else
    ascii "//" ++ authorityText u ++
      (if escape path .encodePath ≠ [] ∧ (escape path .encodePath).head? ≠ some 0x2f ∧
          u.Host ≠ [] then ascii "/" else []) ++
      escape path .encodePath

/-- One pair `key=value` of an encoded query. -/
def encodePair (p : GoString × GoString) : GoString :=
  QueryEscape p.1 ++ 0x3d :: QueryEscape p.2

/-- The pairs `key=value` joined by `&`. -/
def joinPairs : List (GoString × GoString) → GoString
  | [] => []
  | [p] => encodePair p
  | p :: p2 :: ps => encodePair p ++ 0x26 :: joinPairs (p2 :: ps)

/-- The pairs of the map `v` in the order of `keys`, each key with its values
in their order. -/
def pairsOf (v : Values) (keys : List GoString) : List (GoString × GoString) :=
  keys.flatMap (fun k => (v.index k).map (fun value => (k, value)))

/-- The map after the assignments `m[key] = append(m[key], value)` for the
pairs `ps` in turn. -/
def addPairs (m : Values) (ps : List (GoString × GoString)) : Values :=
  ps.foldl (fun m p => m.store p.1 (m.index p.1 ++ [p.2])) m

/-- The bytes a parsed host may hold outside a zone: a non-ASCII byte, or an
ASCII byte that `shouldEscape` lets through in a host. -/
def hostByte (c : Byte) : Bool := decide (0x80 ≤ c) || !shouldEscape c .encodeHost

/-- The bytes a parsed zone may hold: those of a host, `%` and the space. -/
def zoneByte (c : Byte) : Bool := hostByte c || decide (c = 0x25) || decide (c = 0x20)

/-- What `url.parseHost` guarantees about the host it returns: either it does
not begin with `[`, holds host bytes and `%`, and what follows its last colon
are digits; or it is `[...]port` with host bytes between the brackets; or it is
`[...%zone]port`. -/
def HostInv (H : GoString) : Prop :=
  (H.head? ≠ some 0x5b ∧ (∀ c ∈ H, hostByte c = true ∨ c = 0x25) ∧
    ((0x3a : Byte) ∉ H ∨ ∃ pre digits, H = pre ++ 0x3a :: digits ∧ ∀ d ∈ digits, isDigit d = true)) ∨
  (∃ h1 port, H = h1 ++ 0x5d :: port ∧ h1.head? = some 0x5b ∧ (∀ c ∈ h1, hostByte c = true) ∧
    (0x5d : Byte) ∉ port ∧ validOptionalPort port = true) ∨
  (∃ h1 h2 port, H = h1 ++ 0x25 :: (h2 ++ 0x5d :: port) ∧ h1.head? = some 0x5b ∧
    (∀ c ∈ h1, hostByte c = true) ∧ (∀ c ∈ h2, zoneByte c = true) ∧
    (0x5d : Byte) ∉ port ∧ validOptionalPort port = true)

/-- The zone of an IPv6 literal host, if any, holds ASCII bytes only: in a host
that begins with `[` no byte of `0x80` or more follows a `%`. -/
def zoneASCII (H : GoString) : Prop :=
  H.head? = some 0x5b → ∀ x ∈ H.dropWhile (fun c => c ≠ 0x25), x < 0x80

/-- What `url.Parse` guarantees about a URL with a scheme that it made of the
text `body`. -/
structure ParsedInv (body : GoString) (u : URL) : Prop where
  scheme : validScheme u.Scheme
  opaque_mem : ∀ c ∈ u.Opaque, c ≠ 0x3f ∧ c ∈ body
  opaque_head : u.Opaque.head? ≠ some 0x2f
  path_head : u.Opaque = [] → u.Path = [] ∨ u.Path.head? = some 0x2f
  rawPath : u.RawPath ≠ [] → unescape u.RawPath .encodePath = .ok u.Path
  omitHost : u.OmitHost = true → u.Host = [] ∧ u.User = none ∧ u.Path.head? = some 0x2f
  host : HostInv u.Host


/-- What `(*URL).String` writes before the path of a URL without opaque part
that has a path: the scheme and its colon, then `//` and the authority, each
unless there is none or it is left out. -/
def authorityPrefix (u : URL) : GoString :=
  (if u.Scheme ≠ [] then u.Scheme ++ ascii ":" else []) ++
    (if u.Host = [] ∧ u.User = none ∧ (u.Scheme = [] ∨ u.OmitHost = true) then []
      else ascii "//" ++ authorityText u)

/-- The text `url.parse` hands to `setPath` when `rest` is what is left of the
URL once the scheme (there is one if `hasScheme`) and the query are split off:
nothing for an opaque part, what follows the authority if there is one, `rest`
otherwise. -/
def hierPathText (hasScheme : Bool) (rest : GoString) : GoString :=
  if !HasPrefix rest (ascii "/") && hasScheme then []
  else if (hasScheme || !HasPrefix rest (ascii "///")) && HasPrefix rest (ascii "//") then
    match Index (rest.drop 2) (ascii "/") with
    | some i => (rest.drop 2).drop i
    | none => []
  else rest

/-- The path of `rawURL` as it is written in `rawURL`: the text `url.Parse`
takes for the path and hands to `setPath`, that is what is left of the text
before the first `#` once the scheme, the query and the authority are split
off. -/
def pathText (rawURL : GoString) : GoString :=
  if (Cut rawURL (ascii "#")).1 = ascii "*" then ascii "*"
  else
    match getScheme (Cut rawURL (ascii "#")).1 with
    | .error _ => []
    | .ok (scheme, rest) =>
      if HasSuffix rest (ascii "?") && Count rest (ascii "?") = 1 then
        hierPathText (decide (scheme ≠ [])) (rest.take (rest.length - 1))
      else hierPathText (decide (scheme ≠ [])) (Cut rest (ascii "?")).1

/-- The query of a URL string as `url.Parse` delimits it: what follows the
first `?` in the text before the first `#`. -/
def queryText (s : GoString) : GoString := (Cut (Cut s (ascii "#")).1 (ascii "?")).2.1

/-! ## Lemmas on `strings.Split` with a one-byte separator -/

theorem Index_single_none (c : Byte) (s : GoString) (h : c ∉ s) : Index s [c] = none := by
  induction s with
  | nil => simp [Index]
  | cons d t ih =>
    have hd : c ≠ d := fun e => h (e ▸ List.mem_cons_self _ _)
    have ht : c ∉ t := fun e => h (List.mem_cons_of_mem _ e)
    simp [Index, HasPrefix, List.isPrefixOf, hd, ih ht]

theorem Index_single_some (c : Byte) (s : GoString) (h : c ∈ s) :
    ∃ m, Index s [c] = some m ∧ c ∉ s.take m ∧ s = s.take m ++ c :: s.drop (m + 1) := by
  induction s with
  | nil => simp at h
  | cons d t ih =>
    by_cases hd : c = d
    · exact ⟨0, by simp [Index, HasPrefix, List.isPrefixOf, hd], by simp, by simp [hd]⟩
    · have ht : c ∈ t := by
        rcases List.mem_cons.mp h with e | e
        · exact absurd e hd
        · exact e
      obtain ⟨m, h1, h2, h3⟩ := ih ht
      refine ⟨m + 1, by simp [Index, HasPrefix, List.isPrefixOf, hd, h1], ?_, ?_⟩
      · simp only [List.take_succ_cons, List.mem_cons, not_or]
        exact ⟨hd, h2⟩
      · simp only [List.take_succ_cons, List.drop_succ_cons, List.cons_append]
        rw [← h3]

theorem genSplitLoop_ne_nil (sep : GoString) (n : Nat) (s : GoString) :
    genSplitLoop sep n s ≠ [] := by
  cases n with
  | zero => simp [genSplitLoop]
  | succ n =>
    simp only [genSplitLoop]
    split <;> simp

theorem Join_cons_of_ne_nil (x : GoString) (l : List GoString) (sep : GoString) (h : l ≠ []) :
    Join (x :: l) sep = x ++ sep ++ Join l sep := by
  cases l with
  | nil => exact absurd rfl h
  | cons y r => simp [Join]

theorem Join_genSplitLoop (c : Byte) (n : Nat) (s : GoString) :
    Join (genSplitLoop [c] n s) [c] = s := by
  induction n generalizing s with
  | zero => simp [genSplitLoop, Join]
  | succ n ih =>
    by_cases h : c ∈ s
    · obtain ⟨m, h1, _, h3⟩ := Index_single_some c s h
      simp only [genSplitLoop, h1, List.length_cons, List.length_nil, Nat.zero_add]
      rw [Join_cons_of_ne_nil _ _ _ (genSplitLoop_ne_nil _ _ _), ih]
      simpa using h3.symm
    · simp [genSplitLoop, Index_single_none c s h, Join]

theorem count_drop_of_split (c : Byte) (s : GoString) (m : Nat) (h2 : c ∉ s.take m)
    (h3 : s = s.take m ++ c :: s.drop (m + 1)) :
    s.count c = (s.drop (m + 1)).count c + 1 := by
  conv_lhs => rw [h3]
  rw [List.count_append, List.count_cons_self, List.count_eq_zero_of_not_mem h2]
  omega

theorem genSplitLoop_not_mem (c : Byte) (n : Nat) (s : GoString) (hn : s.count c ≤ n) :
    ∀ g ∈ genSplitLoop [c] n s, c ∉ g := by
  induction n generalizing s with
  | zero =>
    intro g hg
    simp only [genSplitLoop, List.mem_singleton] at hg
    subst hg
    exact List.count_eq_zero.mp (by omega)
  | succ n ih =>
    by_cases h : c ∈ s
    · obtain ⟨m, h1, h2, h3⟩ := Index_single_some c s h
      have hc := count_drop_of_split c s m h2 h3
      intro g hg
      simp only [genSplitLoop, h1, List.length_cons, List.length_nil, Nat.zero_add, List.mem_cons] at hg
      rcases hg with e | e
      · subst e; exact h2
      · exact ih _ (by omega) g e
    · intro g hg
      simp only [genSplitLoop, Index_single_none c s h, List.mem_singleton] at hg
      subst hg; exact h

theorem genSplitLoop_length (c : Byte) (n : Nat) (s : GoString) (hn : s.count c ≤ n) :
    (genSplitLoop [c] n s).length = s.count c + 1 := by
  induction n generalizing s with
  | zero =>
    have : s.count c = 0 := by omega
    simp [genSplitLoop, this]
  | succ n ih =>
    by_cases h : c ∈ s
    · obtain ⟨m, h1, h2, h3⟩ := Index_single_some c s h
      have hc := count_drop_of_split c s m h2 h3
      simp only [genSplitLoop, h1, List.length_cons, List.length_nil, Nat.zero_add]
      rw [ih _ (by omega)]
      omega
    · simp [genSplitLoop, Index_single_none c s h, List.count_eq_zero_of_not_mem h]

theorem Split_single (c : Byte) (s : GoString) :
    Split s [c] = genSplitLoop [c] (s.count c) s := by
  simp [Split, Count]

/-! ## `HandleCallback` -/

/-- The result of `HandleCallback` when the primary header has a value. -/
theorem HandleCallback_of_ne (m : callback) (s : Scopes) (r : Request)
    (h : r.Header.Get m.userHeader ≠ []) :
    m.HandleCallback s r =
      ({ UserID := r.Header.Get m.userHeader,
         Username := r.Header.Get (ascii "X-Shib-displayName"),
         PreferredUsername := r.Header.Get (ascii "X-Shib-eduPersonPrincipalName"),
         Email := r.Header.Get (ascii "X-Shib-mail"),
         EmailVerified := decide (r.Header.Get (ascii "X-Shib-mail") ≠ []),
         Groups :=
           if r.Header.Get (ascii "X-Shib-eduPersonScopedAffiliation") ≠ [] then
             Split (r.Header.Get (ascii "X-Shib-eduPersonScopedAffiliation")) (ascii ";")
           else [],
         ConnectorData := [] }, none) := by
  simp only [callback.HandleCallback, if_neg h, Identity.zero]
  split_ifs <;> simp_all

/-- The result of `HandleCallback` when the primary header has no value. -/
theorem HandleCallback_of_eq (m : callback) (s : Scopes) (r : Request)
    (h : r.Header.Get m.userHeader = []) :
    m.HandleCallback s r = (Identity.zero, some (ascii "need login redirect")) := by
  simp only [callback.HandleCallback, if_pos h]

theorem Header.Get_eq_nil_iff (h : Header) (key : GoString) :
    h.Get key = [] ↔
      h.index (CanonicalMIMEHeaderKey key) = [] ∨
        (h.index (CanonicalMIMEHeaderKey key)).head? = some [] := by
  unfold Header.Get
  cases h.index (CanonicalMIMEHeaderKey key) with
  | nil => simp
  | cons v vs => simp

/-! ## Lemmas on the `strings` functions -/

theorem ascii_amp : ascii "&" = [0x26] := by decide
theorem ascii_eq : ascii "=" = [0x3d] := by decide
theorem ascii_semi : ascii ";" = [0x3b] := by decide
theorem ascii_question : ascii "?" = [0x3f] := by decide
theorem ascii_hash : ascii "#" = [0x23] := by decide
theorem ascii_slash : ascii "/" = [0x2f] := by decide
theorem ascii_colon : ascii ":" = [0x3a] := by decide
theorem ascii_at : ascii "@" = [0x40] := by decide
theorem ascii_slash2 : ascii "//" = [0x2f, 0x2f] := by decide
theorem ascii_slash3 : ascii "///" = [0x2f, 0x2f, 0x2f] := by decide
theorem ascii_star : ascii "*" = [0x2a] := by decide

theorem HasPrefix_single (c : Byte) (s : GoString) : HasPrefix s [c] = (s.head? == some c) := by
  cases s with
  | nil => simp [HasPrefix, List.isPrefixOf]
  | cons d t =>
    simp only [HasPrefix, List.isPrefixOf, List.head?_cons, Bool.and_true]
    by_cases h : c = d
    · simp [h]
    · have h2 : ¬ d = c := fun e => h e.symm
      simp [h, h2]

theorem Index_single_append (c : Byte) (pre post : GoString) (h : c ∉ pre) :
    Index (pre ++ c :: post) [c] = some pre.length := by
  induction pre with
  | nil => simp [Index, HasPrefix, List.isPrefixOf]
  | cons d t ih =>
    have hd : c ≠ d := fun e => h (e ▸ List.mem_cons_self _ _)
    have ht : c ∉ t := fun e => h (List.mem_cons_of_mem _ e)
    simp [Index, HasPrefix, List.isPrefixOf, hd, ih ht]

theorem Cut_single_append (c : Byte) (pre post : GoString) (h : c ∉ pre) :
    Cut (pre ++ c :: post) [c] = (pre, post, true) := by
  simp [Cut, Index_single_append c pre post h]

theorem Cut_single_none (c : Byte) (s : GoString) (h : c ∉ s) :
    Cut s [c] = (s, [], false) := by
  simp [Cut, Index_single_none c s h]

theorem Contains_single (c : Byte) (s : GoString) : Contains s [c] = decide (c ∈ s) := by
  by_cases h : c ∈ s
  · obtain ⟨m, h1, _, _⟩ := Index_single_some c s h
    simp [Contains, h1, h]
  · simp [Contains, Index_single_none c s h, h]

/-! ## Lemmas on `escape` and `unescape` -/

set_option maxRecDepth 1000000 in
theorem upperhex_spec : ∀ c : Byte,
    ishex (upperhex (c >>> 4)) = true ∧ ishex (upperhex (c &&& 15)) = true ∧
      unhex (upperhex (c >>> 4)) <<< 4 ||| unhex (upperhex (c &&& 15)) = c := by
  decide

set_option maxRecDepth 1000000 in
theorem shouldEscape_pct : ∀ (mode : encoding) (c : Byte),
    shouldEscape c mode = false → c ≠ 0x25 := by
  intro mode
  cases mode <;> decide

set_option maxRecDepth 1000000 in
theorem shouldEscape_query_plus : ∀ c : Byte,
    shouldEscape c .encodeQueryComponent = false → c ≠ 0x2b ∧ c ≠ 0x20 := by
  decide


theorem unescapeCheck_pct (mode : encoding) (hm : plainMode mode) (a b : Byte) (rest : GoString)
    (ha : ishex a = true) (hb : ishex b = true) :
    unescapeCheck mode (0x25 :: a :: b :: rest) = unescapeCheck mode rest := by
  simp [unescapeCheck, ha, hb, hm.1, hm.2]

theorem unescapeCheck_cons (mode : encoding) (hm : plainMode mode) (c : Byte) (rest : GoString)
    (hc : c ≠ 0x25) : unescapeCheck mode (c :: rest) = unescapeCheck mode rest := by
  match rest with
  | [] => simp [unescapeCheck, hc, hm.1, hm.2]
  | [a] => simp [unescapeCheck, hc, hm.1, hm.2]
  | a :: b :: r => simp [unescapeCheck, hc, hm.1, hm.2]

theorem unescapeDecode_pct (mode : encoding) (a b : Byte) (rest : GoString) :
    unescapeDecode mode (0x25 :: a :: b :: rest) =
      (unhex a <<< 4 ||| unhex b) :: unescapeDecode mode rest := by
  simp [unescapeDecode]

theorem unescapeDecode_cons (mode : encoding) (c : Byte) (rest : GoString) (hc : c ≠ 0x25) :
    unescapeDecode mode (c :: rest) =
      (if c = 0x2b ∧ mode = .encodeQueryComponent then 0x20 else c) ::
        unescapeDecode mode rest := by
  match rest with
  | [] => by_cases h : c = 0x2b <;> by_cases h2 : mode = .encodeQueryComponent <;>
      simp [unescapeDecode, hc, h, h2]
  | [a] => by_cases h : c = 0x2b <;> by_cases h2 : mode = .encodeQueryComponent <;>
      simp [unescapeDecode, hc, h, h2]
  | a :: b :: r => by_cases h : c = 0x2b <;> by_cases h2 : mode = .encodeQueryComponent <;>
      simp [unescapeDecode, hc, h, h2]

theorem unescapeCheck_escapeByte (mode : encoding) (hm : plainMode mode) (c : Byte)
    (rest : GoString) :
    unescapeCheck mode (escapeByte mode c ++ rest) = unescapeCheck mode rest := by
  unfold escapeByte
  split_ifs with h1 h2
  · exact unescapeCheck_cons mode hm _ _ (by decide)
  · exact unescapeCheck_pct mode hm _ _ _ (upperhex_spec c).1 (upperhex_spec c).2.1
  · exact unescapeCheck_cons mode hm _ _ (shouldEscape_pct mode c (by simpa using h2))

theorem unescapeDecode_escapeByte (mode : encoding) (c : Byte) (rest : GoString) :
    unescapeDecode mode (escapeByte mode c ++ rest) = c :: unescapeDecode mode rest := by
  unfold escapeByte
  split_ifs with h1 h2
  · simp only [Bool.and_eq_true, decide_eq_true_eq] at h1
    rw [List.singleton_append, unescapeDecode_cons mode _ _ (by decide)]
    simp [h1.1, h1.2]
  · rw [List.cons_append, List.cons_append, List.cons_append, List.nil_append,
      unescapeDecode_pct, (upperhex_spec c).2.2]
  · have h3 : shouldEscape c mode = false := by simpa using h2
    rw [List.singleton_append, unescapeDecode_cons mode _ _ (shouldEscape_pct mode c h3)]
    have : ¬ (c = 0x2b ∧ mode = .encodeQueryComponent) := by
      rintro ⟨e1, e2⟩
      rw [e2] at h3
      exact (shouldEscape_query_plus c h3).1 e1
    simp [this]

theorem unescapeCheck_escape (mode : encoding) (hm : plainMode mode) (s : GoString) :
    unescapeCheck mode (escape s mode) = none := by
  induction s with
  | nil => simp [escape, unescapeCheck]
  | cons c t ih => rw [escape, unescapeCheck_escapeByte mode hm, ih]

theorem unescapeDecode_escape (mode : encoding) (s : GoString) :
    unescapeDecode mode (escape s mode) = s := by
  induction s with
  | nil => simp [escape, unescapeDecode]
  | cons c t ih => rw [escape, unescapeDecode_escapeByte, ih]

/-- Unescaping what `escape` wrote gives the string back, outside hosts. -/
theorem unescape_escape (mode : encoding) (hm : plainMode mode) (s : GoString) :
    unescape (escape s mode) mode = .ok s := by
  simp [unescape, unescapeCheck_escape mode hm, unescapeDecode_escape]

theorem escape_append (s t : GoString) (mode : encoding) :
    escape (s ++ t) mode = escape s mode ++ escape t mode := by
  induction s with
  | nil => simp [escape]
  | cons c r ih => simp [escape, ih]

theorem mem_escape {P : Byte → Prop} (mode : encoding)
    (h : ∀ c : Byte, ∀ x ∈ escapeByte mode c, P x) (s : GoString) :
    ∀ x ∈ escape s mode, P x := by
  induction s with
  | nil => simp [escape]
  | cons c r ih =>
    intro x hx
    rw [escape, List.mem_append] at hx
    rcases hx with hx | hx
    · exact h c x hx
    · exact ih x hx

theorem mem_escapeByte (mode : encoding) (c x : Byte) (hx : x ∈ escapeByte mode c) :
    (x = 0x2b ∧ mode = .encodeQueryComponent) ∨ x = 0x25 ∨ ishex x = true ∨
      shouldEscape x mode = false := by
  unfold escapeByte at hx
  split_ifs at hx with h1 h2
  · simp only [Bool.and_eq_true, decide_eq_true_eq] at h1
    simp only [List.mem_singleton] at hx
    exact Or.inl ⟨hx, h1.2⟩
  · simp only [List.mem_cons, List.mem_singleton, List.not_mem_nil, or_false] at hx
    rcases hx with e | e | e
    · exact Or.inr (Or.inl e)
    · exact Or.inr (Or.inr (Or.inl (e ▸ (upperhex_spec c).1)))
    · exact Or.inr (Or.inr (Or.inl (e ▸ (upperhex_spec c).2.1)))
  · simp only [List.mem_singleton] at hx
    subst hx
    exact Or.inr (Or.inr (Or.inr (by simpa using h2)))

set_option maxRecDepth 1000000 in
theorem ishex_safe : ∀ x : Byte, ishex x = true →
    x ≠ 0x26 ∧ x ≠ 0x3d ∧ x ≠ 0x3b ∧ x ≠ 0x23 ∧ x ≠ 0x3f ∧ x ≠ 0x2f ∧ x ≠ 0x40 ∧ x ≠ 0x3a := by
  decide

set_option maxRecDepth 1000000 in
theorem shouldEscape_query_safe : ∀ x : Byte, shouldEscape x .encodeQueryComponent = false →
    x ≠ 0x26 ∧ x ≠ 0x3d ∧ x ≠ 0x3b ∧ x ≠ 0x23 ∧ x ≠ 0x3f := by
  decide

set_option maxRecDepth 1000000 in
theorem shouldEscape_path_safe : ∀ x : Byte, shouldEscape x .encodePath = false →
    x ≠ 0x23 ∧ x ≠ 0x3f := by
  decide

set_option maxRecDepth 1000000 in
theorem shouldEscape_host_safe : ∀ x : Byte, shouldEscape x .encodeHost = false →
    x ≠ 0x23 ∧ x ≠ 0x3f ∧ x ≠ 0x2f ∧ x ≠ 0x40 := by
  decide

set_option maxRecDepth 1000000 in
theorem shouldEscape_user_safe : ∀ x : Byte, shouldEscape x .encodeUserPassword = false →
    x ≠ 0x23 ∧ x ≠ 0x3f ∧ x ≠ 0x2f ∧ x ≠ 0x40 ∧ x ≠ 0x3a := by
  decide

theorem escape_query_safe (s : GoString) : ∀ x ∈ escape s .encodeQueryComponent,
    x ≠ 0x26 ∧ x ≠ 0x3d ∧ x ≠ 0x3b ∧ x ≠ 0x23 ∧ x ≠ 0x3f := by
  refine mem_escape _ (fun c x hx => ?_) s
  rcases mem_escapeByte _ c x hx with h | h | h | h
  · rw [h.1]; decide
  · rw [h]; decide
  · have := ishex_safe x h; tauto
  · exact shouldEscape_query_safe x h

theorem escape_path_safe (s : GoString) : ∀ x ∈ escape s .encodePath, x ≠ 0x23 ∧ x ≠ 0x3f := by
  refine mem_escape _ (fun c x hx => ?_) s
  rcases mem_escapeByte _ c x hx with h | h | h | h
  · exact absurd h.2 (by decide)
  · rw [h]; decide
  · have := ishex_safe x h; tauto
  · exact shouldEscape_path_safe x h

theorem escape_host_safe (s : GoString) : ∀ x ∈ escape s .encodeHost,
    x ≠ 0x23 ∧ x ≠ 0x3f ∧ x ≠ 0x2f ∧ x ≠ 0x40 := by
  refine mem_escape _ (fun c x hx => ?_) s
  rcases mem_escapeByte _ c x hx with h | h | h | h
  · exact absurd h.2 (by decide)
  · rw [h]; decide
  · have := ishex_safe x h; tauto
  · exact shouldEscape_host_safe x h

theorem escape_user_safe (s : GoString) : ∀ x ∈ escape s .encodeUserPassword,
    x ≠ 0x23 ∧ x ≠ 0x3f ∧ x ≠ 0x2f ∧ x ≠ 0x40 ∧ x ≠ 0x3a := by
  refine mem_escape _ (fun c x hx => ?_) s
  rcases mem_escapeByte _ c x hx with h | h | h | h
  · exact absurd h.2 (by decide)
  · rw [h]; decide
  · have := ishex_safe x h; tauto
  · exact shouldEscape_user_safe x h

/-! ## Lemmas on `getScheme` -/

theorem getSchemeLoop_append (raw : GoString) (sc pre rest : GoString)
    (h1 : ∀ c ∈ sc, isSchemeByte c = true)
    (h2 : pre = [] → ∃ c t, sc = c :: t ∧ (isLowerAZ c || isUpperAZ c) = true) :
    getSchemeLoop raw pre (sc ++ 0x3a :: rest) = .ok (pre ++ sc, rest) := by
  induction sc generalizing pre with
  | nil =>
    have hp : pre ≠ [] := by
      intro e
      obtain ⟨c, t, h, _⟩ := h2 e
      cases h
    simp [getSchemeLoop, hp, isLowerAZ, isUpperAZ, isDigit]
  | cons c t ih =>
    have hc := h1 c (List.mem_cons_self _ _)
    have ht : ∀ d ∈ t, isSchemeByte d = true := fun d hd => h1 d (List.mem_cons_of_mem _ hd)
    have hrec : getSchemeLoop raw (pre ++ [c]) (t ++ 0x3a :: rest) = .ok (pre ++ c :: t, rest) := by
      rw [ih (pre ++ [c]) ht (fun e => by simp at e)]
      simp
    by_cases hl : (isLowerAZ c || isUpperAZ c) = true
    · simp only [List.cons_append, getSchemeLoop, hl, if_true]
      exact hrec
    · have hp : pre ≠ [] := by
        intro e
        obtain ⟨c', t', h, h'⟩ := h2 e
        cases h
        exact hl h'
      have hd : (isDigit c || decide (c = 0x2b) || decide (c = 0x2d) || decide (c = 0x2e)) = true := by
        simp only [isSchemeByte] at hc
        simp only [Bool.not_eq_true] at hl
        simp only [Bool.or_eq_true] at hc hl ⊢
        simp only [Bool.or_eq_false_iff] at hl
        rcases hc with ((((h | h) | h) | h) | h) | h
        · simp [hl.1] at h
        · simp [hl.2] at h
        · exact Or.inl (Or.inl (Or.inl h))
        · exact Or.inl (Or.inl (Or.inr h))
        · exact Or.inl (Or.inr h)
        · exact Or.inr h
      simp only [List.cons_append, getSchemeLoop, hl, hd, hp, if_true, if_false]
      exact hrec

theorem getScheme_append (sc rest : GoString) (h : validScheme sc) :
    getScheme (sc ++ 0x3a :: rest) = .ok (sc, rest) := by
  have := getSchemeLoop_append (sc ++ 0x3a :: rest) sc [] rest h.2 (fun _ => h.1)
  simpa [getScheme] using this

theorem getSchemeLoop_ok (raw : GoString) (body pre sc rest : GoString)
    (h : getSchemeLoop raw pre body = .ok (sc, rest)) (hsc : sc ≠ []) :
    ∃ sc2, sc = pre ++ sc2 ∧ body = sc2 ++ 0x3a :: rest ∧ (∀ c ∈ sc2, isSchemeByte c = true) ∧
      (pre = [] → ∃ c t, sc2 = c :: t ∧ (isLowerAZ c || isUpperAZ c) = true) := by
  induction body generalizing pre with
  | nil =>
    simp only [getSchemeLoop, Except.ok.injEq, Prod.mk.injEq] at h
    exact absurd h.1.symm hsc
  | cons c b ih =>
    have hstep : ∀ (hc : isSchemeByte c = true)
        (hfirst : pre = [] → (isLowerAZ c || isUpperAZ c) = true),
        getSchemeLoop raw (pre ++ [c]) b = .ok (sc, rest) →
        ∃ sc2, sc = pre ++ sc2 ∧ c :: b = sc2 ++ 0x3a :: rest ∧
          (∀ d ∈ sc2, isSchemeByte d = true) ∧
          (pre = [] → ∃ d t, sc2 = d :: t ∧ (isLowerAZ d || isUpperAZ d) = true) := by
      intro hc hfirst hrec
      obtain ⟨sc3, e1, e2, e3, _⟩ := ih (pre ++ [c]) hrec
      refine ⟨c :: sc3, by simp [e1], by simp [e2], ?_, fun e => ⟨c, sc3, rfl, hfirst e⟩⟩
      intro d hd
      rcases List.mem_cons.mp hd with e | e
      · rw [e]; exact hc
      · exact e3 d e
    unfold getSchemeLoop at h
    split_ifs at h with h1 h2 h3 h4 h5
    · exact hstep (by simp only [isSchemeByte]; simp only [Bool.or_eq_true] at h1 ⊢; tauto)
        (fun _ => h1) h
    · simp only [Except.ok.injEq, Prod.mk.injEq] at h
      exact absurd h.1.symm hsc
    · refine hstep ?_ (fun e => absurd e h3) h
      simp only [isSchemeByte]
      simp only [Bool.or_eq_true, decide_eq_true_eq] at h2 ⊢
      tauto
    · simp only [Except.ok.injEq, Prod.mk.injEq] at h
      refine ⟨[], by simp [h.1], by simp [h4, h.2], by simp, fun e => absurd e h5⟩
    · simp only [Except.ok.injEq, Prod.mk.injEq] at h
      exact absurd h.1.symm hsc

theorem getScheme_ok (body sc rest : GoString) (h : getScheme body = .ok (sc, rest))
    (hsc : sc ≠ []) : body = sc ++ 0x3a :: rest ∧ validScheme sc := by
  obtain ⟨sc2, e1, e2, e3, e4⟩ := getSchemeLoop_ok body body [] sc rest h hsc
  simp only [List.nil_append] at e1
  subst e1
  exact ⟨e2, e4 rfl, e3⟩

set_option maxRecDepth 1000000 in
theorem isSchemeByte_lower : ∀ c : Byte,
    (isSchemeByte c = true → isSchemeByte (if isUpperAZ c then c + 0x20 else c) = true) ∧
    ((isLowerAZ c || isUpperAZ c) = true →
      (isLowerAZ (if isUpperAZ c then c + 0x20 else c) ||
        isUpperAZ (if isUpperAZ c then c + 0x20 else c)) = true) := by
  decide

set_option maxRecDepth 1000000 in
theorem isSchemeByte_safe : ∀ c : Byte, isSchemeByte c = true →
    c ≠ 0x23 ∧ c ≠ 0x3f ∧ c ≠ 0x3a ∧ c ≠ 0x2f := by
  decide

theorem validScheme_ToLower (sc : GoString) (h : validScheme sc) : validScheme (ToLower sc) := by
  obtain ⟨⟨c, t, e, hl⟩, hall⟩ := h
  refine ⟨⟨_, ToLower t, by simp [e, ToLower], (isSchemeByte_lower c).2 hl⟩, ?_⟩
  intro d hd
  simp only [ToLower, List.mem_map] at hd
  obtain ⟨d0, hd0, e0⟩ := hd
  rw [← e0]
  exact (isSchemeByte_lower d0).1 (hall d0 hd0)

theorem ToLower_eq_nil (sc : GoString) : ToLower sc = [] ↔ sc = [] := by
  simp [ToLower]

/-! ## Parsing a host that `String` wrote -/

theorem unescapeCheck_cons_pct (mode : encoding) (a b : Byte) (rest : GoString) :
    unescapeCheck mode (0x25 :: a :: b :: rest) =
      if (!ishex a || !ishex b) = true then some (.EscapeError [0x25, a, b])
      else if (decide (mode = .encodeHost) && decide (unhex a < 8) &&
          decide ([0x25, a, b] ≠ ascii "%25")) = true then
        some (.EscapeError [0x25, a, b])
      else if (decide (mode = .encodeZone) && decide ([0x25, a, b] ≠ ascii "%25") &&
          decide ((unhex a <<< 4 ||| unhex b) ≠ 0x20) &&
          shouldEscape (unhex a <<< 4 ||| unhex b) .encodeHost) = true then
        some (.EscapeError [0x25, a, b])
      else unescapeCheck mode rest := by
  rw [unescapeCheck]
  simp

theorem unescapeCheck_cons_raw (mode : encoding) (c : Byte) (rest : GoString) (hc : c ≠ 0x25) :
    unescapeCheck mode (c :: rest) =
      if c = 0x2b then unescapeCheck mode rest
      else if ((decide (mode = .encodeHost) || decide (mode = .encodeZone)) && decide (c < 0x80) &&
          shouldEscape c .encodeHost) = true then
        some (.InvalidHostError [c])
      else unescapeCheck mode rest := by
  match rest with
  | [] => simp [unescapeCheck, hc]
  | [a] => simp [unescapeCheck, hc]
  | a :: b :: r => simp [unescapeCheck, hc]

theorem unescapeCheck_pct_ok (mode : encoding) (a b : Byte) (rest : GoString)
    (ha : ishex a = true) (hb : ishex b = true)
    (hhost : mode = .encodeHost → ¬ unhex a < 8 ∨ [0x25, a, b] = ascii "%25")
    (hzone : mode = .encodeZone → [0x25, a, b] = ascii "%25" ∨
      (unhex a <<< 4 ||| unhex b) = 0x20 ∨
      shouldEscape (unhex a <<< 4 ||| unhex b) .encodeHost = false) :
    unescapeCheck mode (0x25 :: a :: b :: rest) = unescapeCheck mode rest := by
  rw [unescapeCheck_cons_pct]
  have c1 : ¬ ((!ishex a || !ishex b) = true) := by simp [ha, hb]
  have c2 : ¬ ((decide (mode = .encodeHost) && decide (unhex a < 8) &&
      decide ([0x25, a, b] ≠ ascii "%25")) = true) := by
    simp only [Bool.and_eq_true, decide_eq_true_eq, not_and]
    rintro ⟨e1, e2⟩ e3
    rcases hhost e1 with h | h
    · exact h e2
    · exact e3 h
  have c3 : ¬ ((decide (mode = .encodeZone) && decide ([0x25, a, b] ≠ ascii "%25") &&
      decide ((unhex a <<< 4 ||| unhex b) ≠ 0x20) &&
      shouldEscape (unhex a <<< 4 ||| unhex b) .encodeHost) = true) := by
    simp only [Bool.and_eq_true, decide_eq_true_eq, not_and]
    rintro ⟨⟨e1, e2⟩, e3⟩ e4
    rcases hzone e1 with h | h | h
    · exact e2 h
    · exact e3 h
    · rw [h] at e4; cases e4
  rw [if_neg c1, if_neg c2, if_neg c3]

theorem unescapeCheck_raw_ok (mode : encoding) (c : Byte) (rest : GoString) (hc : c ≠ 0x25)
    (h : mode = .encodeHost ∨ mode = .encodeZone → c < 0x80 →
      shouldEscape c .encodeHost = false) :
    unescapeCheck mode (c :: rest) = unescapeCheck mode rest := by
  rw [unescapeCheck_cons_raw mode c rest hc]
  split_ifs with c1 c2
  · rfl
  · exfalso
    simp only [Bool.and_eq_true, Bool.or_eq_true, decide_eq_true_eq] at c2
    have := h c2.1.1 c2.1.2
    rw [this] at c2
    exact absurd c2.2 (by decide)
  · rfl

set_option maxRecDepth 1000000 in
theorem upperhex_high : ∀ c : Byte, 0x80 ≤ c →
    ¬ unhex (upperhex (c >>> 4)) < 8 ∧ upperhex (c >>> 4) ≠ 0x32 ∧ c ≠ 0x20 := by
  decide

theorem escapeByte_host_pct : escapeByte .encodeHost 0x25 = [0x25, 0x32, 0x35] := by decide

theorem escapeByte_host_space : escapeByte .encodeHost 0x20 = [0x25, 0x32, 0x30] := by decide

theorem escapeByte_host_raw (c : Byte) (h : shouldEscape c .encodeHost = false) :
    escapeByte .encodeHost c = [c] := by
  simp [escapeByte, h]

theorem escapeByte_host_high (c : Byte) (hs : shouldEscape c .encodeHost = true) :
    escapeByte .encodeHost c = [0x25, upperhex (c >>> 4), upperhex (c &&& 15)] := by
  simp [escapeByte, hs]

/-- The three forms of what `escape` writes for a byte of a parsed host. -/
theorem escapeByte_host_cases (c : Byte) (h : zoneByte c = true) :
    (shouldEscape c .encodeHost = false ∧ escapeByte .encodeHost c = [c]) ∨
    (0x80 ≤ c ∧ escapeByte .encodeHost c = [0x25, upperhex (c >>> 4), upperhex (c &&& 15)]) ∨
    (c = 0x25 ∧ escapeByte .encodeHost c = [0x25, 0x32, 0x35]) ∨
    (c = 0x20 ∧ escapeByte .encodeHost c = [0x25, 0x32, 0x30]) := by
  by_cases hs : shouldEscape c .encodeHost = true
  · simp only [zoneByte, hostByte, hs, Bool.not_true, Bool.or_false, Bool.or_eq_true,
      decide_eq_true_eq] at h
    rcases h with (h | h) | h
    · exact Or.inr (Or.inl ⟨h, escapeByte_host_high c hs⟩)
    · exact Or.inr (Or.inr (Or.inl ⟨h, h ▸ escapeByte_host_pct⟩))
    · exact Or.inr (Or.inr (Or.inr ⟨h, h ▸ escapeByte_host_space⟩))
  · have hs2 : shouldEscape c .encodeHost = false := by simpa using hs
    exact Or.inl ⟨hs2, escapeByte_host_raw c hs2⟩

theorem hostByte_zoneByte (c : Byte) (h : hostByte c = true) : zoneByte c = true := by
  simp [zoneByte, h]

theorem unescapeCheck_host_escapeByte (c : Byte) (rest : GoString)
    (h : hostByte c = true ∨ c = 0x25) :
    unescapeCheck .encodeHost (escapeByte .encodeHost c ++ rest) =
      unescapeCheck .encodeHost rest := by
  have hz : zoneByte c = true := by
    rcases h with h | h
    · exact hostByte_zoneByte c h
    · simp [zoneByte, h]
  rcases escapeByte_host_cases c hz with ⟨h1, e⟩ | ⟨h1, e⟩ | ⟨h1, e⟩ | ⟨h1, e⟩
  · rw [e]
    exact unescapeCheck_raw_ok _ _ _ (shouldEscape_pct _ c h1) (fun _ _ => h1)
  · rw [e]
    exact unescapeCheck_pct_ok _ _ _ _ (upperhex_spec c).1 (upperhex_spec c).2.1
      (fun _ => Or.inl (upperhex_high c h1).1) (fun e => by cases e)
  · rw [e]
    exact unescapeCheck_pct_ok _ _ _ _ (by decide) (by decide)
      (fun _ => Or.inr (by decide)) (fun e => by cases e)
  · exfalso
    subst h1
    rcases h with h | h
    · revert h; decide
    · revert h; decide

theorem unescapeCheck_zone_escapeByte (c : Byte) (rest : GoString)
    (h : zoneByte c = true) (h80 : c < 0x80) :
    unescapeCheck .encodeZone (escapeByte .encodeHost c ++ rest) =
      unescapeCheck .encodeZone rest := by
  rcases escapeByte_host_cases c h with ⟨h1, e⟩ | ⟨h1, e⟩ | ⟨h1, e⟩ | ⟨h1, e⟩
  · rw [e]
    exact unescapeCheck_raw_ok _ _ _ (shouldEscape_pct _ c h1) (fun _ _ => h1)
  · exact absurd (lt_of_lt_of_le h80 h1) (lt_irrefl _)
  · rw [e]
    exact unescapeCheck_pct_ok _ _ _ _ (by decide) (by decide)
      (fun e => by cases e) (fun _ => Or.inl (by decide))
  · rw [e]
    exact unescapeCheck_pct_ok _ _ _ _ (by decide) (by decide)
      (fun e => by cases e) (fun _ => Or.inr (Or.inl (by decide)))

theorem unescapeCheck_host_escape (s rest : GoString)
    (h : ∀ c ∈ s, hostByte c = true ∨ c = 0x25) :
    unescapeCheck .encodeHost (escape s .encodeHost ++ rest) =
      unescapeCheck .encodeHost rest := by
  induction s with
  | nil => simp [escape]
  | cons c t ih =>
    rw [escape, List.append_assoc,
      unescapeCheck_host_escapeByte c _ (h c (List.mem_cons_self _ _)),
      ih (fun d hd => h d (List.mem_cons_of_mem _ hd))]

theorem unescapeCheck_zone_escape (s rest : GoString)
    (h : ∀ c ∈ s, zoneByte c = true ∧ c < 0x80) :
    unescapeCheck .encodeZone (escape s .encodeHost ++ rest) =
      unescapeCheck .encodeZone rest := by
  induction s with
  | nil => simp [escape]
  | cons c t ih =>
    rw [escape, List.append_assoc,
      unescapeCheck_zone_escapeByte c _ (h c (List.mem_cons_self _ _)).1
        (h c (List.mem_cons_self _ _)).2,
      ih (fun d hd => h d (List.mem_cons_of_mem _ hd))]
theorem LastIndex_single_none (c : Byte) (s : GoString) (h : c ∉ s) : LastIndex s [c] = none := by
  induction s with
  | nil => simp [LastIndex]
  | cons d t ih =>
    have hd : c ≠ d := fun e => h (e ▸ List.mem_cons_self _ _)
    have ht : c ∉ t := fun e => h (List.mem_cons_of_mem _ e)
    simp [LastIndex, ih ht, HasPrefix, List.isPrefixOf, hd]

theorem LastIndex_single_append (c : Byte) (pre post : GoString) (h : c ∉ post) :
    LastIndex (pre ++ c :: post) [c] = some pre.length := by
  induction pre with
  | nil => simp [LastIndex, LastIndex_single_none c post h, HasPrefix, List.isPrefixOf]
  | cons d t ih => simp [LastIndex, ih]

theorem unescape_of_check (s : GoString) (mode : encoding) (h : unescapeCheck mode s = none) :
    unescape s mode = .ok (unescapeDecode mode s) := by
  simp [unescape, h]

theorem Index_cons_ne (x s0 : Byte) (t sub : GoString) (h : x ≠ s0) :
    Index (x :: t) (s0 :: sub) = (Index t (s0 :: sub)).map (· + 1) := by
  have h2 : ¬ s0 = x := fun e => h e.symm
  simp [Index, HasPrefix, List.isPrefixOf, h2]

set_option maxRecDepth 1000000 in
theorem ishex_ne_pct : ∀ x : Byte, ishex x = true → x ≠ 0x25 := by
  decide

set_option maxRecDepth 1000000 in
theorem hostByte_ne : ∀ c : Byte, hostByte c = true → c ≠ 0x25 ∧ c ≠ 0x20 := by
  decide

/-- In what `escape` writes for host bytes, `%25` does not occur. -/
theorem Index_pct25_escape (h1 Y : GoString) (hh : ∀ c ∈ h1, hostByte c = true) :
    Index (escape h1 .encodeHost ++ Y) [0x25, 0x32, 0x35] =
      (Index Y [0x25, 0x32, 0x35]).map (· + (escape h1 .encodeHost).length) := by
  induction h1 with
  | nil => simp [escape]
  | cons c t ih =>
    have hc := hh c (List.mem_cons_self _ _)
    have iht := ih (fun d hd => hh d (List.mem_cons_of_mem _ hd))
    rw [escape, List.append_assoc]
    rcases escapeByte_host_cases c (hostByte_zoneByte c hc) with
      ⟨h1, e⟩ | ⟨h1, e⟩ | ⟨h1, e⟩ | ⟨h1, e⟩
    · rw [e, List.singleton_append, Index_cons_ne _ _ _ _ (shouldEscape_pct _ c h1), iht]
      cases Index Y [0x25, 0x32, 0x35] with
      | none => simp
      | some k => simp; omega
    · rw [e]
      have a1 : Index (0x25 :: upperhex (c >>> 4) :: upperhex (c &&& 15) ::
          (escape t .encodeHost ++ Y)) [0x25, 0x32, 0x35] =
          (Index (upperhex (c >>> 4) :: upperhex (c &&& 15) ::
            (escape t .encodeHost ++ Y)) [0x25, 0x32, 0x35]).map (· + 1) := by
        have : ¬ (0x32 : Byte) = upperhex (c >>> 4) := fun e => (upperhex_high c h1).2.1 e.symm
        simp [Index, HasPrefix, List.isPrefixOf, this]
      simp only [List.cons_append, List.nil_append]
      rw [a1, Index_cons_ne _ _ _ _ (ishex_ne_pct _ (upperhex_spec c).1),
        Index_cons_ne _ _ _ _ (ishex_ne_pct _ (upperhex_spec c).2.1), iht]
      cases Index Y [0x25, 0x32, 0x35] with
      | none => simp
      | some k => simp; omega
    · exact absurd h1 (hostByte_ne c hc).1
    · exact absurd h1 (hostByte_ne c hc).2

theorem escape_host_raw (s : GoString) (h : ∀ c ∈ s, shouldEscape c .encodeHost = false) :
    escape s .encodeHost = s := by
  induction s with
  | nil => rfl
  | cons c t ih =>
    rw [escape, escapeByte_host_raw c (h c (List.mem_cons_self _ _)),
      ih (fun d hd => h d (List.mem_cons_of_mem _ hd))]
    rfl

set_option maxRecDepth 1000000 in
theorem port_byte_raw : ∀ c : Byte, (c = 0x3a ∨ c = 0x5d ∨ isDigit c = true) →
    shouldEscape c .encodeHost = false ∧ hostByte c = true := by
  decide

theorem validOptionalPort_bytes (port : GoString) (h : validOptionalPort port = true) :
    ∀ c ∈ port, c = 0x3a ∨ isDigit c = true := by
  cases port with
  | nil => simp
  | cons a r =>
    simp only [validOptionalPort, Bool.and_eq_true, decide_eq_true_eq, List.all_eq_true,
      Bool.not_eq_true', Bool.or_eq_false_iff, decide_eq_false_iff_not] at h
    intro c hc
    rcases List.mem_cons.mp hc with e | e
    · exact Or.inl (e ▸ h.1)
    · right
      have := h.2 c e
      simp only [isDigit, Bool.and_eq_true, decide_eq_true_eq]
      exact ⟨not_lt.mp this.1, not_lt.mp this.2⟩

/-- What `escape` writes for `]port` is `]port` itself, which passes the check
of `unescape` for a host. -/
theorem bracket_port (port : GoString) (h : validOptionalPort port = true) :
    escape (0x5d :: port) .encodeHost = 0x5d :: port ∧
      unescapeCheck .encodeHost (0x5d :: port) = none := by
  have hb : ∀ c ∈ (0x5d :: port : GoString), c = 0x3a ∨ c = 0x5d ∨ isDigit c = true := by
    intro c hc
    rcases List.mem_cons.mp hc with e | e
    · exact Or.inr (Or.inl e)
    · rcases validOptionalPort_bytes port h c e with e2 | e2
      · exact Or.inl e2
      · exact Or.inr (Or.inr e2)
  have e1 := escape_host_raw (0x5d :: port) (fun c hc => (port_byte_raw c (hb c hc)).1)
  refine ⟨e1, ?_⟩
  have := unescapeCheck_host_escape (0x5d :: port) []
    (fun c hc => Or.inl (port_byte_raw c (hb c hc)).2)
  rw [e1, List.append_nil] at this
  rw [this]
  rfl
set_option maxRecDepth 1000000 in
theorem escapeByte_host_head : ∀ c : Byte, c ≠ 0x5b →
    (escapeByte .encodeHost c).head? ≠ some 0x5b ∧ escapeByte .encodeHost c ≠ [] := by
  decide

theorem escape_host_head_ne (H : GoString) (h : H.head? ≠ some 0x5b) :
    HasPrefix (escape H .encodeHost) (ascii "[") = false := by
  have e : ascii "[" = [0x5b] := by decide
  rw [e, HasPrefix_single]
  cases H with
  | nil => simp [escape]
  | cons c t =>
    have hc : c ≠ 0x5b := fun e => h (by simp [e])
    obtain ⟨h1, h2⟩ := escapeByte_host_head c hc
    rw [escape]
    cases he : escapeByte .encodeHost c with
    | nil => exact absurd he h2
    | cons a b =>
      rw [he] at h1
      simp only [List.head?_cons, ne_eq, Option.some.injEq] at h1
      simp [h1]

theorem escape_host_head_eq (h1 rest : GoString) (h : h1.head? = some 0x5b) :
    HasPrefix (escape h1 .encodeHost ++ rest) (ascii "[") = true := by
  have e : ascii "[" = [0x5b] := by decide
  rw [e, HasPrefix_single]
  cases h1 with
  | nil => simp at h
  | cons c t =>
    simp only [List.head?_cons, Option.some.injEq] at h
    subst h
    have : escapeByte .encodeHost 0x5b = [0x5b] := by decide
    rw [escape, this]
    simp

theorem mem_escapeByte_self (mode : encoding) (c x : Byte) (hx : x ∈ escapeByte mode c) :
    x = c ∨ x = 0x2b ∨ x = 0x25 ∨ ishex x = true := by
  unfold escapeByte at hx
  split_ifs at hx with h1 h2
  · simp only [List.mem_singleton] at hx
    exact Or.inr (Or.inl hx)
  · simp only [List.mem_cons, List.mem_singleton, List.not_mem_nil, or_false] at hx
    rcases hx with e | e | e
    · exact Or.inr (Or.inr (Or.inl e))
    · exact Or.inr (Or.inr (Or.inr (e ▸ (upperhex_spec c).1)))
    · exact Or.inr (Or.inr (Or.inr (e ▸ (upperhex_spec c).2.1)))
  · simp only [List.mem_singleton] at hx
    exact Or.inl hx

theorem mem_escape_colon (mode : encoding) (s : GoString)
    (h : (0x3a : Byte) ∈ escape s mode) : (0x3a : Byte) ∈ s := by
  induction s with
  | nil => simp [escape] at h
  | cons c t ih =>
    rw [escape, List.mem_append] at h
    rcases h with h | h
    · rcases mem_escapeByte_self mode c _ h with e | e | e | e
      · rw [← e]; exact List.mem_cons_self _ _
      · exact absurd e (by decide)
      · exact absurd e (by decide)
      · exact absurd e (by decide)
    · exact List.mem_cons_of_mem _ (ih h)

theorem digits_raw (digits : GoString) (h : ∀ d ∈ digits, isDigit d = true) :
    escape (0x3a :: digits) .encodeHost = 0x3a :: digits ∧ (0x3a : Byte) ∉ digits ∧
      validOptionalPort (0x3a :: digits) = true := by
  refine ⟨escape_host_raw _ (fun c hc => ?_), fun e => ?_, ?_⟩
  · rcases List.mem_cons.mp hc with e | e
    · exact (port_byte_raw c (Or.inl e)).1
    · exact (port_byte_raw c (Or.inr (Or.inr (h c e)))).1
  · have := h _ e
    revert this; decide
  · simp only [validOptionalPort, decide_True, Bool.true_and, List.all_eq_true,
      Bool.not_eq_true', Bool.or_eq_false_iff, decide_eq_false_iff_not]
    intro d hd
    have := h d hd
    simp only [isDigit, Bool.and_eq_true, decide_eq_true_eq] at this
    exact ⟨not_lt.mpr this.1, not_lt.mpr this.2⟩

theorem parseHost_bracket (pre port : GoString)
    (hp : HasPrefix (pre ++ 0x5d :: port) (ascii "[") = true) (h3 : (0x5d : Byte) ∉ port)
    (h4 : validOptionalPort port = true) :
    parseHost (pre ++ 0x5d :: port) =
      match Index pre [0x25, 0x32, 0x35] with
      | some zone =>
        match unescape ((pre ++ 0x5d :: port).take zone) .encodeHost with
        | .error e => .error e
        | .ok host1 =>
          match unescape (pre.drop zone) .encodeZone with
          | .error e => .error e
          | .ok host2 =>
            match unescape (0x5d :: port) .encodeHost with
            | .error e => .error e
            | .ok host3 => .ok (host1 ++ host2 ++ host3)
      | none => unescape (pre ++ 0x5d :: port) .encodeHost := by
  have e5d : ascii "]" = [0x5d] := by decide
  have e25 : ascii "%25" = [0x25, 0x32, 0x35] := by decide
  have hd : List.drop (pre.length + 1) (pre ++ 0x5d :: port) = port := by
    rw [List.drop_append_eq_append_drop]
    simp
  unfold parseHost
  rw [hp, e5d, e25]
  simp only [if_true, LastIndex_single_append _ _ _ h3, List.take_left', List.drop_left', hd, h4,
    Bool.not_true, Bool.false_eq_true, if_false]

/-- `parseHost` accepts what `String` writes for a parsed host, unless its
zone holds a non-ASCII byte. -/
theorem parseHost_escape (H : GoString) (inv : HostInv H) (hz : zoneASCII H) :
    ∃ h, parseHost (escape H .encodeHost) = .ok h := by
  rcases inv with ⟨a1, a2, a3⟩ | ⟨h1, port, e, b1, b2, b3, b4⟩ |
    ⟨h1, h2, port, e, c1, c2, c3, c4, c5⟩
  · -- no bracket
    have hu : unescape (escape H .encodeHost) .encodeHost =
        .ok (unescapeDecode .encodeHost (escape H .encodeHost)) := by
      apply unescape_of_check
      have := unescapeCheck_host_escape H [] a2
      rw [List.append_nil] at this
      rw [this]; rfl
    unfold parseHost
    rw [escape_host_head_ne H a1]
    simp only [Bool.false_eq_true, if_false, ascii_colon]
    rcases a3 with a3 | ⟨pre, digits, e, hd⟩
    · rw [LastIndex_single_none _ _ (fun e => a3 (mem_escape_colon _ _ e))]
      exact ⟨_, hu⟩
    · obtain ⟨d1, d2, d3⟩ := digits_raw digits hd
      have eE : escape H .encodeHost = escape pre .encodeHost ++ 0x3a :: digits := by
        rw [e, escape_append, d1]
      rw [eE] at hu ⊢
      rw [LastIndex_single_append _ _ _ d2]
      simp only [List.drop_left', d3, Bool.not_true, Bool.false_eq_true, if_false]
      exact ⟨_, hu⟩
  · -- bracket, no zone
    obtain ⟨p1, p2⟩ := bracket_port port b4
    have eE : escape H .encodeHost = escape h1 .encodeHost ++ 0x5d :: port := by
      rw [e, escape_append, p1]
    rw [eE, parseHost_bracket _ _ (escape_host_head_eq h1 _ b1) b3 b4]
    have hi := Index_pct25_escape h1 [] b2
    rw [List.append_nil] at hi
    rw [hi]
    simp only [Index, List.cons_ne_self, if_false, Option.map_none']
    refine ⟨_, unescape_of_check _ _ ?_⟩
    rw [unescapeCheck_host_escape h1 _ (fun c hc => Or.inl (b2 c hc)), p2]
  · -- bracket and zone
    obtain ⟨p1, p2⟩ := bracket_port port c5
    have hpct : ∀ c ∈ h1, c ≠ 0x25 := fun c hc => (hostByte_ne c (c2 c hc)).1
    have hdw : H.dropWhile (fun c => c ≠ 0x25) = 0x25 :: (h2 ++ 0x5d :: port) := by
      rw [e, List.dropWhile_append_of_pos (by simpa using hpct)]
      simp [List.dropWhile_cons]
    have h80 : ∀ c ∈ h2, zoneByte c = true ∧ c < 0x80 := by
      intro c hc
      refine ⟨c3 c hc, hz (by rw [e]; cases h1 with
        | nil => simp at c1
        | cons a t => simpa using c1) c ?_⟩
      rw [hdw]
      simp [hc]
    have eE : escape H .encodeHost =
        (escape h1 .encodeHost ++ (0x25 :: 0x32 :: 0x35 :: escape h2 .encodeHost)) ++
          0x5d :: port := by
      rw [e, escape_append, escape, escapeByte_host_pct, escape_append, p1]
      simp
    have hpre : HasPrefix ((escape h1 .encodeHost ++
        (0x25 :: 0x32 :: 0x35 :: escape h2 .encodeHost)) ++ 0x5d :: port) (ascii "[") = true := by
      rw [List.append_assoc]
      exact escape_host_head_eq h1 _ c1
    rw [eE, parseHost_bracket _ _ hpre c4 c5]
    have hi := Index_pct25_escape h1 (0x25 :: 0x32 :: 0x35 :: escape h2 .encodeHost) c2
    have h0 : Index (0x25 :: 0x32 :: 0x35 :: escape h2 .encodeHost) [0x25, 0x32, 0x35] =
        some 0 := by
      simp [Index, HasPrefix, List.isPrefixOf]
    rw [h0] at hi
    rw [hi]
    simp only [Option.map_some', Nat.zero_add, List.append_assoc, List.take_left',
      List.drop_left']
    have u1 : unescape (escape h1 .encodeHost) .encodeHost =
        .ok (unescapeDecode .encodeHost (escape h1 .encodeHost)) := by
      apply unescape_of_check
      have := unescapeCheck_host_escape h1 [] (fun c hc => Or.inl (c2 c hc))
      rw [List.append_nil] at this
      rw [this]; rfl
    have u2 : unescape (0x25 :: 0x32 :: 0x35 :: escape h2 .encodeHost) .encodeZone =
        .ok (unescapeDecode .encodeZone (0x25 :: 0x32 :: 0x35 :: escape h2 .encodeHost)) := by
      apply unescape_of_check
      rw [unescapeCheck_pct_ok _ _ _ _ (by decide) (by decide) (fun e => by cases e)
        (fun _ => Or.inl (by decide))]
      have := unescapeCheck_zone_escape h2 [] h80
      rw [List.append_nil] at this
      rw [this]; rfl
    have u3 : unescape (0x5d :: port) .encodeHost =
        .ok (unescapeDecode .encodeHost (0x5d :: port)) := unescape_of_check _ _ p2
    rw [u1, u2, u3]
    exact ⟨_, rfl⟩
/-! ## Parsing an authority that `String` wrote -/

set_option maxRecDepth 1000000 in
theorem validUserinfo_byte : ∀ x : Byte,
    (x = 0x3a ∨ x = 0x25 ∨ ishex x = true ∨ shouldEscape x .encodeUserPassword = false) →
    (isUpperAZ x || isLowerAZ x || isDigit x ||
      decide (x ∈ ascii "-._:~!$&'()*+,;=%@")) = true := by
  decide

theorem validUserinfo_String (ui : Userinfo) : validUserinfo ui.String = true := by
  have hesc : ∀ (s : GoString), ∀ x ∈ escape s .encodeUserPassword,
      (isUpperAZ x || isLowerAZ x || isDigit x ||
        decide (x ∈ ascii "-._:~!$&'()*+,;=%@")) = true := by
    intro s
    refine mem_escape _ (fun c x hx => ?_) s
    apply validUserinfo_byte
    rcases mem_escapeByte _ c x hx with h | h | h | h
    · exact absurd h.2 (by decide)
    · exact Or.inr (Or.inl h)
    · exact Or.inr (Or.inr (Or.inl h))
    · exact Or.inr (Or.inr (Or.inr h))
  unfold validUserinfo Userinfo.String
  rw [List.all_eq_true]
  intro x hx
  simp only [ascii_colon] at hx
  split_ifs at hx
  · simp only [List.mem_append, List.mem_singleton] at hx
    rcases hx with (hx | hx) | hx
    · exact hesc _ x hx
    · exact validUserinfo_byte x (Or.inl hx)
    · exact hesc _ x hx
  · exact hesc _ x hx

theorem unescape_escape_user (s : GoString) :
    unescape (escape s .encodeUserPassword) .encodeUserPassword = .ok s :=
  unescape_escape _ ⟨by decide, by decide⟩ s

/-- `parseAuthority` accepts the authority `String` writes, when `parseHost`
accepts the host. -/
theorem parseAuthority_authorityText (u : URL) (h : GoString)
    (hh : parseHost (escape u.Host .encodeHost) = .ok h) :
    ∃ r, parseAuthority (authorityText u) = .ok r := by
  have hat : (0x40 : Byte) ∉ escape u.Host .encodeHost :=
    fun e => (escape_host_safe _ _ e).2.2.2 rfl
  unfold authorityText
  cases hU : u.User with
  | none =>
    simp only [List.nil_append]
    unfold parseAuthority
    simp only [ascii_at, LastIndex_single_none _ _ hat, hh]
    exact ⟨_, rfl⟩
  | some ui =>
    have hd : List.drop (ui.String.length + 1) (ui.String ++ 0x40 :: escape u.Host .encodeHost) =
        escape u.Host .encodeHost := by
      rw [List.drop_append_eq_append_drop]
      simp
    have hcolon : (0x3a : Byte) ∉ escape ui.username .encodeUserPassword :=
      fun e => (escape_user_safe _ _ e).2.2.2.2 rfl
    simp only [ascii_at, List.append_assoc, List.singleton_append]
    unfold parseAuthority
    simp only [ascii_at, LastIndex_single_append _ _ _ hat, hd, hh, List.take_left',
      validUserinfo_String, Bool.not_true, Bool.false_eq_true, if_false, ascii_colon,
      Contains_single]
    by_cases hp : ui.passwordSet = true
    · have e : ui.String = escape ui.username .encodeUserPassword ++
          0x3a :: escape ui.password .encodeUserPassword := by
        simp [Userinfo.String, hp, ascii_colon]
      rw [e]
      simp only [List.mem_append, List.mem_cons, true_or, or_true, decide_True, Bool.not_true,
        Bool.false_eq_true, if_false, Cut_single_append _ _ _ hcolon, unescape_escape_user]
      exact ⟨_, rfl⟩
    · have e : ui.String = escape ui.username .encodeUserPassword := by
        simp [Userinfo.String, hp]
      rw [e]
      simp only [hcolon, decide_False, Bool.not_false, if_true, unescape_escape_user]
      exact ⟨_, rfl⟩
/-! ## What `unescape` returns -/

theorem unescapeDecode_cons_raw (mode : encoding) (c : Byte) (rest : GoString) (hc : c ≠ 0x25) :
    unescapeDecode mode (c :: rest) =
      (if c = 0x2b ∧ mode = .encodeQueryComponent then 0x20 else c) ::
        unescapeDecode mode rest := unescapeDecode_cons mode c rest hc

/-- Induction along a string that passes the check of `unescape`: it is empty,
or begins with a well-formed escape, or begins with a byte other than `%`. -/
theorem unescape_induction (mode : encoding) (P : GoString → GoString → Prop)
    (nil : P [] [])
    (pct : ∀ a b rest d, ishex a = true → ishex b = true →
      (mode = .encodeHost → ¬ unhex a < 8 ∨ [0x25, a, b] = ascii "%25") →
      (mode = .encodeZone → [0x25, a, b] = ascii "%25" ∨ (unhex a <<< 4 ||| unhex b) = 0x20 ∨
        shouldEscape (unhex a <<< 4 ||| unhex b) .encodeHost = false) →
      unescapeCheck mode rest = none → P rest d →
      P (0x25 :: a :: b :: rest) ((unhex a <<< 4 ||| unhex b) :: d))
    (raw : ∀ c rest d, c ≠ 0x25 →
      (mode = .encodeHost ∨ mode = .encodeZone → c < 0x80 → shouldEscape c .encodeHost = false) →
      unescapeCheck mode rest = none → P rest d →
      P (c :: rest) ((if c = 0x2b ∧ mode = .encodeQueryComponent then 0x20 else c) :: d)) :
    ∀ s, unescapeCheck mode s = none → P s (unescapeDecode mode s) := by
  intro s
  induction' hn : s.length using Nat.strong_induction_on with n ih generalizing s
  intro h
  match s, hn with
  | [], _ => simpa [unescapeDecode] using nil
  | c :: rest, hn =>
    by_cases hc : c = 0x25
    · subst hc
      match rest, hn with
      | [], _ => simp [unescapeCheck] at h
      | [a], _ => simp [unescapeCheck] at h
      | a :: b :: r, hn =>
        rw [unescapeCheck_cons_pct] at h
        split_ifs at h with c1 c2 c3
        have ha : ishex a = true := by
          cases hh : ishex a with
          | true => rfl
          | false => simp [hh] at c1
        have hb : ishex b = true := by
          cases hh : ishex b with
          | true => rfl
          | false => simp [hh] at c1
        rw [unescapeDecode_pct]
        refine pct a b r _ ha hb ?_ ?_ h (ih r.length (by simp at hn; omega) r rfl h)
        · intro e
          by_contra hcon
          simp only [not_or, not_not] at hcon
          exact c2 (by simp [e, hcon.1, hcon.2])
        · intro e
          by_contra hcon
          simp only [not_or] at hcon
          apply c3
          simp only [Bool.and_eq_true, decide_eq_true_eq]
          refine ⟨⟨⟨e, hcon.1⟩, hcon.2.1⟩, ?_⟩
          cases hh : shouldEscape (unhex a <<< 4 ||| unhex b) .encodeHost with
          | true => rfl
          | false => exact absurd hh hcon.2.2
    · rw [unescapeCheck_cons_raw mode c rest hc] at h
      rw [unescapeDecode_cons_raw mode c rest hc]
      split_ifs at h with c1 c2
      · refine raw c rest _ hc ?_ h (ih rest.length (by simp at hn; omega) rest rfl h)
        intro _ _
        rw [c1]; decide
      · refine raw c rest _ hc ?_ h (ih rest.length (by simp at hn; omega) rest rfl h)
        intro e1 e2
        cases hh : shouldEscape c .encodeHost with
        | false => rfl
        | true =>
          exfalso
          apply c2
          simp only [Bool.and_eq_true, Bool.or_eq_true, decide_eq_true_eq]
          exact ⟨⟨e1, e2⟩, hh⟩
set_option maxRecDepth 1000000 in
theorem unhex_lt : ∀ a : Byte, (unhex a).val < 16 := by
  decide

set_option maxRecDepth 1000000 in
theorem nibbles_high : ∀ x y : Fin 16, 8 ≤ x.val →
    (0x80 : Byte) ≤ ((Fin.castLE (by decide) x : Byte) <<< 4 ||| (Fin.castLE (by decide) y : Byte)) := by
  decide

theorem unhex_high (a b : Byte) (h : ¬ unhex a < 8) :
    (0x80 : Byte) ≤ (unhex a <<< 4 ||| unhex b) := by
  have h1 := nibbles_high ⟨(unhex a).val, unhex_lt a⟩ ⟨(unhex b).val, unhex_lt b⟩
    (by
      have : (8 : Byte) ≤ unhex a := not_lt.mp h
      exact this)
  exact h1

theorem pct25_decode (a b : Byte) (h : [0x25, a, b] = ascii "%25") :
    (unhex a <<< 4 ||| unhex b) = 0x25 := by
  have e : ascii "%25" = [0x25, 0x32, 0x35] := by decide
  rw [e] at h
  simp only [List.cons.injEq, and_true, true_and] at h
  rw [h.1, h.2]
  decide

/-- The bytes of an unescaped host: host bytes and `%`; without `%25` in the
text, host bytes only. -/
theorem unescapeDecode_host_bytes (s : GoString) (h : unescapeCheck .encodeHost s = none) :
    (∀ c ∈ unescapeDecode .encodeHost s, hostByte c = true ∨ c = 0x25) ∧
    (∀ c ∈ unescapeDecode .encodeHost s, c ∈ s ∨ 0x80 ≤ c ∨ c = 0x25) := by
  refine unescape_induction .encodeHost
    (fun s d => (∀ c ∈ d, hostByte c = true ∨ c = 0x25) ∧ (∀ c ∈ d, c ∈ s ∨ 0x80 ≤ c ∨ c = 0x25))
    (by simp) ?_ ?_ s h
  · intro a b rest d _ _ hh _ _ ih
    have hv : (0x80 : Byte) ≤ (unhex a <<< 4 ||| unhex b) ∨ (unhex a <<< 4 ||| unhex b) = 0x25 := by
      rcases hh rfl with h1 | h1
      · exact Or.inl (unhex_high a b h1)
      · exact Or.inr (pct25_decode a b h1)
    constructor
    · intro c hc
      rcases List.mem_cons.mp hc with e | e
      · rcases hv with h1 | h1
        · left; rw [e]; simp [hostByte, h1]
        · right; rw [e]; exact h1
      · exact ih.1 c e
    · intro c hc
      rcases List.mem_cons.mp hc with e | e
      · rw [e]; exact Or.inr hv
      · rcases ih.2 c e with h1 | h1
        · exact Or.inl (by simp [h1])
        · exact Or.inr h1
  · intro c rest d hc hr _ ih
    have e0 : (if c = 0x2b ∧ encoding.encodeHost = encoding.encodeQueryComponent then (0x20 : Byte)
        else c) = c := by simp
    rw [e0]
    constructor
    · intro x hx
      rcases List.mem_cons.mp hx with e | e
      · left
        rw [e]
        by_cases h80 : c < 0x80
        · simp [hostByte, hr (Or.inl rfl) h80]
        · simp [hostByte, not_lt.mp h80]
      · exact ih.1 x e
    · intro x hx
      rcases List.mem_cons.mp hx with e | e
      · exact Or.inl (by simp [e])
      · rcases ih.2 x e with h1 | h1
        · exact Or.inl (by simp [h1])
        · exact Or.inr h1

theorem unescapeDecode_host_nopct (s : GoString) (h : unescapeCheck .encodeHost s = none) :
    Index s [0x25, 0x32, 0x35] = none → ∀ c ∈ unescapeDecode .encodeHost s, hostByte c = true := by
  refine unescape_induction .encodeHost
    (fun s d => Index s [0x25, 0x32, 0x35] = none → ∀ c ∈ d, hostByte c = true)
    (by simp) ?_ ?_ s h
  · intro a b rest d _ _ hh _ _ ih hi
    have e : ascii "%25" = [0x25, 0x32, 0x35] := by decide
    have hne : [0x25, a, b] ≠ ascii "%25" := by
      intro e2
      rw [e] at e2
      simp only [List.cons.injEq, and_true, true_and] at e2
      rw [e2.1, e2.2] at hi
      simp [Index, HasPrefix, List.isPrefixOf] at hi
    have hrest : Index rest [0x25, 0x32, 0x35] = none := by
      by_contra hcon
      obtain ⟨k, hk⟩ := Option.ne_none_iff_exists'.mp hcon
      have h3 : ∀ (x : Byte) (t : GoString) (j : Nat), Index t [0x25, 0x32, 0x35] = some j →
          Index (x :: t) [0x25, 0x32, 0x35] ≠ none := by
        intro x t j hj
        rw [Index]
        split_ifs
        · simp
        · simp [hj]
      exact h3 _ _ _ (Option.ne_none_iff_exists'.mp (h3 _ _ _ (Option.ne_none_iff_exists'.mp
        (h3 b rest k hk)).choose_spec)).choose_spec hi
    intro c hc
    rcases List.mem_cons.mp hc with e1 | e1
    · rcases hh rfl with h1 | h1
      · rw [e1]; simp [hostByte, unhex_high a b h1]
      · exact absurd h1 hne
    · exact ih hrest c e1
  · intro c rest d hc hr _ ih hi
    have e0 : (if c = 0x2b ∧ encoding.encodeHost = encoding.encodeQueryComponent then (0x20 : Byte)
        else c) = c := by simp
    rw [e0]
    have hrest : Index rest [0x25, 0x32, 0x35] = none := by
      rw [Index_cons_ne _ _ _ _ hc] at hi
      simpa using hi
    intro x hx
    rcases List.mem_cons.mp hx with e | e
    · rw [e]
      by_cases h80 : c < 0x80
      · simp [hostByte, hr (Or.inl rfl) h80]
      · simp [hostByte, not_lt.mp h80]
    · exact ih hrest x e

theorem unescapeDecode_zone_bytes (s : GoString) (h : unescapeCheck .encodeZone s = none) :
    ∀ c ∈ unescapeDecode .encodeZone s, zoneByte c = true := by
  refine unescape_induction .encodeZone (fun _ d => ∀ c ∈ d, zoneByte c = true)
    (by simp) ?_ ?_ s h
  · intro a b rest d _ _ _ hz _ ih c hc
    rcases List.mem_cons.mp hc with e | e
    · rw [e]
      rcases hz rfl with h1 | h1 | h1
      · simp [zoneByte, pct25_decode a b h1]
      · simp [zoneByte, h1]
      · simp [zoneByte, hostByte, h1]
    · exact ih c e
  · intro c rest d hc hr _ ih x hx
    have e0 : (if c = 0x2b ∧ encoding.encodeZone = encoding.encodeQueryComponent then (0x20 : Byte)
        else c) = c := by simp
    rw [e0] at hx
    rcases List.mem_cons.mp hx with e | e
    · rw [e]
      by_cases h80 : c < 0x80
      · simp [zoneByte, hostByte, hr (Or.inr rfl) h80]
      · simp [zoneByte, hostByte, not_lt.mp h80]
    · exact ih x e
/-- A byte that is neither `%` nor a hexadecimal digit ends any escape before
it: the check and the decoding of `unescape` split there. -/
theorem unescape_split (mode : encoding) (s1 : GoString) (c : Byte) (s2 : GoString)
    (hc : ishex c = false) (h : unescapeCheck mode (s1 ++ c :: s2) = none) :
    unescapeCheck mode s1 = none ∧ unescapeCheck mode (c :: s2) = none ∧
      unescapeDecode mode (s1 ++ c :: s2) =
        unescapeDecode mode s1 ++ unescapeDecode mode (c :: s2) := by
  induction' hn : s1.length using Nat.strong_induction_on with n ih generalizing s1
  match s1, hn with
  | [], _ => exact ⟨rfl, by simpa using h, by simp [unescapeDecode]⟩
  | x :: rest, hn =>
    by_cases hx : x = 0x25
    · subst hx
      match rest, hn with
      | [], _ =>
        exfalso
        cases s2 with
        | nil => simp [unescapeCheck] at h
        | cons y t =>
          simp only [List.singleton_append] at h
          rw [unescapeCheck_cons_pct] at h
          simp [hc] at h
      | [a], _ =>
        exfalso
        simp only [List.cons_append, List.nil_append] at h
        rw [unescapeCheck_cons_pct] at h
        simp [hc] at h
      | a :: b :: r, hn =>
        simp only [List.cons_append] at h ⊢
        rw [unescapeCheck_cons_pct] at h ⊢
        split_ifs at h with c1 c2 c3
        obtain ⟨i1, i2, i3⟩ := ih r.length (by simp at hn; omega) r h rfl
        rw [if_neg c1, if_neg c2, if_neg c3, unescapeDecode_pct, unescapeDecode_pct, i3]
        exact ⟨i1, i2, rfl⟩
    · simp only [List.cons_append] at h ⊢
      rw [unescapeCheck_cons_raw mode x _ hx] at h ⊢
      rw [unescapeDecode_cons_raw mode x _ hx, unescapeDecode_cons_raw mode x _ hx]
      split_ifs at h with c1 c2
      · obtain ⟨i1, i2, i3⟩ := ih rest.length (by simp at hn; omega) rest h rfl
        rw [if_pos c1, i3]
        exact ⟨i1, i2, rfl⟩
      · obtain ⟨i1, i2, i3⟩ := ih rest.length (by simp at hn; omega) rest h rfl
        rw [if_neg c1, if_neg c2, i3]
        exact ⟨i1, i2, rfl⟩

theorem unescapeDecode_raw (mode : encoding) (s : GoString)
    (h : ∀ c ∈ s, c ≠ 0x25 ∧ c ≠ 0x2b) : unescapeDecode mode s = s := by
  induction s with
  | nil => simp [unescapeDecode]
  | cons c t ih =>
    have hc := h c (List.mem_cons_self _ _)
    rw [unescapeDecode_cons_raw mode c t hc.1, ih (fun d hd => h d (List.mem_cons_of_mem _ hd))]
    simp [hc.2]

set_option maxRecDepth 1000000 in
theorem port_byte_plain : ∀ c : Byte, (c = 0x3a ∨ c = 0x5d ∨ isDigit c = true) →
    c ≠ 0x25 ∧ c ≠ 0x2b := by
  decide

theorem unescapeDecode_head (mode : encoding) (s : GoString) (h : unescapeCheck mode s = none)
    (hm : mode = .encodeHost) :
    (s.head? = some 0x5b → (unescapeDecode mode s).head? = some 0x5b) ∧
    (s.head? ≠ some 0x5b → (unescapeDecode mode s).head? ≠ some 0x5b) := by
  subst hm
  match s with
  | [] => simp [unescapeDecode]
  | c :: rest =>
    by_cases hc : c = 0x25
    · subst hc
      match rest with
      | [] => simp [unescapeCheck] at h
      | [a] => simp [unescapeCheck] at h
      | a :: b :: r =>
        rw [unescapeCheck_cons_pct] at h
        split_ifs at h with c1 c2 c3
        rw [unescapeDecode_pct]
        refine ⟨fun e => by simp at e, fun _ => ?_⟩
        simp only [List.head?_cons, ne_eq, Option.some.injEq]
        intro e
        have hh : ¬ unhex a < 8 ∨ [0x25, a, b] = ascii "%25" := by
          by_contra hcon
          simp only [not_or, not_not] at hcon
          exact c2 (by simp [hcon.1, hcon.2])
        rcases hh with h1 | h1
        · have := unhex_high a b h1
          rw [e] at this
          revert this; decide
        · have := pct25_decode a b h1
          rw [e] at this
          revert this; decide
    · rw [unescapeDecode_cons_raw _ c rest hc]
      simp
/-! ## What `parseHost` returns -/

theorem LastIndex_single_spec (c : Byte) (s : GoString) :
    (LastIndex s [c] = none ∧ c ∉ s) ∨
      ∃ pre post, s = pre ++ c :: post ∧ c ∉ post ∧ LastIndex s [c] = some pre.length := by
  induction s with
  | nil => simp [LastIndex]
  | cons d t ih =>
    rcases ih with ⟨h1, h2⟩ | ⟨pre, post, e, h2, h3⟩
    · by_cases hd : c = d
      · subst hd
        exact Or.inr ⟨[], t, rfl, h2, by simp [LastIndex, h1, HasPrefix, List.isPrefixOf]⟩
      · left
        refine ⟨by simp [LastIndex, h1, HasPrefix, List.isPrefixOf, hd], ?_⟩
        simp only [List.mem_cons, not_or]
        exact ⟨hd, h2⟩
    · exact Or.inr ⟨d :: pre, post, by simp [e], h2, by simp [LastIndex, h3]⟩

theorem isPrefixOf_take (sub l : GoString) (n : Nat) (h : sub.isPrefixOf (l.take n) = true) :
    sub.isPrefixOf l = true := by
  rw [List.isPrefixOf_iff_prefix] at h ⊢
  exact h.trans (List.take_prefix n l)

theorem Index_spec (sub : GoString) (hsub : sub ≠ []) (s : GoString) (z : Nat)
    (h : Index s sub = some z) :
    HasPrefix (s.drop z) sub = true ∧ Index (s.take z) sub = none := by
  induction s generalizing z with
  | nil =>
    simp only [Index, hsub, if_false] at h
    cases h
  | cons c t ih =>
    rw [Index] at h
    split_ifs at h with h1
    · simp only [Option.some.injEq] at h
      subst h
      exact ⟨by simpa using h1, by simp [Index, hsub]⟩
    · cases hi : Index t sub with
      | none => rw [hi] at h; cases h
      | some k =>
        rw [hi] at h
        simp only [Option.map_some', Option.some.injEq] at h
        subst h
        obtain ⟨i1, i2⟩ := ih k hi
        refine ⟨by simpa using i1, ?_⟩
        rw [List.take_succ_cons, Index, i2]
        have : HasPrefix (c :: List.take k t) sub = false := by
          cases hh : HasPrefix (c :: List.take k t) sub with
          | false => rfl
          | true =>
            exfalso
            apply h1
            have : sub.isPrefixOf (List.take (k + 1) (c :: t)) = true := by
              rw [List.take_succ_cons]; exact hh
            exact isPrefixOf_take sub (c :: t) (k + 1) this
        simp [this]

theorem HasPrefix_cons3 (a b c : Byte) (s : GoString) (h : HasPrefix s [a, b, c] = true) :
    ∃ r, s = a :: b :: c :: r := by
  simp only [HasPrefix, List.isPrefixOf_iff_prefix] at h
  obtain ⟨r, hr⟩ := h
  exact ⟨r, by simp [← hr]⟩

theorem unescape_ok_iff (s : GoString) (mode : encoding) (x : GoString)
    (h : unescape s mode = .ok x) : unescapeCheck mode s = none ∧ x = unescapeDecode mode s := by
  unfold unescape at h
  split at h
  · cases h
  · rename_i hc
    simp only [Except.ok.injEq] at h
    exact ⟨hc, h.symm⟩

theorem port_decode (port : GoString) (h : validOptionalPort port = true) :
    unescapeDecode .encodeHost (0x5d :: port) = 0x5d :: port := by
  apply unescapeDecode_raw
  intro c hc
  apply port_byte_plain
  rcases List.mem_cons.mp hc with e | e
  · exact Or.inr (Or.inl e)
  · rcases validOptionalPort_bytes port h c e with e2 | e2
    · exact Or.inl e2
    · exact Or.inr (Or.inr e2)

theorem validOptionalPort_colon (post : GoString) (h : validOptionalPort (0x3a :: post) = true) :
    (∀ d ∈ post, isDigit d = true) ∧ unescapeDecode .encodeHost (0x3a :: post) = 0x3a :: post := by
  have hd : ∀ d ∈ post, isDigit d = true := by
    intro d hd
    simp only [validOptionalPort, decide_True, Bool.true_and, List.all_eq_true,
      Bool.not_eq_true', Bool.or_eq_false_iff, decide_eq_false_iff_not] at h
    have := h d hd
    simp only [isDigit, Bool.and_eq_true, decide_eq_true_eq]
    exact ⟨not_lt.mp this.1, not_lt.mp this.2⟩
  refine ⟨hd, unescapeDecode_raw _ _ (fun c hc => port_byte_plain c ?_)⟩
  rcases List.mem_cons.mp hc with e | e
  · exact Or.inl e
  · exact Or.inr (Or.inr (hd c e))

theorem head_append_of_head (a : Byte) (l r : GoString) (h : l.head? = some a) :
    (l ++ r).head? = some a := by
  cases l with
  | nil => simp at h
  | cons x t => simpa using h

/-- The host `parseHost` returns has one of the three forms of `HostInv`. -/
theorem parseHost_inv (raw H : GoString) (h : parseHost raw = .ok H) : HostInv H := by
  have e5b : ascii "[" = [0x5b] := by decide
  have e5d : ascii "]" = [0x5d] := by decide
  have e25 : ascii "%25" = [0x25, 0x32, 0x35] := by decide
  unfold parseHost at h
  rw [e5b, e5d, e25, ascii_colon, HasPrefix_single] at h
  split_ifs at h with hb
  · -- an IP literal
    have hraw : raw.head? = some 0x5b := by simpa using hb
    rcases LastIndex_single_spec 0x5d raw with ⟨l1, _⟩ | ⟨pre, port, e, l2, l3⟩
    · rw [l1] at h; cases h
    · rw [l3] at h
      have hd : List.drop (pre.length + 1) raw = port := by
        rw [e, List.drop_append_eq_append_drop]; simp
      have ht : List.take pre.length raw = pre := by rw [e]; simp
      have hdi : List.drop pre.length raw = 0x5d :: port := by rw [e]; simp
      simp only [hd, ht, hdi] at h
      split_ifs at h with hp
      have hport : validOptionalPort port = true := by simpa using hp
      have hpre : pre.head? = some 0x5b := by
        cases pre with
        | nil => rw [e] at hraw; simp at hraw
        | cons x t => rw [e] at hraw; simpa using hraw
      split at h
      · -- with a zone
        rename_i zone hz
        obtain ⟨z1, z2⟩ := Index_spec _ (by simp) pre zone hz
        split at h
        · cases h
        · rename_i host1 hu1
          split at h
          · cases h
          · rename_i host2 hu2
            split at h
            · cases h
            · rename_i host3 hu3
              simp only [Except.ok.injEq] at h
              obtain ⟨r2, er2⟩ := HasPrefix_cons3 _ _ _ _ z1
              have hzl : zone ≤ pre.length := by
                by_contra hcon
                have : List.drop zone pre = [] := List.drop_of_length_le (by omega)
                rw [this] at er2
                cases er2
              have htz : List.take zone raw = List.take zone pre := by
                rw [e, List.take_append_of_le_length hzl]
              rw [htz] at hu1
              obtain ⟨k1, k2⟩ := unescape_ok_iff _ _ _ hu1
              obtain ⟨k3, k4⟩ := unescape_ok_iff _ _ _ hu2
              obtain ⟨_, k6⟩ := unescape_ok_iff _ _ _ hu3
              rw [er2] at k3 k4
              have k3' : unescapeCheck .encodeZone r2 = none := by
                rw [unescapeCheck_cons_pct] at k3
                split_ifs at k3
                exact k3
              rw [unescapeDecode_pct] at k4
              have hv : (unhex 0x32 <<< 4 ||| unhex 0x35 : Byte) = 0x25 := by decide
              rw [hv] at k4
              rw [port_decode port hport] at k6
              have hzpos : 0 < zone := by
                rcases Nat.eq_zero_or_pos zone with e0 | e0
                · subst e0
                  simp only [List.drop_zero] at er2
                  rw [er2] at hpre
                  simp at hpre
                · exact e0
              have hth : (List.take zone pre).head? = some 0x5b := by
                cases pre with
                | nil => simp at hpre
                | cons x t =>
                  obtain ⟨m, hm⟩ := Nat.exists_eq_succ_of_ne_zero (Nat.pos_iff_ne_zero.mp hzpos)
                  rw [hm, List.take_succ_cons]
                  simpa using hpre
              refine Or.inr (Or.inr ⟨host1, unescapeDecode .encodeZone r2, port, ?_, ?_, ?_, ?_,
                l2, hport⟩)
              · rw [← h, k4, k6]; simp
              · rw [k2]; exact (unescapeDecode_head _ _ k1 rfl).1 hth
              · rw [k2]; exact unescapeDecode_host_nopct _ k1 z2
              · exact unescapeDecode_zone_bytes _ k3'
      · -- without zone
        rename_i hz
        obtain ⟨k1, k2⟩ := unescape_ok_iff _ _ _ h
        rw [e] at k1 k2
        obtain ⟨s1, s2, s3⟩ := unescape_split _ pre 0x5d port (by decide) k1
        rw [s3, port_decode port hport] at k2
        refine Or.inr (Or.inl ⟨unescapeDecode .encodeHost pre, port, k2, ?_, ?_, l2, hport⟩)
        · exact (unescapeDecode_head _ _ s1 rfl).1 hpre
        · exact unescapeDecode_host_nopct _ s1 hz
  · -- a name or an IPv4 address
    have hraw : raw.head? ≠ some 0x5b := by simpa using hb
    have key : ∀ (hu : unescape raw .encodeHost = .ok H),
        H.head? ≠ some 0x5b ∧ (∀ c ∈ H, hostByte c = true ∨ c = 0x25) ∧
          ∀ c ∈ H, c ∈ raw ∨ 0x80 ≤ c ∨ c = 0x25 := by
      intro hu
      obtain ⟨k1, k2⟩ := unescape_ok_iff _ _ _ hu
      rw [k2]
      exact ⟨(unescapeDecode_head _ _ k1 rfl).2 hraw, unescapeDecode_host_bytes raw k1⟩
    rcases LastIndex_single_spec 0x3a raw with ⟨l1, l2⟩ | ⟨pre, post, e, l2, l3⟩
    · rw [l1] at h
      simp only at h
      obtain ⟨a1, a2, a3⟩ := key h
      refine Or.inl ⟨a1, a2, Or.inl (fun hc => ?_)⟩
      rcases a3 _ hc with h1 | h1 | h1
      · exact l2 h1
      · revert h1; decide
      · revert h1; decide
    · rw [l3] at h
      have hdi : List.drop pre.length raw = 0x3a :: post := by rw [e]; simp
      simp only [hdi] at h
      split_ifs at h with hp
      have hport : validOptionalPort (0x3a :: post) = true := by simpa using hp
      obtain ⟨a1, a2, _⟩ := key h
      obtain ⟨k1, k2⟩ := unescape_ok_iff _ _ _ h
      rw [e] at k1 k2
      obtain ⟨_, _, s3⟩ := unescape_split _ pre 0x3a post (by decide) k1
      obtain ⟨p1, p2⟩ := validOptionalPort_colon post hport
      rw [s3, p2] at k2
      exact Or.inl ⟨a1, a2, Or.inr ⟨_, post, k2, p1⟩⟩

theorem HostInv_nil : HostInv [] := by
  refine Or.inl ⟨by simp, by simp, Or.inl (by simp)⟩

/-- The host `parseAuthority` returns has one of the three forms of `HostInv`. -/
theorem parseAuthority_inv (authority : GoString) (user : Option Userinfo) (host : GoString)
    (h : parseAuthority authority = .ok (user, host)) : HostInv host := by
  unfold parseAuthority at h
  simp only at h
  split at h
  · cases h
  · rename_i host2 hh
    have hinv : HostInv host2 := by
      split at hh
      · exact parseHost_inv _ _ hh
      · exact parseHost_inv _ _ hh
    split at h
    · simp only [Except.ok.injEq, Prod.mk.injEq] at h
      exact h.2 ▸ hinv
    · split_ifs at h
      · split at h
        · cases h
        · simp only [Except.ok.injEq, Prod.mk.injEq] at h
          exact h.2 ▸ hinv
      · split at h
        · cases h
        · split at h
          · cases h
          · simp only [Except.ok.injEq, Prod.mk.injEq] at h
            exact h.2 ▸ hinv

/-! ## Lemmas on `Cut`, `HasSuffix` and `Count` with a one-byte separator -/

theorem Cut_single_spec (c : Byte) (s : GoString) :
    (c ∉ s ∧ Cut s [c] = (s, [], false)) ∨
      ∃ pre post, s = pre ++ c :: post ∧ c ∉ pre ∧ Cut s [c] = (pre, post, true) := by
  by_cases h : c ∈ s
  · obtain ⟨m, _, h2, h3⟩ := Index_single_some c s h
    refine Or.inr ⟨s.take m, s.drop (m + 1), h3, h2, ?_⟩
    conv_lhs => rw [h3]
    exact Cut_single_append c _ _ h2
  · exact Or.inl ⟨h, Cut_single_none c s h⟩

theorem Cut_single_fst (c : Byte) (s : GoString) :
    c ∉ (Cut s [c]).1 ∧ ∀ x ∈ (Cut s [c]).1, x ∈ s := by
  rcases Cut_single_spec c s with ⟨h, e⟩ | ⟨pre, post, e1, h, e⟩
  · rw [e]; exact ⟨h, fun x hx => hx⟩
  · rw [e]
    refine ⟨h, fun x hx => ?_⟩
    rw [e1]
    exact List.mem_append_left _ hx

theorem HasSuffix_single (c : Byte) (s : GoString) (h : HasSuffix s [c] = true) :
    ∃ r, s = r ++ [c] := by
  simp only [HasSuffix, List.isSuffixOf_iff_suffix] at h
  obtain ⟨r, hr⟩ := h
  exact ⟨r, hr.symm⟩

theorem HasSuffix_append_false (c : Byte) (s q : GoString) (hq : q ≠ []) (hc : c ∉ q) :
    HasSuffix (s ++ q) [c] = false := by
  cases hh : HasSuffix (s ++ q) [c] with
  | false => rfl
  | true =>
    exfalso
    obtain ⟨r, hr⟩ := HasSuffix_single c _ hh
    have h1 : (s ++ q).getLast? = some c := by rw [hr]; simp
    have h2 : (s ++ q).getLast? = q.getLast? := by
      rw [List.getLast?_append]
      cases hq2 : q.getLast? with
      | none => simp [List.getLast?_eq_none_iff] at hq2; exact absurd hq2 hq
      | some x => simp
    rw [h2] at h1
    exact hc (List.mem_of_getLast?_eq_some h1)

theorem forceQuery_rest (rest : GoString) (h1 : HasSuffix rest (ascii "?") = true)
    (h2 : Count rest (ascii "?") = 1) :
    (0x3f : Byte) ∉ rest.take (rest.length - 1) ∧
      ∀ x ∈ rest.take (rest.length - 1), x ∈ rest := by
  rw [ascii_question] at h1 h2
  obtain ⟨r, hr⟩ := HasSuffix_single _ _ h1
  subst hr
  simp only [Count, List.count_append, List.count_singleton_self] at h2
  have h3 : r.count 0x3f = 0 := by omega
  simp only [List.length_append, List.length_singleton, Nat.add_sub_cancel,
    List.take_left']
  exact ⟨List.count_eq_zero.mp h3, fun x hx => List.mem_append_left _ hx⟩

/-! ## Lemmas on `url.Parse` -/

theorem unescapeDecode_head_slash (mode : encoding) (p : GoString)
    (h : p.head? = some 0x2f) : (unescapeDecode mode p).head? = some 0x2f := by
  cases p with
  | nil => simp at h
  | cons c r =>
    simp only [List.head?_cons, Option.some.injEq] at h
    subst h
    rw [unescapeDecode_cons _ _ _ (by decide)]
    simp

theorem setPath_ok (u u2 : URL) (p : GoString) (h : u.setPath p = .ok u2) :
    ∃ path, unescape p .encodePath = .ok path ∧
      u2 = { u with Path := path, RawPath := if p = escape path .encodePath then [] else p } := by
  unfold URL.setPath at h
  split at h
  · cases h
  · rename_i path hp
    refine ⟨path, hp, ?_⟩
    split_ifs at h with h1
    · simp only [Except.ok.injEq] at h
      rw [← h, if_pos h1]
    · simp only [Except.ok.injEq] at h
      rw [← h, if_neg h1]

theorem unescape_ok_decode (p path : GoString) (mode : encoding)
    (h : unescape p mode = .ok path) : path = unescapeDecode mode p := by
  unfold unescape at h
  split at h
  · cases h
  · simp only [Except.ok.injEq] at h
    exact h.symm

theorem setPath_inv (u u2 : URL) (p : GoString) (h : u.setPath p = .ok u2) :
    u2.Scheme = u.Scheme ∧ u2.Opaque = u.Opaque ∧ u2.User = u.User ∧ u2.Host = u.Host ∧
    u2.OmitHost = u.OmitHost ∧ u2.ForceQuery = u.ForceQuery ∧ u2.RawQuery = u.RawQuery ∧
    u2.Fragment = u.Fragment ∧ u2.RawFragment = u.RawFragment ∧
    (p = [] → u2.Path = []) ∧ (p.head? = some 0x2f → u2.Path.head? = some 0x2f) ∧
    (u2.RawPath ≠ [] → unescape u2.RawPath .encodePath = .ok u2.Path) := by
  obtain ⟨path, hp, e⟩ := setPath_ok u u2 p h
  subst e
  have hd := unescape_ok_decode p path _ hp
  refine ⟨rfl, rfl, rfl, rfl, rfl, rfl, rfl, rfl, rfl, ?_, ?_, ?_⟩
  · intro e; subst e; simp [hd, unescapeDecode]
  · intro e; simp only [hd]; exact unescapeDecode_head_slash _ _ e
  · intro hne
    by_cases h1 : p = escape path .encodePath
    · simp [if_pos h1] at hne
    · simp only [if_neg h1]; exact hp
theorem Index_single_drop (c : Byte) (s : GoString) (i : Nat) (h : Index s [c] = some i) :
    s.drop i = c :: s.drop (i + 1) ∧ c ∉ s.take i := by
  by_cases hc : c ∈ s
  · obtain ⟨m, h1, h2, h3⟩ := Index_single_some c s hc
    rw [h] at h1
    simp only [Option.some.injEq] at h1
    subst h1
    refine ⟨?_, h2⟩
    have hl : (s.take i).length = i := by
      apply List.length_take_of_le
      by_contra hlt
      have : s.take i = s := List.take_of_length_le (by omega)
      rw [this] at h2
      exact h2 hc
    conv_lhs => rw [h3]
    rw [List.drop_append_eq_append_drop, hl]
    simp
  · rw [Index_single_none c s hc] at h
    cases h

theorem parseHier_frame (url u : URL) (rest : GoString) (h : parseHier url rest = .ok u) :
    u.Scheme = url.Scheme ∧ u.RawQuery = url.RawQuery ∧ u.ForceQuery = url.ForceQuery ∧
      u.Fragment = url.Fragment ∧ u.RawFragment = url.RawFragment := by
  unfold parseHier at h
  split_ifs at h with c1 c2 c3 c4
  · simp only [Except.ok.injEq] at h
    subst h
    exact ⟨rfl, rfl, rfl, rfl, rfl⟩
  · simp only at h
    split at h
    · split at h
      · cases h
      · obtain ⟨e1, _, _, _, _, e6, e7, e8, e9, _⟩ := setPath_inv _ _ _ h
        exact ⟨e1, e7, e6, e8, e9⟩
    · split at h
      · cases h
      · obtain ⟨e1, _, _, _, _, e6, e7, e8, e9, _⟩ := setPath_inv _ _ _ h
        exact ⟨e1, e7, e6, e8, e9⟩
  · obtain ⟨e1, _, _, _, _, e6, e7, e8, e9, _⟩ := setPath_inv _ _ _ h
    exact ⟨e1, e7, e6, e8, e9⟩
  · obtain ⟨e1, _, _, _, _, e6, e7, e8, e9, _⟩ := setPath_inv _ _ _ h
    exact ⟨e1, e7, e6, e8, e9⟩

theorem parseHier_inv (url u : URL) (rest : GoString) (h : parseHier url rest = .ok u)
    (hv : validScheme url.Scheme) (hq : (0x3f : Byte) ∉ rest)
    (hz : url.Opaque = [] ∧ url.Path = [] ∧ url.RawPath = [] ∧ url.OmitHost = false ∧
      url.Host = [] ∧ url.User = none) :
    ParsedInv rest u ∧ u.RawQuery = url.RawQuery ∧ u.ForceQuery = url.ForceQuery ∧
      u.Fragment = url.Fragment ∧ u.RawFragment = url.RawFragment := by
  obtain ⟨z1, z2, z3, z4, z5, z6⟩ := hz
  have hs : url.Scheme ≠ [] := by
    obtain ⟨⟨c, t, e, _⟩, _⟩ := hv
    rw [e]; simp
  unfold parseHier at h
  split_ifs at h with c1 c2 c3 c4
  · -- opaque
    simp only [Except.ok.injEq] at h
    subst h
    refine ⟨⟨hv, ?_, ?_, fun _ => Or.inl z2, fun e => absurd z3 e, ?_, z5 ▸ HostInv_nil⟩,
      rfl, rfl, rfl, rfl⟩
    · intro c hc
      exact ⟨fun e => hq (e ▸ hc), hc⟩
    · simp only [Bool.and_eq_true, Bool.not_eq_true', decide_eq_true_eq] at c1
      have := c1.1
      rw [ascii_slash, HasPrefix_single] at this
      simpa using this
    · intro e
      simp [z4] at e
  · -- authority
    simp only at h
    split at h
    · rename_i i hi
      split at h
      · cases h
      · rename_i user host hpa
        obtain ⟨e1, e2, e3, e4, e5, e6, e7, e8, e9, e10, e11, e12⟩ := setPath_inv _ _ _ h
        have hd := (Index_single_drop 0x2f (rest.drop 2) i (by rw [← ascii_slash]; exact hi)).1
        refine ⟨⟨e1 ▸ hv, ?_, ?_, fun _ => Or.inr (e11 (by rw [hd]; rfl)), e12, ?_,
          e4 ▸ parseAuthority_inv _ _ _ hpa⟩, e7, e6, e8, e9⟩
        · rw [e2, z1]; simp
        · rw [e2, z1]; simp
        · rw [e5, z4]; simp
    · split at h
      · cases h
      · rename_i user host hpa
        obtain ⟨e1, e2, e3, e4, e5, e6, e7, e8, e9, e10, e11, e12⟩ := setPath_inv _ _ _ h
        refine ⟨⟨e1 ▸ hv, ?_, ?_, fun _ => Or.inl (e10 rfl), e12, ?_,
          e4 ▸ parseAuthority_inv _ _ _ hpa⟩, e7, e6, e8, e9⟩
        · rw [e2, z1]; simp
        · rw [e2, z1]; simp
        · rw [e5, z4]; simp
  · -- no authority
    obtain ⟨e1, e2, e3, e4, e5, e6, e7, e8, e9, e10, e11, e12⟩ := setPath_inv _ _ _ h
    have hp : rest.head? = some 0x2f := by
      simp only [Bool.and_eq_true, decide_eq_true_eq] at c4
      have := c4.2
      rw [ascii_slash, HasPrefix_single] at this
      simpa using this
    refine ⟨⟨e1 ▸ hv, ?_, ?_, fun _ => Or.inr (e11 hp), e12, fun _ => ⟨?_, ?_, e11 hp⟩, ?_⟩,
      e7, e6, e8, e9⟩
    · rw [e2, z1]; simp
    · rw [e2, z1]; simp
    · rw [e4, z5]
    · rw [e3, z6]
    · rw [e4, z5]; exact HostInv_nil
  · exfalso
    simp only [Bool.and_eq_true, Bool.not_eq_true', decide_eq_true_eq, not_and] at c1 c4
    by_cases hp : HasPrefix rest (ascii "/") = true
    · exact c4 hs hp
    · exact c1 (by simpa using hp) hs

theorem parse_inv (body : GoString) (u : URL) (h : parse body = .ok u) (hs : u.Scheme ≠ []) :
    ParsedInv body u ∧ u.Fragment = [] ∧ u.RawFragment = [] ∧
      stringContainsCTLByte body = false := by
  unfold parse at h
  split_ifs at h with c1 c2
  · simp only [Except.ok.injEq] at h
    subst h
    exact absurd rfl hs
  · split at h
    · cases h
    · rename_i scheme rest0 hg
      simp only at h
      have hsc : scheme ≠ [] := by
        intro e
        subst e
        split_ifs at h with c3
        · exact hs (by rw [(parseHier_frame _ _ _ h).1]; rfl)
        · exact hs (by rw [(parseHier_frame _ _ _ h).1]; rfl)
      obtain ⟨hb, hv⟩ := getScheme_ok body scheme rest0 hg hsc
      have hv2 := validScheme_ToLower scheme hv
      have hmem : ∀ x ∈ rest0, x ∈ body := by
        intro x hx; rw [hb]; simp [hx]
      split_ifs at h with c3
      · simp only [Bool.and_eq_true, decide_eq_true_eq] at c3
        obtain ⟨f1, f2⟩ := forceQuery_rest rest0 c3.1 c3.2
        obtain ⟨i1, _, _, i4, i5⟩ := parseHier_inv _ _ _ h hv2 f1
          ⟨rfl, rfl, rfl, rfl, rfl, rfl⟩
        exact ⟨⟨i1.scheme, fun c hc => ⟨(i1.opaque_mem c hc).1, hmem c (f2 c (i1.opaque_mem c hc).2)⟩,
          i1.opaque_head, i1.path_head, i1.rawPath, i1.omitHost, i1.host⟩, i4, i5,
          by simpa using c1⟩
      · rw [ascii_question] at h
        obtain ⟨f1, f2⟩ := Cut_single_fst 0x3f rest0
        obtain ⟨i1, _, _, i4, i5⟩ := parseHier_inv _ _ _ h hv2 f1
          ⟨rfl, rfl, rfl, rfl, rfl, rfl⟩
        exact ⟨⟨i1.scheme, fun c hc => ⟨(i1.opaque_mem c hc).1, hmem c (f2 c (i1.opaque_mem c hc).2)⟩,
          i1.opaque_head, i1.path_head, i1.rawPath, i1.omitHost, i1.host⟩, i4, i5,
          by simpa using c1⟩
theorem Parse_inv (B : GoString) (u : URL) (h : Parse B = .ok u) (hs : u.Scheme ≠ []) :
    ∃ body, (0x23 : Byte) ∉ body ∧ ParsedInv body u ∧
      (u.RawFragment ≠ [] → unescape u.RawFragment .encodeFragment = .ok u.Fragment) ∧
      stringContainsCTLByte body = false := by
  unfold Parse at h
  simp only at h
  rw [ascii_hash] at h
  refine ⟨(Cut B [0x23]).1, (Cut_single_fst _ _).1, ?_⟩
  split at h
  · cases h
  · rename_i url hp
    split_ifs at h with c1
    · simp only [Except.ok.injEq] at h
      subst h
      obtain ⟨i1, i2, i3, i4⟩ := parse_inv _ _ hp hs
      exact ⟨i1, fun e => absurd i3 e, i4⟩
    · split at h
      · cases h
      · rename_i url2 hf
        simp only [Except.ok.injEq] at h
        subst h
        unfold URL.setFragment at hf
        split at hf
        · cases hf
        · rename_i frag hfr
          have key : url2.Scheme = url.Scheme ∧ url2.Opaque = url.Opaque ∧ url2.Path = url.Path ∧
              url2.RawPath = url.RawPath ∧ url2.OmitHost = url.OmitHost ∧ url2.Host = url.Host ∧
              url2.User = url.User ∧
              (url2.RawFragment ≠ [] →
                unescape url2.RawFragment .encodeFragment = .ok url2.Fragment) := by
            split_ifs at hf with c2
            · simp only [Except.ok.injEq] at hf
              subst hf
              exact ⟨rfl, rfl, rfl, rfl, rfl, rfl, rfl, fun e => absurd rfl e⟩
            · simp only [Except.ok.injEq] at hf
              subst hf
              exact ⟨rfl, rfl, rfl, rfl, rfl, rfl, rfl, fun _ => hfr⟩
          obtain ⟨k1, k2, k3, k4, k5, k6, k7, k8⟩ := key
          obtain ⟨i1, _, _, i4⟩ := parse_inv _ _ hp (k1 ▸ hs)
          refine ⟨⟨k1 ▸ i1.scheme, k2 ▸ i1.opaque_mem, k2 ▸ i1.opaque_head, ?_, ?_, ?_,
            k6 ▸ i1.host⟩, k8, i4⟩
          · rw [k2, k3]; exact i1.path_head
          · rw [k3, k4]; exact i1.rawPath
          · rw [k5, k6, k7, k3]; exact i1.omitHost

theorem unescape_ne_append (raw path sfx : GoString) (mode : encoding) (hs : sfx ≠ [])
    (h : unescape raw mode = .ok path) : unescape raw mode ≠ .ok (path ++ sfx) := by
  rw [h]
  intro e
  simp only [Except.ok.injEq] at e
  have := congrArg List.length e
  simp only [List.length_append] at this
  have : sfx.length = 0 := by omega
  exact hs (List.length_eq_zero.mp this)

theorem EscapedPath_append (u : URL) (body : GoString) (inv : ParsedInv body u)
    (sfx q : GoString) (hs : sfx.head? = some 0x2f) :
    ({ u with Path := u.Path ++ sfx, RawQuery := q } : URL).EscapedPath =
      escape (u.Path ++ sfx) .encodePath := by
  have hne : sfx ≠ [] := by intro e; simp [e] at hs
  unfold URL.EscapedPath
  simp only
  have h1 : ¬ (u.RawPath ≠ [] ∧ validEncoded u.RawPath .encodePath = true ∧
      unescape u.RawPath .encodePath = .ok (u.Path ++ sfx)) := by
    rintro ⟨a, _, c⟩
    exact unescape_ne_append _ _ _ _ hne (inv.rawPath a) c
  have h2 : u.Path ++ sfx ≠ ascii "*" := by
    rw [ascii_star]
    intro e
    cases hp : u.Path with
    | nil =>
      rw [hp] at e
      simp only [List.nil_append] at e
      rw [e] at hs
      simp at hs
    | cons c t =>
      rw [hp] at e
      have := congrArg List.length e
      simp only [List.cons_append, List.length_cons, List.length_append, List.length_nil] at this
      have : sfx.length = 0 := by omega
      exact hne (List.length_eq_zero.mp this)
  rw [if_neg h1, if_neg h2]

theorem writeHierPart_login (u : URL) (buf ep : GoString) (hb : buf ≠ [])
    (hsc : u.Scheme ≠ []) (hp : u.Path ≠ []) (hep : u.EscapedPath = ep) :
    u.writeHierPart buf =
      buf ++ (if u.OmitHost = true ∧ u.Host = [] ∧ u.User = none then
          (if HasPrefix ep (ascii "//") = true then ascii "%2F" ++ ep.drop 1 else ep)
        else ascii "//" ++ authorityText u ++
          (if ep ≠ [] ∧ ep.head? ≠ some 0x2f ∧ u.Host ≠ [] then ascii "/" else []) ++ ep) := by
  have e0 : escape [] .encodeHost = [] := rfl
  have hb2 : buf ++ ascii "%2F" ≠ [] := by simp [hb]
  have hn : HasPrefix ([] : GoString) [0x2f, 0x2f] = false := rfl
  unfold URL.writeHierPart authorityText
  rw [hep]
  cases hU : u.User <;> by_cases hH : u.Host = [] <;> by_cases hO : u.OmitHost = true <;>
    by_cases hh : ep.head? = some 0x2f <;> by_cases he : ep = [] <;>
    by_cases hpp : HasPrefix ep [0x2f, 0x2f] = true <;>
    simp [hU, hH, hO, hh, he, hb, hb2, hsc, hp, e0, hpp, hn, ascii_slash2, ascii_slash, ascii_at]

theorem String_login (u : URL) (body : GoString) (inv : ParsedInv body u)
    (sfx q : GoString) (hs : sfx.head? = some 0x2f) (hq : q ≠ []) :
    ({ u with Path := u.Path ++ sfx, RawQuery := q } : URL).String =
      u.Scheme ++ 0x3a :: (hierText u (u.Path ++ sfx) ++ 0x3f :: (q ++ fragmentText u)) := by
  have hsc : u.Scheme ≠ [] := by
    obtain ⟨⟨c, t, e, _⟩, _⟩ := inv.scheme
    rw [e]; simp
  have hne : sfx ≠ [] := by intro e; simp [e] at hs
  have hp : u.Path ++ sfx ≠ [] := by simp [hne]
  have hEP := EscapedPath_append u body inv sfx q hs
  have hW := writeHierPart_login { u with Path := u.Path ++ sfx, RawQuery := q }
    (u.Scheme ++ ascii ":") _ (by simp [hsc]) hsc hp hEP
  unfold URL.String
  simp only [ne_eq, hsc, not_false_eq_true, if_true]
  rw [hW]
  unfold hierText fragmentText
  have hEF : ({ u with Path := u.Path ++ sfx, RawQuery := q } : URL).EscapedFragment =
      u.EscapedFragment := rfl
  have hA : authorityText { u with Path := u.Path ++ sfx, RawQuery := q } = authorityText u := rfl
  rw [hEF, hA]
  by_cases ho : u.Opaque = [] <;> by_cases hf : u.Fragment = [] <;>
    simp [ho, hf, hq, ascii_colon, ascii_question, ascii_hash]

/-! ## Parsing the string `LoginURL` returns -/

theorem Parse_fields (s : GoString) (u2 : URL) (h : Parse s = .ok u2) :
    ∃ u3, parse (Cut s [0x23]).1 = .ok u3 ∧ u2.Scheme = u3.Scheme ∧ u2.Opaque = u3.Opaque ∧
      u2.User = u3.User ∧ u2.Host = u3.Host ∧ u2.Path = u3.Path ∧ u2.RawPath = u3.RawPath ∧
      u2.OmitHost = u3.OmitHost ∧ u2.ForceQuery = u3.ForceQuery ∧ u2.RawQuery = u3.RawQuery := by
  unfold Parse at h
  simp only at h
  rw [ascii_hash] at h
  split at h
  · cases h
  · rename_i url hp
    refine ⟨url, hp, ?_⟩
    split_ifs at h with c1
    · simp only [Except.ok.injEq] at h
      subst h
      exact ⟨rfl, rfl, rfl, rfl, rfl, rfl, rfl, rfl, rfl⟩
    · split at h
      · cases h
      · rename_i url2 hf
        simp only [Except.ok.injEq] at h
        subst h
        unfold URL.setFragment at hf
        split at hf
        · cases hf
        · split_ifs at hf with c2
          · simp only [Except.ok.injEq] at hf
            subst hf
            exact ⟨rfl, rfl, rfl, rfl, rfl, rfl, rfl, rfl, rfl⟩
          · simp only [Except.ok.injEq] at hf
            subst hf
            exact ⟨rfl, rfl, rfl, rfl, rfl, rfl, rfl, rfl, rfl⟩

theorem Userinfo_String_safe (ui : Userinfo) : ∀ x ∈ ui.String,
    x ≠ 0x23 ∧ x ≠ 0x3f ∧ x ≠ 0x2f ∧ x ≠ 0x40 := by
  intro x hx
  unfold Userinfo.String at hx
  simp only [ascii_colon] at hx
  split_ifs at hx
  · simp only [List.mem_append, List.mem_singleton] at hx
    rcases hx with (hx | hx) | hx
    · have := escape_user_safe _ x hx; tauto
    · rw [hx]; decide
    · have := escape_user_safe _ x hx; tauto
  · have := escape_user_safe _ x hx; tauto

theorem authorityText_safe (u : URL) : ∀ x ∈ authorityText u,
    x ≠ 0x23 ∧ x ≠ 0x3f ∧ x ≠ 0x2f := by
  intro x hx
  unfold authorityText at hx
  rw [List.mem_append] at hx
  rcases hx with hx | hx
  · split at hx
    · simp only [ascii_at, List.mem_append, List.mem_singleton] at hx
      rcases hx with hx | hx
      · have := Userinfo_String_safe _ x hx; tauto
      · rw [hx]; decide
    · simp at hx
  · have := escape_host_safe _ x hx; tauto

set_option maxRecDepth 100000 in
theorem pct2F_safe : ∀ x ∈ ascii "%2F", x ≠ (0x23 : Byte) ∧ x ≠ 0x3f ∧
    (decide (x < 0x20) || decide (x = 0x7f)) = false := by
  decide

theorem hierText_safe (u : URL) (body : GoString) (inv : ParsedInv body u)
    (hb : (0x23 : Byte) ∉ body) (path : GoString) :
    ∀ x ∈ hierText u path, x ≠ 0x23 ∧ x ≠ 0x3f := by
  intro x hx
  unfold hierText at hx
  by_cases c1 : u.Opaque ≠ []
  · rw [if_pos c1] at hx
    exact ⟨fun e => hb (e ▸ (inv.opaque_mem x hx).2), (inv.opaque_mem x hx).1⟩
  · rw [if_neg c1] at hx
    by_cases c2 : u.OmitHost = true ∧ u.Host = [] ∧ u.User = none
    · rw [if_pos c2] at hx
      split_ifs at hx
      · rcases List.mem_append.1 hx with h | h
        · exact ⟨(pct2F_safe x h).1, (pct2F_safe x h).2.1⟩
        · exact escape_path_safe _ x (List.mem_of_mem_drop h)
      · exact escape_path_safe _ x hx
    · rw [if_neg c2] at hx
      split_ifs at hx
      · simp only [ascii_slash2, ascii_slash, List.mem_append, List.mem_cons, List.mem_singleton,
          List.not_mem_nil, or_false] at hx
        rcases hx with (((hx | hx) | hx) | hx) | hx
        · rw [hx]; decide
        · rw [hx]; decide
        · have := authorityText_safe u x hx; tauto
        · rw [hx]; decide
        · exact escape_path_safe _ x hx
      · simp only [ascii_slash2, List.mem_append, List.mem_cons, List.mem_singleton,
          List.not_mem_nil, or_false, List.append_nil] at hx
        rcases hx with ((hx | hx) | hx) | hx
        · rw [hx]; decide
        · rw [hx]; decide
        · have := authorityText_safe u x hx; tauto
        · exact escape_path_safe _ x hx

theorem validScheme_safe (sc : GoString) (h : validScheme sc) :
    ∀ x ∈ sc, x ≠ 0x23 ∧ x ≠ 0x3f ∧ x ≠ 0x3a ∧ x ≠ 0x2f := fun x hx =>
  isSchemeByte_safe x (h.2 x hx)

/-- Parsing again the string `LoginURL` builds from the parsed URL `u`: if it
succeeds, the result is that of `parseHier` on the text between `scheme:` and
`?`, with the query `q`. -/
theorem Parse_String_login (u : URL) (body : GoString) (inv : ParsedInv body u)
    (hb : (0x23 : Byte) ∉ body) (sfx q : GoString) (hs : sfx.head? = some 0x2f) (hq : q ≠ [])
    (hq2 : ∀ x ∈ q, x ≠ 0x23 ∧ x ≠ 0x3f) (u2 : URL)
    (h : Parse ({ u with Path := u.Path ++ sfx, RawQuery := q } : URL).String = .ok u2) :
    ∃ u3, parseHier { URL.zero with Scheme := ToLower u.Scheme, RawQuery := q }
        (hierText u (u.Path ++ sfx)) = .ok u3 ∧
      u2.Path = u3.Path ∧ u2.RawQuery = u3.RawQuery := by
  rw [String_login u body inv sfx q hs hq] at h
  obtain ⟨u3, hp, _, _, _, _, e5, _, _, _, e9⟩ := Parse_fields _ _ h
  refine ⟨u3, ?_, e5, e9⟩
  have hH := hierText_safe u body inv hb (u.Path ++ sfx)
  have hS := validScheme_safe _ inv.scheme
  -- the part before the fragment
  have hcut : (Cut (u.Scheme ++ 0x3a :: (hierText u (u.Path ++ sfx) ++ 0x3f :: (q ++ fragmentText u)))
      [0x23]).1 = u.Scheme ++ 0x3a :: (hierText u (u.Path ++ sfx) ++ 0x3f :: q) := by
    have hno : (0x23 : Byte) ∉ u.Scheme ++ 0x3a :: (hierText u (u.Path ++ sfx) ++ 0x3f :: q) := by
      simp only [List.mem_append, List.mem_cons, not_or]
      refine ⟨fun e => (hS _ e).1 rfl, by decide, fun e => (hH _ e).1 rfl, by decide,
        fun e => (hq2 _ e).1 rfl⟩
    unfold fragmentText
    split_ifs with cf
    · have e : u.Scheme ++ 0x3a :: (hierText u (u.Path ++ sfx) ++
          0x3f :: (q ++ (ascii "#" ++ u.EscapedFragment))) =
          (u.Scheme ++ 0x3a :: (hierText u (u.Path ++ sfx) ++ 0x3f :: q)) ++
            0x23 :: u.EscapedFragment := by
        simp [ascii_hash]
      rw [e, Cut_single_append _ _ _ hno]
    · rw [List.append_nil, Cut_single_none _ _ hno]
  rw [hcut] at hp
  unfold parse at hp
  split_ifs at hp with c1 c2
  · exfalso
    have := congrArg List.length c2
    simp only [ascii_star, List.length_append, List.length_cons, List.length_nil] at this
    omega
  · rw [getScheme_append _ _ inv.scheme] at hp
    simp only at hp
    have hfq : HasSuffix (hierText u (u.Path ++ sfx) ++ 0x3f :: q) (ascii "?") = false := by
      rw [ascii_question]
      exact HasSuffix_append_false _ (hierText u (u.Path ++ sfx) ++ [0x3f]) q hq
        (fun e => (hq2 _ e).2 rfl) |> (by simpa using ·)
    rw [hfq] at hp
    simp only [Bool.false_and, Bool.false_eq_true, if_false, ascii_question] at hp
    rw [Cut_single_append _ _ _ (fun e => (hH _ e).2 rfl)] at hp
    exact hp

/-! ## Lemmas on `url.Values` -/

theorem encodePair_ne_nil (p : GoString × GoString) : encodePair p ≠ [] := by
  simp [encodePair]

theorem joinPairs_cons (p : GoString × GoString) (ps : List (GoString × GoString)) :
    joinPairs (p :: ps) = encodePair p ++ (if ps = [] then [] else 0x26 :: joinPairs ps) := by
  cases ps with
  | nil => simp [joinPairs]
  | cons p2 r => simp [joinPairs]

theorem joinPairs_eq_nil (ps : List (GoString × GoString)) : joinPairs ps = [] ↔ ps = [] := by
  cases ps with
  | nil => simp [joinPairs]
  | cons p r => simp [joinPairs_cons, encodePair_ne_nil]

/-- The buffer of `Values.Encode` after writing the pairs `ps`. -/
theorem encodeValues_eq (k : GoString) (vs : List GoString) (buf : GoString) :
    encodeValues (QueryEscape k) vs buf =
      if vs = [] then buf
      else if buf = [] then joinPairs (vs.map (fun value => (k, value)))
      else buf ++ 0x26 :: joinPairs (vs.map (fun value => (k, value))) := by
  induction vs generalizing buf with
  | nil => simp [encodeValues]
  | cons value r ih =>
    rw [encodeValues, ih]
    simp only [List.map_cons, joinPairs_cons, List.map_eq_nil_iff, ascii_amp, ascii_eq]
    by_cases hb : buf = [] <;> by_cases hr : r = [] <;>
      simp [hb, hr, encodePair, joinPairs]

theorem joinPairs_append (a b : List (GoString × GoString)) :
    joinPairs (a ++ b) =
      if a = [] then joinPairs b
      else if b = [] then joinPairs a
      else joinPairs a ++ 0x26 :: joinPairs b := by
  induction a with
  | nil => simp
  | cons p r ih =>
    simp only [List.cons_append, joinPairs_cons, ih]
    by_cases hr : r = [] <;> by_cases hb : b = [] <;> simp [hr, hb]

theorem encodeKeys_eq (v : Values) (keys : List GoString) (buf : GoString) :
    encodeKeys v keys buf =
      if pairsOf v keys = [] then buf
      else if buf = [] then joinPairs (pairsOf v keys)
      else buf ++ 0x26 :: joinPairs (pairsOf v keys) := by
  induction keys generalizing buf with
  | nil => simp [encodeKeys, pairsOf]
  | cons k r ih =>
    rw [encodeKeys, ih, encodeValues_eq]
    have hp : pairsOf v (k :: r) = (v.index k).map (fun value => (k, value)) ++ pairsOf v r := by
      simp [pairsOf]
    rw [hp, joinPairs_append]
    by_cases h1 : v.index k = [] <;> by_cases h2 : pairsOf v r = [] <;> by_cases hb : buf = [] <;>
      simp [h1, h2, hb, joinPairs_eq_nil]

theorem Encode_eq (v : Values) :
    v.Encode = joinPairs (pairsOf v (sortStrings (v.map (·.1)))) := by
  unfold Values.Encode
  rw [encodeKeys_eq]
  by_cases h : pairsOf v (sortStrings (v.map (·.1))) = []
  · simp [h, joinPairs]
  · simp [h]

theorem lookup_filter_ne (v : Values) (k key : GoString) (h : key ≠ k) :
    List.lookup key (v.filter (fun p => !decide (p.1 = k))) = List.lookup key v := by
  induction v with
  | nil => simp
  | cons p r ih =>
    obtain ⟨a, b⟩ := p
    by_cases ha : a = k
    · have hka : (key == k) = false := by simp [h]
      simp only [List.filter_cons, ha, decide_True, Bool.not_true, Bool.false_eq_true, if_false,
        List.lookup_cons, hka, ih]
    · by_cases hka : key = a
      · simp [List.filter_cons, ha, List.lookup_cons, hka]
      · have hka2 : (key == a) = false := by simp [hka]
        simp only [List.filter_cons, ha, decide_False, Bool.not_false, if_true,
          List.lookup_cons, hka2, ih]

theorem index_store (v : Values) (k key : GoString) (vs : List GoString) :
    (v.store k vs).index key = if key = k then vs else v.index key := by
  unfold Values.store Values.index
  by_cases h : key = k
  · simp [h, List.lookup_cons]
  · have hk : (key == k) = false := by simp [h]
    simp only [ne_eq, decide_not, List.lookup_cons, hk, lookup_filter_ne v k key h, if_neg h]

theorem index_addPairs (m : Values) (ps : List (GoString × GoString)) (key : GoString) :
    (addPairs m ps).index key = m.index key ++ (ps.filter (fun p => p.1 = key)).map (·.2) := by
  induction ps generalizing m with
  | nil => simp [addPairs]
  | cons p r ih =>
    have e : addPairs m (p :: r) = addPairs (m.store p.1 (m.index p.1 ++ [p.2])) r := rfl
    rw [e, ih, index_store]
    by_cases h : key = p.1
    · subst h; simp [List.filter_cons]
    · have h2 : ¬ p.1 = key := fun e => h e.symm
      simp [List.filter_cons, h, h2]

theorem encodePair_safe (p : GoString × GoString) : ∀ x ∈ encodePair p,
    x ≠ 0x26 ∧ x ≠ 0x3b ∧ x ≠ 0x23 ∧ x ≠ 0x3f := by
  intro x hx
  simp only [encodePair, QueryEscape, List.mem_append, List.mem_cons] at hx
  rcases hx with hx | hx | hx
  · have := escape_query_safe _ x hx; tauto
  · rw [hx]; decide
  · have := escape_query_safe _ x hx; tauto

theorem joinPairs_safe (ps : List (GoString × GoString)) : ∀ x ∈ joinPairs ps,
    x ≠ 0x23 ∧ x ≠ 0x3f := by
  induction ps with
  | nil => simp [joinPairs]
  | cons p r ih =>
    intro x hx
    rw [joinPairs_cons, List.mem_append] at hx
    rcases hx with hx | hx
    · have := encodePair_safe p x hx; tauto
    · split_ifs at hx
      · simp at hx
      · rcases List.mem_cons.mp hx with e | e
        · rw [e]; decide
        · exact ih x e

theorem QueryUnescape_QueryEscape (s : GoString) : QueryUnescape (QueryEscape s) = .ok s :=
  unescape_escape _ ⟨by decide, by decide⟩ s

/-- One iteration of `parseQuery` on a query that begins with an encoded pair. -/
theorem parseQueryLoop_pair (fuel : Nat) (p : GoString × GoString) (query : GoString)
    (m : Values) (err : Option UrlErr)
    (hcut : (Cut (encodePair p ++ query) (ascii "&")).1 = encodePair p) :
    parseQueryLoop (fuel + 1) (encodePair p ++ query) (m, err) =
      parseQueryLoop fuel (Cut (encodePair p ++ query) (ascii "&")).2.1
        (m.store p.1 (m.index p.1 ++ [p.2]), err) := by
  have hne : encodePair p ++ query ≠ [] := by simp [encodePair_ne_nil]
  have hsemi : Contains (encodePair p) (ascii ";") = false := by
    rw [ascii_semi, Contains_single]
    simp only [decide_eq_false_iff_not]
    exact fun e => (encodePair_safe p _ e).2.1 rfl
  have hkv : Cut (encodePair p) (ascii "=") = (QueryEscape p.1, QueryEscape p.2, true) := by
    rw [ascii_eq]
    exact Cut_single_append _ _ _ (fun e => (escape_query_safe _ _ e).2.1 rfl)
  rw [parseQueryLoop]
  simp only [hne, if_false, hcut, hsemi, Bool.false_eq_true, encodePair_ne_nil, hkv,
    QueryUnescape_QueryEscape]

theorem parseQueryLoop_joinPairs (ps : List (GoString × GoString)) (fuel : Nat) (m : Values)
    (err : Option UrlErr) (hf : (joinPairs ps).length ≤ fuel) :
    parseQueryLoop fuel (joinPairs ps) (m, err) = (addPairs m ps, err) := by
  induction ps generalizing fuel m with
  | nil =>
    cases fuel with
    | zero => simp [parseQueryLoop, addPairs]
    | succ f => simp [parseQueryLoop, joinPairs, addPairs]
  | cons p r ih =>
    have hamp : (0x26 : Byte) ∉ encodePair p := fun e => (encodePair_safe p _ e).1 rfl
    have hlen : 0 < (encodePair p).length := List.length_pos.mpr (encodePair_ne_nil p)
    rw [joinPairs_cons] at hf ⊢
    cases fuel with
    | zero =>
      simp only [List.length_append] at hf
      omega
    | succ f =>
      by_cases hr : r = []
      · subst hr
        simp only [if_true, List.append_nil] at hf ⊢
        have hcut : Cut (encodePair p ++ []) (ascii "&") = (encodePair p, [], false) := by
          rw [List.append_nil, ascii_amp]
          exact Cut_single_none _ _ hamp
        have := parseQueryLoop_pair f p [] m err (by rw [hcut])
        rw [List.append_nil] at this
        rw [this]
        rw [List.append_nil] at hcut
        rw [hcut]
        cases f with
        | zero => simp [parseQueryLoop, addPairs]
        | succ g => simp [parseQueryLoop, addPairs]
      · simp only [if_neg hr] at hf ⊢
        have hcut : Cut (encodePair p ++ 0x26 :: joinPairs r) (ascii "&") =
            (encodePair p, joinPairs r, true) := by
          rw [ascii_amp]
          exact Cut_single_append _ _ _ hamp
        rw [parseQueryLoop_pair f p _ m err (by rw [hcut]), hcut]
        simp only
        rw [ih f _ (by simp only [List.length_append, List.length_cons] at hf; omega)]
        rfl

theorem ParseQuery_joinPairs (ps : List (GoString × GoString)) :
    ParseQuery (joinPairs ps) = (addPairs [] ps, none) :=
  parseQueryLoop_joinPairs ps _ [] none (le_refl _)

theorem filter_pairsOf (v : Values) (keys : List GoString) (key : GoString) :
    ((pairsOf v keys).filter (fun p => p.1 = key)).map (·.2) =
      (List.replicate (keys.countP (fun k => decide (k = key))) (v.index key)).flatten := by
  induction keys with
  | nil => simp [pairsOf]
  | cons k r ih =>
    have hp : pairsOf v (k :: r) = (v.index k).map (fun value => (k, value)) ++ pairsOf v r := by
      simp [pairsOf]
    rw [hp, List.filter_append, List.map_append, ih]
    by_cases h : k = key
    · subst h
      simp [List.replicate_succ, List.filter_map, Function.comp_def]
    · simp [List.countP_cons, List.filter_map, Function.comp_def, h]

/-- The query `LoginURL` writes, parsed again, holds exactly the value `state`
under the key `"state"`. -/
theorem Query_Set_Encode (v : Values) (key state : GoString) :
    (ParseQuery (v.Set key state).Encode).1.index key = [state] ∧
      (v.Set key state).Encode ≠ [] ∧
      ∀ x ∈ (v.Set key state).Encode, x ≠ 0x23 ∧ x ≠ 0x3f := by
  have hcount : (sortStrings ((v.Set key state).map (·.1))).countP (fun k => decide (k = key))
      = 1 := by
    have hperm : (sortStrings ((v.Set key state).map (·.1))).countP (fun k => decide (k = key)) =
        ((v.Set key state).map (·.1)).countP (fun k => decide (k = key)) :=
      List.Perm.countP_eq _ (List.perm_insertionSort _ _)
    rw [hperm]
    simp only [Values.Set, Values.store, List.map_cons, List.countP_cons, decide_True, if_true]
    have : ((v.filter (fun p => p.1 ≠ key)).map (·.1)).countP (fun k => decide (k = key)) = 0 := by
      apply List.countP_eq_zero.mpr
      simp only [List.mem_map, List.mem_filter, forall_exists_index, and_imp]
      rintro a ⟨b, c⟩ _ h e
      simp at h e
      simp [← e, h]
    omega
  have hidx : (v.Set key state).index key = [state] := by
    simp [Values.Set, index_store]
  have h1 : (ParseQuery (v.Set key state).Encode).1.index key = [state] := by
    rw [Encode_eq, ParseQuery_joinPairs, index_addPairs, filter_pairsOf, hcount, hidx]
    simp [Values.index]
  refine ⟨h1, ?_, ?_⟩
  · intro e
    rw [e] at h1
    simp [ParseQuery, parseQueryLoop, Values.index] at h1
  · rw [Encode_eq]
    exact joinPairs_safe _

/-! ## `LoginURL` -/

theorem Open_pathSuffix (c : Config) (id : GoString) :
    (c.Open id).1.pathSuffix = 0x2f :: id := by
  simp [Config.Open, ascii_slash]

/-- The value `LoginURL` returns when `callbackURL` parses. -/
theorem LoginURL_of_ok (m : callback) (s : Scopes) (B S : GoString) (u : URL)
    (hB : Parse B = .ok u) :
    m.LoginURL s B S =
      (({ u with Path := u.Path ++ m.pathSuffix,
                 RawQuery := ((ParseQuery u.RawQuery).1.Set (ascii "state") S).Encode } : URL).String,
        none) := by
  simp [callback.LoginURL, hB, URL.Query]

set_option maxRecDepth 1000000 in
theorem escapeByte_path_head : ∀ x : Byte,
    (escapeByte .encodePath 0x2f = [0x2f]) ∧
      (x ≠ 0x2f → (escapeByte .encodePath x).head? ≠ some 0x2f) := by
  decide

theorem escape_path_slash (t : GoString) :
    escape (0x2f :: t) .encodePath = 0x2f :: escape t .encodePath := by
  rw [escape, (escapeByte_path_head 0).1]
  rfl

theorem escape_path_head_ne (t : GoString) (h : t.head? ≠ some 0x2f) :
    (escape t .encodePath).head? ≠ some 0x2f := by
  cases t with
  | nil => simp [escape]
  | cons x r =>
    have hx : x ≠ 0x2f := by
      intro e; exact h (by simp [e])
    have h1 := (escapeByte_path_head x).2 hx
    rw [escape]
    cases he : escapeByte .encodePath x with
    | nil =>
      exfalso
      unfold escapeByte at he
      split_ifs at he
    | cons a b =>
      rw [he] at h1
      simpa using h1

theorem setPath_escape (u u3 : URL) (p : GoString)
    (h : u.setPath (escape p .encodePath) = .ok u3) : u3.Path = p := by
  obtain ⟨path, hp, e⟩ := setPath_ok _ _ _ h
  rw [unescape_escape _ ⟨by decide, by decide⟩] at hp
  simp only [Except.ok.injEq] at hp
  rw [e, hp]

/-- `parseHier` on the text `String` wrote for a URL without opaque part: the
path comes back, unless the host is omitted and the path begins with `//`. -/
theorem parseHier_hierText (u url u3 : URL) (p t : GoString) (hp : p = 0x2f :: t) (hsc : url.Scheme ≠ [])
    (hop : u.Opaque = [])
    (hom : u.OmitHost = true ∧ u.Host = [] ∧ u.User = none → t.head? ≠ some 0x2f)
    (h : parseHier url (hierText u p) = .ok u3) : u3.Path = p := by
  subst hp
  unfold hierText at h
  rw [if_neg (by simp [hop])] at h
  by_cases c1 : u.OmitHost = true ∧ u.Host = [] ∧ u.User = none
  · -- the host is omitted
    have ht := escape_path_head_ne t (hom c1)
    rw [if_pos c1, escape_path_slash] at h
    have hp1 : HasPrefix (0x2f :: escape t .encodePath) (ascii "/") = true := by
      simp [ascii_slash, HasPrefix_single]
    have hp2 : HasPrefix (0x2f :: escape t .encodePath) (ascii "//") = false := by
      rw [ascii_slash2]
      cases he : escape t .encodePath with
      | nil => simp [HasPrefix, List.isPrefixOf]
      | cons a b =>
        rw [he] at ht
        have : ¬ (0x2f : Byte) = a := by
          intro e; exact ht (by simp [e])
        simp [HasPrefix, List.isPrefixOf, this]
    rw [if_neg (by rw [hp2]; simp)] at h
    unfold parseHier at h
    simp only [hp1, hp2, Bool.not_true, Bool.false_and, Bool.false_eq_true, if_false,
      Bool.and_false, hsc, ne_eq, not_false_eq_true, decide_True, Bool.and_self, if_true] at h
    rw [← escape_path_slash] at h
    exact setPath_escape _ _ _ h
  rw [if_neg c1] at h
  split_ifs at h with c2
  · -- a slash is added after the host: impossible, the path begins with one
    exfalso
    rw [escape_path_slash] at c2
    simp at c2
  · -- `//`, the authority and the path
    rw [escape_path_slash] at h
    have e : ascii "//" ++ authorityText u ++ [] ++ 0x2f :: escape t .encodePath =
        0x2f :: 0x2f :: (authorityText u ++ 0x2f :: escape t .encodePath) := by
      rw [ascii_slash2]; simp
    rw [e] at h
    have hA := authorityText_safe u
    have hp1 : HasPrefix (0x2f :: 0x2f :: (authorityText u ++ 0x2f :: escape t .encodePath))
        (ascii "/") = true := by
      rw [ascii_slash, HasPrefix_single]; simp
    have hp2 : HasPrefix (0x2f :: 0x2f :: (authorityText u ++ 0x2f :: escape t .encodePath))
        (ascii "//") = true := by
      rw [ascii_slash2]; simp [HasPrefix, List.isPrefixOf]
    have hidx : Index (authorityText u ++ 0x2f :: escape t .encodePath) (ascii "/") =
        some (authorityText u).length := by
      rw [ascii_slash]
      exact Index_single_append _ _ _ (fun e => (hA _ e).2.2 rfl)
    rw [parseHier] at h
    simp only [hp1, hp2, Bool.not_true, Bool.false_and, Bool.false_eq_true, if_false,
      hsc, ne_eq, not_false_eq_true, decide_True, Bool.true_or, Bool.and_self, if_true,
      List.drop_succ_cons, List.drop_zero, hidx, List.take_left', List.drop_left'] at h
    split at h
    · cases h
    · rw [← escape_path_slash] at h
      exact setPath_escape _ _ _ h
/-- The string `LoginURL` returns for a `callbackURL` that parsed to `u` with a
scheme, parsed again: the path and the query of the result, if there is one. -/
theorem LoginURL_reparse (c : Config) (id : GoString) (s : Scopes) (B S : GoString) (u : URL)
    (hB : Parse B = .ok u) (habs : u.Scheme ≠ []) (u2 : URL)
    (h2 : Parse ((c.Open id).1.LoginURL s B S).1 = .ok u2) :
    u2.Query.index (ascii "state") = [S] ∧
    (u.Opaque = [] →
      (u.OmitHost = true → ¬ HasPrefix (u.Path ++ ascii "/" ++ id) (ascii "//") = true) →
      u2.Path = u.Path ++ ascii "/" ++ id) := by
  obtain ⟨body, hb, inv, _, _⟩ := Parse_inv B u hB habs
  obtain ⟨q1, q2, q3⟩ := Query_Set_Encode (ParseQuery u.RawQuery).1 (ascii "state") S
  rw [LoginURL_of_ok _ s B S u hB, Open_pathSuffix] at h2
  obtain ⟨u3, h3, e1, e2⟩ := Parse_String_login u body inv hb (0x2f :: id) _ rfl q2 q3 u2 h2
  have hsc : ToLower u.Scheme ≠ [] := fun e => habs ((ToLower_eq_nil _).mp e)
  constructor
  · rw [URL.Query, e2, (parseHier_frame _ _ _ h3).2.1]
    exact q1
  · intro hop hom
    rw [e1, ascii_slash, List.append_assoc, List.singleton_append]
    rcases inv.path_head hop with hp | hp
    · -- the path of `callbackURL` is empty
      rw [hp] at h3 ⊢
      refine parseHier_hierText u _ u3 _ id rfl hsc hop ?_ h3
      intro c1
      have := (inv.omitHost c1.1).2.2
      rw [hp] at this
      simp at this
    · -- the path of `callbackURL` begins with a slash
      cases hP : u.Path with
      | nil => rw [hP] at hp; simp at hp
      | cons a t =>
        rw [hP] at hp h3
        simp only [List.head?_cons, Option.some.injEq] at hp
        subst hp
        refine parseHier_hierText u _ u3 _ (t ++ 0x2f :: id) rfl hsc hop ?_ h3
        intro c1 hh
        apply hom c1.1
        rw [hP, ascii_slash, ascii_slash2]
        cases ht : t with
        | nil =>
          simp [HasPrefix, List.isPrefixOf]
        | cons b r =>
          rw [ht] at hh
          simp only [List.cons_append, List.head?_cons, Option.some.injEq] at hh
          subst hh
          simp [HasPrefix, List.isPrefixOf]

/-! ## The string `LoginURL` returns parses -/

set_option maxRecDepth 1000000 in
theorem noCTL_byte : ∀ x : Byte,
    (x = 0x2b ∨ x = 0x25 ∨ x = 0x3a ∨ x = 0x40 ∨ x = 0x2f ∨ x = 0x3d ∨ x = 0x26 ∨ x = 0x3f ∨
      ishex x = true ∨ isSchemeByte x = true) →
    (decide (x < 0x20) || decide (x = 0x7f)) = false := by
  decide

set_option maxRecDepth 1000000 in
theorem noCTL_shouldEscape : ∀ (mode : encoding) (x : Byte), shouldEscape x mode = false →
    (decide (x < 0x20) || decide (x = 0x7f)) = false := by
  intro mode
  cases mode <;> decide

theorem escape_noCTL (mode : encoding) (s : GoString) : ∀ x ∈ escape s mode,
    (decide (x < 0x20) || decide (x = 0x7f)) = false := by
  refine mem_escape _ (fun c x hx => ?_) s
  rcases mem_escapeByte _ c x hx with h | h | h | h
  · exact noCTL_byte x (Or.inl h.1)
  · exact noCTL_byte x (Or.inr (Or.inl h))
  · exact noCTL_byte x (by tauto)
  · exact noCTL_shouldEscape mode x h

theorem authorityText_noCTL (u : URL) : ∀ x ∈ authorityText u,
    (decide (x < 0x20) || decide (x = 0x7f)) = false := by
  intro x hx
  unfold authorityText at hx
  rw [List.mem_append] at hx
  rcases hx with hx | hx
  · split at hx
    · rename_i ui _
      simp only [ascii_at, List.mem_append, List.mem_singleton] at hx
      rcases hx with hx | hx
      · unfold Userinfo.String at hx
        simp only [ascii_colon] at hx
        split_ifs at hx
        · simp only [List.mem_append, List.mem_singleton] at hx
          rcases hx with (hx | hx) | hx
          · exact escape_noCTL _ _ x hx
          · exact noCTL_byte x (by tauto)
          · exact escape_noCTL _ _ x hx
        · exact escape_noCTL _ _ x hx
      · exact noCTL_byte x (by tauto)
    · simp at hx
  · exact escape_noCTL _ _ x hx

theorem hierText_noCTL (u : URL) (body : GoString) (inv : ParsedInv body u)
    (hctl : stringContainsCTLByte body = false) (path : GoString) :
    ∀ x ∈ hierText u path, (decide (x < 0x20) || decide (x = 0x7f)) = false := by
  intro x hx
  unfold hierText at hx
  by_cases c1 : u.Opaque ≠ []
  · rw [if_pos c1] at hx
    have hm := (inv.opaque_mem x hx).2
    simp only [stringContainsCTLByte, List.any_eq_false] at hctl
    have := hctl x hm
    simpa using this
  · rw [if_neg c1] at hx
    by_cases c2 : u.OmitHost = true ∧ u.Host = [] ∧ u.User = none
    · rw [if_pos c2] at hx
      split_ifs at hx
      · rcases List.mem_append.1 hx with h | h
        · exact (pct2F_safe x h).2.2
        · exact escape_noCTL _ _ x (List.mem_of_mem_drop h)
      · exact escape_noCTL _ _ x hx
    · rw [if_neg c2] at hx
      split_ifs at hx
      · simp only [ascii_slash2, ascii_slash, List.mem_append, List.mem_cons, List.mem_singleton,
          List.not_mem_nil, or_false] at hx
        rcases hx with (((hx | hx) | hx) | hx) | hx
        · exact noCTL_byte x (by tauto)
        · exact noCTL_byte x (by tauto)
        · exact authorityText_noCTL u x hx
        · exact noCTL_byte x (by tauto)
        · exact escape_noCTL _ _ x hx
      · simp only [ascii_slash2, List.mem_append, List.mem_cons, List.mem_singleton,
          List.not_mem_nil, or_false, List.append_nil] at hx
        rcases hx with ((hx | hx) | hx) | hx
        · exact noCTL_byte x (by tauto)
        · exact noCTL_byte x (by tauto)
        · exact authorityText_noCTL u x hx
        · exact escape_noCTL _ _ x hx

theorem joinPairs_noCTL (ps : List (GoString × GoString)) : ∀ x ∈ joinPairs ps,
    (decide (x < 0x20) || decide (x = 0x7f)) = false := by
  induction ps with
  | nil => simp [joinPairs]
  | cons p r ih =>
    intro x hx
    rw [joinPairs_cons, List.mem_append] at hx
    rcases hx with hx | hx
    · simp only [encodePair, QueryEscape, List.mem_append, List.mem_cons] at hx
      rcases hx with hx | hx | hx
      · exact escape_noCTL _ _ x hx
      · exact noCTL_byte x (by tauto)
      · exact escape_noCTL _ _ x hx
    · split_ifs at hx
      · simp at hx
      · rcases List.mem_cons.mp hx with e | e
        · exact noCTL_byte x (by tauto)
        · exact ih x e

theorem Encode_noCTL (v : Values) : ∀ x ∈ v.Encode,
    (decide (x < 0x20) || decide (x = 0x7f)) = false := by
  rw [Encode_eq]
  exact joinPairs_noCTL _

theorem EscapedFragment_unescape (u : URL) :
    ∃ x, unescape u.EscapedFragment .encodeFragment = .ok x := by
  unfold URL.EscapedFragment
  split_ifs with c
  · exact ⟨_, c.2.2⟩
  · exact ⟨_, unescape_escape _ ⟨by decide, by decide⟩ _⟩

theorem setFragment_ok (url : URL) (f x : GoString)
    (h : unescape f .encodeFragment = .ok x) : ∃ u2, url.setFragment f = .ok u2 := by
  unfold URL.setFragment
  rw [h]
  simp only
  split_ifs
  · exact ⟨_, rfl⟩
  · exact ⟨_, rfl⟩

/-- The string `LoginURL` builds from the parsed URL `u` parses again when
`parseHier` accepts the text between `scheme:` and `?`. -/
theorem Parse_String_login_ok (u : URL) (body : GoString) (inv : ParsedInv body u)
    (hb : (0x23 : Byte) ∉ body) (hctl : stringContainsCTLByte body = false)
    (sfx q : GoString) (hs : sfx.head? = some 0x2f) (hq : q ≠ [])
    (hq2 : ∀ x ∈ q, x ≠ 0x23 ∧ x ≠ 0x3f)
    (hq3 : ∀ x ∈ q, (decide (x < 0x20) || decide (x = 0x7f)) = false) (u3 : URL)
    (h3 : parseHier { URL.zero with Scheme := ToLower u.Scheme, RawQuery := q }
      (hierText u (u.Path ++ sfx)) = .ok u3) :
    ∃ u2, Parse ({ u with Path := u.Path ++ sfx, RawQuery := q } : URL).String = .ok u2 := by
  rw [String_login u body inv sfx q hs hq]
  have hH := hierText_safe u body inv hb (u.Path ++ sfx)
  have hS := validScheme_safe _ inv.scheme
  have hno : (0x23 : Byte) ∉ u.Scheme ++ 0x3a :: (hierText u (u.Path ++ sfx) ++ 0x3f :: q) := by
    simp only [List.mem_append, List.mem_cons, not_or]
    exact ⟨fun e => (hS _ e).1 rfl, by decide, fun e => (hH _ e).1 rfl, by decide,
      fun e => (hq2 _ e).1 rfl⟩
  -- the part before the fragment parses
  have hparse : parse (u.Scheme ++ 0x3a :: (hierText u (u.Path ++ sfx) ++ 0x3f :: q)) = .ok u3 := by
    have hc : stringContainsCTLByte
        (u.Scheme ++ 0x3a :: (hierText u (u.Path ++ sfx) ++ 0x3f :: q)) = false := by
      simp only [stringContainsCTLByte, List.any_eq_false]
      intro x hx
      have : (decide (x < 0x20) || decide (x = 0x7f)) = false := by
        simp only [List.mem_append, List.mem_cons] at hx
        rcases hx with hx | hx | hx | hx | hx
        · exact noCTL_byte x (by have := inv.scheme.2 x hx; tauto)
        · exact noCTL_byte x (by tauto)
        · exact hierText_noCTL u body inv hctl _ x hx
        · exact noCTL_byte x (by tauto)
        · exact hq3 x hx
      simpa using this
    have hstar : u.Scheme ++ 0x3a :: (hierText u (u.Path ++ sfx) ++ 0x3f :: q) ≠ ascii "*" := by
      intro e
      have := congrArg List.length e
      simp only [ascii_star, List.length_append, List.length_cons, List.length_nil] at this
      omega
    have hfq : HasSuffix (hierText u (u.Path ++ sfx) ++ 0x3f :: q) [0x3f] = false := by
      have := HasSuffix_append_false 0x3f (hierText u (u.Path ++ sfx) ++ [0x3f]) q hq
        (fun e => (hq2 _ e).2 rfl)
      simpa using this
    unfold parse
    rw [hc, if_neg (by simp), if_neg hstar, getScheme_append _ _ inv.scheme]
    simp only [ascii_question, hfq, Bool.false_and, Bool.false_eq_true, if_false,
      Cut_single_append _ _ _ (fun e => (hH _ e).2 rfl)]
    exact h3
  by_cases cf : u.Fragment = []
  · have hft : fragmentText u = [] := by simp [fragmentText, cf]
    rw [hft, List.append_nil]
    unfold Parse
    simp only [ascii_hash, Cut_single_none _ _ hno, hparse, if_true]
    exact ⟨_, rfl⟩
  · have e : u.Scheme ++ 0x3a :: (hierText u (u.Path ++ sfx) ++ 0x3f :: (q ++ fragmentText u)) =
        (u.Scheme ++ 0x3a :: (hierText u (u.Path ++ sfx) ++ 0x3f :: q)) ++
          0x23 :: u.EscapedFragment := by
      simp [fragmentText, cf, ascii_hash]
    rw [e]
    unfold Parse
    simp only [ascii_hash, Cut_single_append _ _ _ hno, hparse]
    by_cases hf : u.EscapedFragment = []
    · rw [if_pos hf]
      exact ⟨_, rfl⟩
    · rw [if_neg hf]
      obtain ⟨x, hx⟩ := EscapedFragment_unescape u
      obtain ⟨u2, h2⟩ := setFragment_ok u3 _ x hx
      rw [h2]
      exact ⟨_, rfl⟩
theorem setPath_escape_ok (url : URL) (p : GoString) :
    ∃ u3, url.setPath (escape p .encodePath) = .ok u3 := by
  unfold URL.setPath
  rw [unescape_escape _ ⟨by decide, by decide⟩]
  simp only
  split_ifs
  · exact ⟨_, rfl⟩
  · exact ⟨_, rfl⟩

/-- `parseHier` accepts the text `String` wrote between `scheme:` and `?`,
unless the zone of the host holds a non-ASCII byte. -/
theorem parseHier_hierText_ok (u : URL) (body : GoString) (inv : ParsedInv body u) (url : URL)
    (p : GoString) (hsc : url.Scheme ≠ [])
    (hp : u.Opaque = [] → ∃ t, p = 0x2f :: t)
    (hz : zoneASCII u.Host) :
    ∃ u3, parseHier url (hierText u p) = .ok u3 := by
  unfold hierText
  by_cases hop : u.Opaque = []
  · obtain ⟨t, e⟩ := hp hop
    subst e
    rw [if_neg (by simp [hop])]
    by_cases c1 : u.OmitHost = true ∧ u.Host = [] ∧ u.User = none
    · -- the host is omitted
      rw [if_pos c1]
      by_cases hp2 : HasPrefix (escape (0x2f :: t) .encodePath) (ascii "//") = true
      · -- the path begins with `//`: what is written is read as an opaque part
        rw [if_pos hp2]
        have hp1 : HasPrefix (ascii "%2F" ++ (escape (0x2f :: t) .encodePath).drop 1)
            (ascii "/") = false := by
          rw [ascii_slash, HasPrefix_single]
          rfl
        unfold parseHier
        simp only [hp1, Bool.not_false, Bool.true_and, hsc, ne_eq, not_false_eq_true,
          decide_True, if_true]
        exact ⟨_, rfl⟩
      · rw [if_neg hp2]
        rw [escape_path_slash] at hp2 ⊢
        have hp1 : HasPrefix (0x2f :: escape t .encodePath) (ascii "/") = true := by
          simp [ascii_slash, HasPrefix_single]
        have hp3 : HasPrefix (0x2f :: escape t .encodePath) (ascii "//") = false := by
          simpa using hp2
        unfold parseHier
        simp only [hp1, hp3, Bool.not_true, Bool.false_and, Bool.false_eq_true, if_false,
          Bool.and_false, hsc, ne_eq, not_false_eq_true, decide_True, Bool.and_self, if_true]
        rw [← escape_path_slash]
        exact setPath_escape_ok _ _
    rw [if_neg c1]
    split_ifs with c2
    · exfalso
      rw [escape_path_slash] at c2
      simp at c2
    · rw [escape_path_slash]
      have e : ascii "//" ++ authorityText u ++ [] ++ 0x2f :: escape t .encodePath =
          0x2f :: 0x2f :: (authorityText u ++ 0x2f :: escape t .encodePath) := by
        rw [ascii_slash2]; simp
      rw [e]
      have hA := authorityText_safe u
      have hp1 : HasPrefix (0x2f :: 0x2f :: (authorityText u ++ 0x2f :: escape t .encodePath))
          (ascii "/") = true := by
        rw [ascii_slash, HasPrefix_single]; simp
      have hp2 : HasPrefix (0x2f :: 0x2f :: (authorityText u ++ 0x2f :: escape t .encodePath))
          (ascii "//") = true := by
        rw [ascii_slash2]; simp [HasPrefix, List.isPrefixOf]
      have hidx : Index (authorityText u ++ 0x2f :: escape t .encodePath) (ascii "/") =
          some (authorityText u).length := by
        rw [ascii_slash]
        exact Index_single_append _ _ _ (fun e => (hA _ e).2.2 rfl)
      obtain ⟨h, hh⟩ := parseHost_escape u.Host inv.host hz
      obtain ⟨r, hr⟩ := parseAuthority_authorityText u h hh
      rw [parseHier]
      simp only [hp1, hp2, Bool.not_true, Bool.false_and, Bool.false_eq_true, if_false,
        hsc, ne_eq, not_false_eq_true, decide_True, Bool.true_or, Bool.and_self, if_true,
        List.drop_succ_cons, List.drop_zero, hidx, List.take_left', List.drop_left', hr]
      rw [← escape_path_slash]
      exact setPath_escape_ok _ _
  · rw [if_pos hop]
    have hp1 : HasPrefix u.Opaque (ascii "/") = false := by
      rw [ascii_slash, HasPrefix_single]
      have := inv.opaque_head
      cases ho : u.Opaque.head? with
      | none => simp
      | some x =>
        rw [ho] at this
        simp only [ne_eq, Option.some.injEq] at this
        simpa using this
    unfold parseHier
    simp only [hp1, Bool.not_false, Bool.true_and, hsc, ne_eq, not_false_eq_true, decide_True,
      if_true]
    exact ⟨_, rfl⟩

/-- The string `LoginURL` returns for a `callbackURL` that parsed to `u` with a
scheme parses again, unless its host has a zone with a non-ASCII byte. -/
theorem LoginURL_reparse_ok (c : Config) (id : GoString) (s : Scopes) (B S : GoString) (u : URL)
    (hB : Parse B = .ok u) (habs : u.Scheme ≠ []) (hz : zoneASCII u.Host) :
    ∃ u2, Parse ((c.Open id).1.LoginURL s B S).1 = .ok u2 := by
  obtain ⟨body, hb, inv, _, hctl⟩ := Parse_inv B u hB habs
  obtain ⟨_, q2, q3⟩ := Query_Set_Encode (ParseQuery u.RawQuery).1 (ascii "state") S
  have hsc : ToLower u.Scheme ≠ [] := fun e => habs ((ToLower_eq_nil _).mp e)
  rw [LoginURL_of_ok _ s B S u hB, Open_pathSuffix]
  have hhier : ∃ u3, parseHier
      { URL.zero with
        Scheme := ToLower u.Scheme
        RawQuery := ((ParseQuery u.RawQuery).1.Set (ascii "state") S).Encode }
      (hierText u (u.Path ++ 0x2f :: id)) = .ok u3 := by
    refine parseHier_hierText_ok u body inv _ _ hsc (fun hop => ?_) hz
    rcases inv.path_head hop with hp | hp
    · rw [hp]
      exact ⟨id, rfl⟩
    · cases hP : u.Path with
      | nil => rw [hP] at hp; simp at hp
      | cons a t =>
        rw [hP] at hp
        simp only [List.head?_cons, Option.some.injEq] at hp
        subst hp
        exact ⟨t ++ 0x2f :: id, rfl⟩
  obtain ⟨u3, h3⟩ := hhier
  exact Parse_String_login_ok u body inv hb hctl (0x2f :: id) _ rfl q2 q3 (Encode_noCTL _) u3 h3

/-- A path that is not `/` and does not begin with `//`, and begins with a
slash, still does not begin with `//` once `/id` is appended. -/
theorem not_prefix_append (path id : GoString) (h0 : path.head? = some 0x2f)
    (h1 : path ≠ ascii "/") (h2 : HasPrefix path (ascii "//") = false) :
    ¬ HasPrefix (path ++ ascii "/" ++ id) (ascii "//") = true := by
  rw [ascii_slash] at h1 ⊢
  rw [ascii_slash2] at h2 ⊢
  cases path with
  | nil => simp at h0
  | cons a t =>
    simp only [List.head?_cons, Option.some.injEq] at h0
    subst h0
    cases t with
    | nil => exact absurd rfl h1
    | cons b r =>
      intro h
      have h3 : HasPrefix (0x2f :: b :: r) [0x2f, 0x2f] = true := by
        simpa [HasPrefix, List.isPrefixOf] using h
      rw [h2] at h3
      cases h3

/-! ## Header keys -/

/-- `Header.Get` reads the first value stored under the canonical key. -/
theorem Header.Get_eq_head (h : Header) (key : GoString) :
    h.Get key = ((h.index (CanonicalMIMEHeaderKey key)).head?).getD [] := by
  unfold Header.Get
  cases h.index (CanonicalMIMEHeaderKey key) with
  | nil => rfl
  | cons v vs => rfl

/-- `HandleCallback` depends on the request through the five values it reads
with `Header.Get` only. -/
theorem HandleCallback_congr (m1 m2 : callback) (s1 s2 : Scopes) (r1 r2 : Request)
    (h0 : r1.Header.Get m1.userHeader = r2.Header.Get m2.userHeader)
    (h1 : r1.Header.Get (ascii "X-Shib-displayName") = r2.Header.Get (ascii "X-Shib-displayName"))
    (h2 : r1.Header.Get (ascii "X-Shib-eduPersonPrincipalName") =
      r2.Header.Get (ascii "X-Shib-eduPersonPrincipalName"))
    (h3 : r1.Header.Get (ascii "X-Shib-mail") = r2.Header.Get (ascii "X-Shib-mail"))
    (h4 : r1.Header.Get (ascii "X-Shib-eduPersonScopedAffiliation") =
      r2.Header.Get (ascii "X-Shib-eduPersonScopedAffiliation")) :
    m1.HandleCallback s1 r1 = m2.HandleCallback s2 r2 := by
  unfold callback.HandleCallback
  rw [h0, h1, h2, h3, h4]

/-- A string of bytes that a path keeps as they are is its own escaped form. -/
theorem escape_path_of_safe (p : GoString)
    (hs : ∀ x ∈ p, shouldEscape x .encodePath = false) : escape p .encodePath = p := by
  induction p with
  | nil => rfl
  | cons c t ih =>
    have hc := hs c (List.mem_cons_self _ _)
    rw [escape, ih (fun x hx => hs x (List.mem_cons_of_mem _ hx))]
    simp [escapeByte, hc]

/-- The `url.getScheme` of the empty string and of a string that begins with
a slash. -/
theorem getScheme_path (B : GoString) (hB : B = [] ∨ B.head? = some 0x2f) :
    getScheme B = .ok ([], B) := by
  rcases hB with rfl | h
  · rfl
  · cases B with
    | nil => cases h
    | cons c t =>
      simp only [List.head?_cons, Option.some.injEq] at h
      subst h
      simp [getScheme, getSchemeLoop, isLowerAZ, isUpperAZ, isDigit]

set_option maxRecDepth 1000000 in
theorem shouldEscape_path_star : ∀ x : Byte, shouldEscape x .encodePath = false → x ≠ 0x2a := by
  decide

/-- What `url.Parse` makes of a string that is empty or begins with one
slash, and holds bytes a path keeps as they are: the URL whose only non-zero
field is the path. -/
theorem Parse_plain_path (B : GoString) (hB : B = [] ∨ B.head? = some 0x2f)
    (h2 : HasPrefix B (ascii "//") = false)
    (hs : ∀ x ∈ B, shouldEscape x .encodePath = false) :
    Parse B = .ok { URL.zero with Path := B } := by
  have hhash : (0x23 : Byte) ∉ B := fun h => (shouldEscape_path_safe _ (hs _ h)).1 rfl
  have hq : (0x3f : Byte) ∉ B := fun h => (shouldEscape_path_safe _ (hs _ h)).2 rfl
  have hctl : stringContainsCTLByte B = false := by
    unfold stringContainsCTLByte
    rw [List.any_eq_false]
    intro x hx
    simpa using noCTL_shouldEscape _ x (hs x hx)
  have hstar : B ≠ ascii "*" := by
    intro e
    rw [e] at hs
    exact shouldEscape_path_star _ (hs 0x2a (by decide)) rfl
  have hsuf : HasSuffix B [0x3f] = false := by
    cases hh : HasSuffix B [0x3f] with
    | false => rfl
    | true =>
      obtain ⟨r, hr⟩ := HasSuffix_single _ _ hh
      exact absurd (by rw [hr]; simp) hq
  have hun : unescape B .encodePath = .ok B := by
    have := unescape_escape .encodePath ⟨by decide, by decide⟩ B
    rwa [escape_path_of_safe B hs] at this
  have hpre : HasPrefix B (ascii "/") = false → B = [] := by
    intro h
    rcases hB with e | e
    · exact e
    · rw [ascii_slash, HasPrefix_single, e] at h
      simp at h
  have hhier : parseHier { URL.zero with Scheme := ToLower [], RawQuery := [] } B =
      .ok { URL.zero with Path := B } := by
    unfold parseHier
    have hsc : ({ URL.zero with Scheme := ToLower [], RawQuery := [] } : URL).Scheme = [] := rfl
    by_cases hp : HasPrefix B (ascii "/") = true
    · simp [hsc, hp, h2, URL.setPath, hun, escape_path_of_safe B hs, URL.zero, ToLower]
    · have e := hpre (by simpa using hp)
      subst e
      decide
  unfold Parse
  rw [ascii_hash, Cut_single_none _ _ hhash]
  simp only [parse, hctl, Bool.false_eq_true, if_false, hstar, getScheme_path B hB,
    ascii_question, hsuf, false_and, Cut_single_none _ _ hq]
  rw [hhier]
  simp

set_option maxRecDepth 100000 in
/-- The query `LoginURL` writes for a callback URL without query. -/
theorem Encode_state_only (S : GoString) :
    ((ParseQuery []).1.Set (ascii "state") S).Encode = ascii "state=" ++ QueryEscape S := by
  have h1 : (ParseQuery []).1 = [] := rfl
  have h2 : sortStrings [ascii "state"] = [ascii "state"] := rfl
  have h3 : QueryEscape (ascii "state") = ascii "state" := by decide
  have h4 : ascii "state" ++ ascii "=" = ascii "state=" := by decide
  rw [h1]
  simp only [Values.Set, Values.store, List.filter_nil, Values.Encode, List.map_cons,
    List.map_nil, h2, encodeKeys, Values.index, List.lookup, beq_self_eq_true, Option.getD_some,
    encodeValues, ne_eq, not_true_eq_false, if_false, List.nil_append, h3, h4]

/-- What `(*URL).String` writes for a URL that has a rooted path and a query
only. -/
theorem String_path_query (u : URL) (t q : GoString) (h1 : u.Scheme = []) (h2 : u.Opaque = [])
    (h3 : u.User = none) (h4 : u.Host = []) (h5 : u.Path = 0x2f :: t) (h6 : u.RawPath = [])
    (h7 : u.RawQuery = q) (h8 : u.Fragment = []) (hq : q ≠ []) :
    u.String = 0x2f :: escape t .encodePath ++ 0x3f :: q := by
  have hne : (0x2f :: t : GoString) ≠ ascii "*" := by
    intro e
    simp [ascii_star] at e
  have hE : u.EscapedPath = 0x2f :: escape t .encodePath := by
    simp [URL.EscapedPath, h5, h6, hne, escape_path_slash]
  have hcut : (Cut (0x2f :: escape t .encodePath) (ascii "/")).1 = [] := by
    have := Cut_single_append 0x2f [] (escape t .encodePath) (List.not_mem_nil _)
    rw [ascii_slash]
    simpa using congrArg Prod.fst this
  have hW : u.writeHierPart [] = 0x2f :: escape t .encodePath := by
    unfold URL.writeHierPart
    rw [hE]
    simp [h1, h3, h4, hcut, ascii_colon, Contains_single]
  unfold URL.String
  simp only [h1, h2, h8, h7, ne_eq, not_true_eq_false, if_false, hW, hq, not_false_eq_true,
    decide_True, Bool.or_true, if_true, ascii_question]
  simp

/-- What `LoginURL` returns for a callback URL that is empty or begins with
one slash, and holds bytes a path keeps as they are. -/
theorem LoginURL_plain_path (m : callback) (s : Scopes) (B S t : GoString)
    (hm : m.pathSuffix = 0x2f :: t)
    (hB : B = [] ∨ B.head? = some 0x2f) (h2 : HasPrefix B (ascii "//") = false)
    (hs : ∀ x ∈ B, shouldEscape x .encodePath = false) :
    m.LoginURL s B S =
      (B ++ ascii "/" ++ escape t .encodePath ++ ascii "?state=" ++ QueryEscape S, none) := by
  rw [LoginURL_of_ok m s B S _ (Parse_plain_path B hB h2 hs)]
  obtain ⟨t2, ht2⟩ : ∃ t2, B ++ 0x2f :: t = 0x2f :: t2 := by
    rcases hB with rfl | h
    · exact ⟨t, rfl⟩
    · cases B with
      | nil => cases h
      | cons c r =>
        simp only [List.head?_cons, Option.some.injEq] at h
        exact ⟨r ++ 0x2f :: t, by rw [h]; rfl⟩
  have hq : ascii "state=" ++ QueryEscape S ≠ [] := by
    intro e
    have : (ascii "state=" ++ QueryEscape S).length = 0 := by rw [e]; rfl
    simp [ascii] at this
  rw [String_path_query _ t2 (ascii "state=" ++ QueryEscape S) rfl rfl rfl rfl
    (by rw [hm]; exact ht2) rfl (Encode_state_only S) rfl hq]
  have h := congrArg (fun p => escape p .encodePath) ht2
  simp only [escape_append, escape_path_slash, escape_path_of_safe B hs] at h
  have e1 : ascii "?state=" = 0x3f :: ascii "state=" := by decide
  rw [e1, ascii_slash, ← h]
  simp

/-! ## What `url.Parse` guarantees about every URL it returns -/

theorem parseHier_noscheme (url u : URL) (rest : GoString) (h : parseHier url rest = .ok u)
    (hs : url.Scheme = []) (ho : url.Opaque = []) :
    u.Opaque = [] ∧ (u.RawPath ≠ [] → unescape u.RawPath .encodePath = .ok u.Path) := by
  unfold parseHier at h
  split_ifs at h with c1 c2 c3 c4
  · simp [hs] at c1
  · simp only at h
    split at h
    · split at h
      · cases h
      · obtain ⟨_, e2, _, _, _, _, _, _, _, _, _, e12⟩ := setPath_inv _ _ _ h
        exact ⟨e2.trans ho, e12⟩
    · split at h
      · cases h
      · obtain ⟨_, e2, _, _, _, _, _, _, _, _, _, e12⟩ := setPath_inv _ _ _ h
        exact ⟨e2.trans ho, e12⟩
  · simp [hs] at c4
  · obtain ⟨_, e2, _, _, _, _, _, _, _, _, _, e12⟩ := setPath_inv _ _ _ h
    exact ⟨e2.trans ho, e12⟩

theorem parse_noscheme (body : GoString) (u : URL) (h : parse body = .ok u) (hs : u.Scheme = []) :
    u.Opaque = [] ∧ (u.RawPath ≠ [] → unescape u.RawPath .encodePath = .ok u.Path) := by
  unfold parse at h
  split_ifs at h with c1 c2
  · simp only [Except.ok.injEq] at h
    subst h
    exact ⟨rfl, fun e => absurd rfl e⟩
  · split at h
    · cases h
    · rename_i scheme rest0 hg
      simp only at h
      split_ifs at h with c3
      · exact parseHier_noscheme _ _ _ h ((parseHier_frame _ _ _ h).1.symm.trans hs) rfl
      · exact parseHier_noscheme _ _ _ h ((parseHier_frame _ _ _ h).1.symm.trans hs) rfl

/-- The fields of a URL that `setFragment` leaves alone. -/
theorem setFragment_frame (url u : URL) (f : GoString) (h : url.setFragment f = .ok u) :
    u.Scheme = url.Scheme ∧ u.Opaque = url.Opaque ∧ u.User = url.User ∧ u.Host = url.Host ∧
      u.Path = url.Path ∧ u.RawPath = url.RawPath ∧ u.OmitHost = url.OmitHost ∧
      u.ForceQuery = url.ForceQuery ∧ u.RawQuery = url.RawQuery := by
  unfold URL.setFragment at h
  split at h
  · cases h
  · split_ifs at h <;>
    · simp only [Except.ok.injEq] at h
      subst h
      exact ⟨rfl, rfl, rfl, rfl, rfl, rfl, rfl, rfl, rfl⟩

/-- Whatever `callbackURL` is, the URL `url.Parse` returns for it has a raw
path only if that unescapes to its path, has no `?` and no `#` in its opaque
part, and has a scheme free of `?` and `#`. -/
theorem Parse_weak (B : GoString) (u : URL) (h : Parse B = .ok u) :
    (u.RawPath ≠ [] → unescape u.RawPath .encodePath = .ok u.Path) ∧
    (∀ x ∈ u.Opaque, x ≠ 0x23 ∧ x ≠ 0x3f) ∧ (∀ x ∈ u.Scheme, x ≠ 0x23 ∧ x ≠ 0x3f) := by
  by_cases hs : u.Scheme = []
  · have key : u.Opaque = [] ∧ (u.RawPath ≠ [] → unescape u.RawPath .encodePath = .ok u.Path) := by
      unfold Parse at h
      simp only at h
      split at h
      · cases h
      · rename_i url hp
        split_ifs at h with c1
        · simp only [Except.ok.injEq] at h
          subst h
          exact parse_noscheme _ _ hp hs
        · split at h
          · cases h
          · rename_i url2 hf
            simp only [Except.ok.injEq] at h
            subst h
            obtain ⟨k1, k2, _, _, k5, k6, _⟩ := setFragment_frame _ _ _ hf
            rw [k2, k5, k6]
            exact parse_noscheme _ _ hp (k1.symm.trans hs)
    refine ⟨key.2, ?_, ?_⟩
    · rw [key.1]; simp
    · rw [hs]; simp
  · obtain ⟨body, hb, inv, _, _⟩ := Parse_inv B u h hs
    refine ⟨inv.rawPath, fun x hx => ⟨?_, (inv.opaque_mem x hx).1⟩, fun x hx => ?_⟩
    · intro e
      exact hb (e ▸ (inv.opaque_mem x hx).2)
    · have := validScheme_safe _ inv.scheme x hx
      exact ⟨this.1, this.2.1⟩

/-! ## The shape of what `(*URL).String` writes -/

/-- The escaped path of the URL `LoginURL` writes: the path of the parsed URL
and the suffix, escaped afresh, whatever the raw path of the parsed URL is. -/
theorem EscapedPath_login (u : URL)
    (hraw : u.RawPath ≠ [] → unescape u.RawPath .encodePath = .ok u.Path)
    (sfx q : GoString) (hs : sfx.head? = some 0x2f) :
    ({ u with Path := u.Path ++ sfx, RawQuery := q } : URL).EscapedPath =
      escape (u.Path ++ sfx) .encodePath := by
  have hne : sfx ≠ [] := by intro e; simp [e] at hs
  unfold URL.EscapedPath
  simp only
  have h1 : ¬ (u.RawPath ≠ [] ∧ validEncoded u.RawPath .encodePath = true ∧
      unescape u.RawPath .encodePath = .ok (u.Path ++ sfx)) := by
    rintro ⟨a, _, c⟩
    exact unescape_ne_append _ _ _ _ hne (hraw a) c
  have h2 : u.Path ++ sfx ≠ ascii "*" := by
    rw [ascii_star]
    intro e
    have hm : (0x2f : Byte) ∈ sfx := by
      cases sfx with
      | nil => cases hs
      | cons c t =>
        simp only [List.head?_cons, Option.some.injEq] at hs
        simp [hs]
    have : (0x2f : Byte) ∈ ([0x2a] : GoString) := by
      rw [← e]
      exact List.mem_append_right _ hm
    simp at this
  rw [if_neg h1, if_neg h2]

/-- What `(*URL).String` writes for a URL without opaque part that has a
query. -/
theorem String_of_hier (u : URL) (hop : u.Opaque = []) (hq : u.RawQuery ≠ []) :
    u.String =
      u.writeHierPart (if u.Scheme ≠ [] then u.Scheme ++ ascii ":" else []) ++
        0x3f :: (u.RawQuery ++ fragmentText u) := by
  by_cases hf : u.Fragment = [] <;>
    simp [URL.String, fragmentText, hop, hq, hf, ascii_question]

/-- What `(*URL).String` writes for a URL with an opaque part that has a
query. -/
theorem String_of_opaque (u : URL) (hop : u.Opaque ≠ []) (hq : u.RawQuery ≠ []) :
    u.String =
      (if u.Scheme ≠ [] then u.Scheme ++ ascii ":" else []) ++ u.Opaque ++
        0x3f :: (u.RawQuery ++ fragmentText u) := by
  by_cases hf : u.Fragment = [] <;>
    simp [URL.String, fragmentText, hop, hq, hf, ascii_question]

set_option maxRecDepth 1000000 in
theorem validEncoded_path_safe : ∀ c : Byte,
    (decide (c ∈ ascii "!$&'()*+,;=:@[]%") || !shouldEscape c .encodePath) = true →
      c ≠ 0x23 ∧ c ≠ 0x3f := by
  decide

/-- The escaped path of a URL has no `#` and no `?`. -/
theorem EscapedPath_safe (u : URL) : ∀ x ∈ u.EscapedPath, x ≠ 0x23 ∧ x ≠ 0x3f := by
  unfold URL.EscapedPath
  split_ifs with h1 h2
  · intro x hx
    have := h1.2.1
    unfold validEncoded at this
    rw [List.all_eq_true] at this
    exact validEncoded_path_safe x (this x hx)
  · rw [ascii_star]
    intro x hx
    rw [List.mem_singleton] at hx
    rw [hx]
    decide
  · exact escape_path_safe _

theorem mem_ite_append (c : Prop) [Decidable c] (b k : GoString) (x : Byte)
    (h : x ∈ (if c then b ++ k else b)) : x ∈ b ∨ x ∈ k := by
  split_ifs at h
  · exact List.mem_append.1 h
  · exact Or.inl h

/-- What `writeHierPart` adds to the buffer has no `#` and no `?`. -/
theorem writeHierPart_mem (u : URL) (buf : GoString) (x : Byte)
    (hx : x ∈ u.writeHierPart buf) : x ∈ buf ∨ (x ≠ 0x23 ∧ x ≠ 0x3f) := by
  have hH : x ∈ escape u.Host .encodeHost → x ≠ 0x23 ∧ x ≠ 0x3f := fun hy =>
    ⟨(escape_host_safe _ x hy).1, (escape_host_safe _ x hy).2.1⟩
  have hU : ∀ ui : Userinfo, x ∈ ui.String → x ≠ 0x23 ∧ x ≠ 0x3f := fun ui hy =>
    ⟨(Userinfo_String_safe ui x hy).1, (Userinfo_String_safe ui x hy).2.1⟩
  have h2 : x ∈ ascii "//" → x ≠ 0x23 ∧ x ≠ 0x3f := by
    rw [ascii_slash2]
    intro h
    simp only [List.mem_cons, List.mem_singleton, List.not_mem_nil, or_false, or_self] at h
    rw [h]
    decide
  have h3 : x ∈ ascii "@" → x ≠ 0x23 ∧ x ≠ 0x3f := by
    rw [ascii_at, List.mem_singleton]
    intro h
    rw [h]
    decide
  have h4 : x ∈ ascii "/" → x ≠ 0x23 ∧ x ≠ 0x3f := by
    rw [ascii_slash, List.mem_singleton]
    intro h
    rw [h]
    decide
  have h5 : x ∈ ascii "./" → x ≠ 0x23 ∧ x ≠ 0x3f := by
    have e : ascii "./" = [0x2e, 0x2f] := by decide
    rw [e]
    intro h
    simp only [List.mem_cons, List.mem_singleton, List.not_mem_nil, or_false] at h
    rcases h with h | h <;> rw [h] <;> decide
  have h6 : x ∈ ascii "%2F" → x ≠ 0x23 ∧ x ≠ 0x3f := fun h =>
    ⟨(pct2F_safe x h).1, (pct2F_safe x h).2.1⟩
  -- the buffer after the user information
  have s2 : ∀ b : GoString, (x ∈ b → x ∈ buf ∨ (x ≠ 0x23 ∧ x ≠ 0x3f)) →
      x ∈ (match u.User with
        | some ui => b ++ ui.String ++ ascii "@"
        | none => b) → x ∈ buf ∨ (x ≠ 0x23 ∧ x ≠ 0x3f) := by
    intro b hb h
    cases hu : u.User with
    | none => rw [hu] at h; exact hb h
    | some ui =>
      rw [hu] at h
      simp only [List.mem_append] at h
      rcases h with (h | h) | h
      · exact hb h
      · exact Or.inr (hU ui h)
      · exact Or.inr (h3 h)
  have s0 : x ∈ buf ++ ascii "//" → x ∈ buf ∨ (x ≠ 0x23 ∧ x ≠ 0x3f) := fun h =>
    (List.mem_append.1 h).imp_right h2
  have hpath : ∀ c : Bool, x ∈ (if c = true then u.EscapedPath.drop 1 else u.EscapedPath) →
      x ≠ 0x23 ∧ x ≠ 0x3f := by
    intro c h
    split_ifs at h
    · exact EscapedPath_safe u x (List.mem_of_mem_drop h)
    · exact EscapedPath_safe u x h
  unfold URL.writeHierPart at hx
  simp only at hx
  rcases List.mem_append.1 hx with hx | hx
  · rcases mem_ite_append _ _ _ x hx with h | h
    · rcases mem_ite_append _ _ _ x h with h | h
      · rcases mem_ite_append _ _ _ x h with h | h
        · split_ifs at h <;> first
            | exact Or.inl h
            | exact s2 _ Or.inl h
            | exact s2 _ s0 h
            | (rcases List.mem_append.1 h with h | h
               · first
                 | exact s2 _ Or.inl h
                 | exact s2 _ s0 h
               · exact Or.inr (hH h))
        · exact Or.inr (h6 h)
      · exact Or.inr (h4 h)
    · exact Or.inr (h5 h)
  · exact Or.inr (hpath _ hx)

/-! ## The query of a URL string -/

theorem Cut_snd_append (c : Byte) (pre rest : GoString) (h : c ∉ pre) :
    (Cut (pre ++ rest) [c]).2.1 = (Cut rest [c]).2.1 := by
  rcases Cut_single_spec c rest with ⟨h1, h2⟩ | ⟨p, post, h1, h2, h3⟩
  · rw [h2, Cut_single_none c (pre ++ rest) (by simp [h, h1])]
  · rw [h3]
    have : pre ++ rest = (pre ++ p) ++ c :: post := by rw [h1]; simp
    rw [this, Cut_single_append c (pre ++ p) post (by simp [h, h2])]

/-- The query of a string made of a part without `#` and `?`, a `?`, a query
without `#` and a fragment with its `#`, if any. -/
theorem queryText_shape (front q frag : GoString) (hf : ∀ x ∈ front, x ≠ 0x23 ∧ x ≠ 0x3f)
    (hq : (0x23 : Byte) ∉ q) (hfrag : frag = [] ∨ ∃ f, frag = 0x23 :: f) :
    queryText (front ++ 0x3f :: (q ++ frag)) = q := by
  have h1 : (0x23 : Byte) ∉ front ++ 0x3f :: q := by
    simp only [List.mem_append, List.mem_cons, not_or]
    exact ⟨fun h => (hf _ h).1 rfl, by decide, hq⟩
  have h2 : (0x3f : Byte) ∉ front := fun h => (hf _ h).2 rfl
  unfold queryText
  rw [ascii_hash, ascii_question]
  rcases hfrag with rfl | ⟨f, rfl⟩
  · rw [List.append_nil, Cut_single_none _ _ h1, Cut_single_append _ _ _ h2]
  · have e : front ++ 0x3f :: (q ++ 0x23 :: f) = (front ++ 0x3f :: q) ++ 0x23 :: f := by simp
    rw [e, Cut_single_append _ _ _ h1, Cut_single_append _ _ _ h2]

theorem getSchemeLoop_nil (raw : GoString) (body pre rest : GoString)
    (h : getSchemeLoop raw pre body = .ok ([], rest)) : rest = raw := by
  induction body generalizing pre with
  | nil =>
    simp only [getSchemeLoop, Except.ok.injEq, Prod.mk.injEq] at h
    exact h.2.symm
  | cons c b ih =>
    unfold getSchemeLoop at h
    split_ifs at h with c1 c2 c3 c4 c5
    · exact ih _ h
    · simp only [Except.ok.injEq, Prod.mk.injEq] at h
      exact h.2.symm
    · exact ih _ h
    · simp only [Except.ok.injEq, Prod.mk.injEq] at h
      exact absurd h.1 c5
    · simp only [Except.ok.injEq, Prod.mk.injEq] at h
      exact h.2.symm

/-- What `url.getScheme` splits off has no `?`. -/
theorem getScheme_split (body sc rest : GoString) (h : getScheme body = .ok (sc, rest)) :
    ∃ pre, body = pre ++ rest ∧ (0x3f : Byte) ∉ pre := by
  by_cases hs : sc = []
  · subst hs
    exact ⟨[], by rw [getSchemeLoop_nil _ _ _ _ h]; rfl, by simp⟩
  · obtain ⟨hb, hv⟩ := getScheme_ok body sc rest h hs
    refine ⟨sc ++ [0x3a], by rw [hb]; simp, ?_⟩
    simp only [List.mem_append, List.mem_singleton, not_or]
    exact ⟨fun hx => (validScheme_safe sc hv _ hx).2.1 rfl, by decide⟩

/-- The raw query `url.parse` returns is what follows the first `?`. -/
theorem parse_RawQuery (body : GoString) (u : URL) (h : parse body = .ok u) :
    u.RawQuery = (Cut body [0x3f]).2.1 := by
  unfold parse at h
  split_ifs at h with c1 c2
  · simp only [Except.ok.injEq] at h
    subst h
    rw [c2]
    decide
  · split at h
    · cases h
    · rename_i scheme rest0 hg
      simp only at h
      obtain ⟨pre, hb, hpre⟩ := getScheme_split body scheme rest0 hg
      rw [hb, Cut_snd_append _ _ _ hpre]
      split_ifs at h with c3
      · rw [(parseHier_frame _ _ _ h).2.1]
        simp only [Bool.and_eq_true, decide_eq_true_eq] at c3
        obtain ⟨f1, _⟩ := forceQuery_rest rest0 c3.1 c3.2
        rw [ascii_question] at c3
        obtain ⟨r, hr⟩ := HasSuffix_single _ _ c3.1
        have ht : rest0.take (rest0.length - 1) = r := by
          rw [hr]
          simp
        rw [ht] at f1
        rw [hr, Cut_single_append _ _ _ f1]
        rfl
      · rw [(parseHier_frame _ _ _ h).2.1, ascii_question]

/-- The raw query `url.Parse` returns is the query of the string. -/
theorem Parse_RawQuery (s : GoString) (u2 : URL) (h : Parse s = .ok u2) :
    u2.RawQuery = queryText s := by
  obtain ⟨u3, h3, _, _, _, _, _, _, _, _, e⟩ := Parse_fields s u2 h
  rw [e, parse_RawQuery _ _ h3]
  unfold queryText
  rw [ascii_hash, ascii_question]

/-! ## The parameters of the query `LoginURL` writes -/

theorem stringLess_irrefl (a : GoString) : stringLess a a = false := by
  induction a with
  | nil => rfl
  | cons c t ih => simp [stringLess, ih]

theorem stringLess_trichotomy (a b : GoString) (h : stringLess a b = false) (hne : a ≠ b) :
    stringLess b a = true := by
  induction a generalizing b with
  | nil =>
    cases b with
    | nil => exact absurd rfl hne
    | cons d t => simp [stringLess] at h
  | cons c s ih =>
    cases b with
    | nil => rfl
    | cons d t =>
      simp only [stringLess, Bool.or_eq_false_iff, decide_eq_false_iff_not, not_lt,
        Bool.and_eq_false_iff, beq_eq_false_iff_ne, ne_eq] at h
      simp only [stringLess, Bool.or_eq_true, decide_eq_true_eq, Bool.and_eq_true, beq_iff_eq]
      by_cases hcd : c = d
      · subst hcd
        right
        refine ⟨rfl, ih t ?_ (fun e => hne (by rw [e]))⟩
        rcases h.2 with h2 | h2
        · exact absurd rfl h2
        · exact h2
      · left
        exact lt_of_le_of_ne h.1 (fun e => hcd e.symm)

theorem stringLess_asymm (a b : GoString) (h : stringLess a b = true) : stringLess b a = false := by
  induction a generalizing b with
  | nil =>
    cases b with
    | nil => rfl
    | cons d t => rfl
  | cons c s ih =>
    cases b with
    | nil => simp [stringLess] at h
    | cons d t =>
      simp only [stringLess, Bool.or_eq_true, decide_eq_true_eq, Bool.and_eq_true, beq_iff_eq] at h
      simp only [stringLess, Bool.or_eq_false_iff, decide_eq_false_iff_not, not_lt,
        Bool.and_eq_false_iff, beq_eq_false_iff_ne, ne_eq]
      rcases h with h | ⟨h1, h2⟩
      · exact ⟨le_of_lt h, Or.inl (fun e => absurd h (by rw [e]; exact lt_irrefl _))⟩
      · subst h1
        exact ⟨le_refl _, Or.inr (ih t h2)⟩

theorem stringLess_trans (a b c : GoString) (h1 : stringLess a b = true)
    (h2 : stringLess b c = true) : stringLess a c = true := by
  induction a generalizing b c with
  | nil =>
    cases c with
    | nil => cases b <;> simp [stringLess] at h2
    | cons e u => rfl
  | cons x s ih =>
    cases b with
    | nil => simp [stringLess] at h1
    | cons y t =>
      cases c with
      | nil => simp [stringLess] at h2
      | cons z u =>
        simp only [stringLess, Bool.or_eq_true, decide_eq_true_eq, Bool.and_eq_true,
          beq_iff_eq] at h1 h2 ⊢
        rcases h1 with h1 | ⟨e1, h1⟩
        · rcases h2 with h2 | ⟨e2, h2⟩
          · exact Or.inl (lt_trans h1 h2)
          · exact Or.inl (e2 ▸ h1)
        · rcases h2 with h2 | ⟨e2, h2⟩
          · exact Or.inl (e1 ▸ h2)
          · exact Or.inr ⟨e1.trans e2, ih t u h1 h2⟩

theorem stringLe_total : IsTotal GoString (fun a b => stringLess b a = false) :=
  ⟨fun a b => by
    cases h : stringLess b a with
    | false => exact Or.inl rfl
    | true => exact Or.inr (stringLess_asymm b a h)⟩

theorem stringLe_trans : IsTrans GoString (fun a b => stringLess b a = false) :=
  ⟨fun a b c h1 h2 => by
    cases h : stringLess c a with
    | false => rfl
    | true =>
      exfalso
      by_cases e : a = b
      · subst e
        rw [h] at h2
        cases h2
      · have := stringLess_trans c a b h (stringLess_trichotomy b a h1 (fun e2 => e e2.symm))
        rw [this] at h2
        cases h2⟩

/-- `sortStrings` returns its argument in ascending order, strictly so when
the argument has no repetition. -/
theorem sortStrings_sorted (l : List GoString) (hn : l.Nodup) :
    (sortStrings l).Sorted (fun a b => stringLess a b = true) := by
  haveI := stringLe_total
  haveI := stringLe_trans
  have h1 : (sortStrings l).Sorted (fun a b => stringLess b a = false) :=
    List.sorted_insertionSort _ l
  have h2 : (sortStrings l).Nodup := (List.perm_insertionSort _ l).nodup_iff.mpr hn
  exact (List.Pairwise.and h1 h2).imp (fun ⟨h, hne⟩ => stringLess_trichotomy _ _ h (Ne.symm hne))

theorem store_keys_nodup (v : Values) (k : GoString) (vs : List GoString)
    (h : (v.map (·.1)).Nodup) : ((v.store k vs).map (·.1)).Nodup := by
  unfold Values.store
  rw [List.map_cons, List.nodup_cons]
  refine ⟨?_, (h.sublist (List.Sublist.map _ (List.filter_sublist _)))⟩
  simp only [List.mem_map, List.mem_filter, not_exists, not_and]
  rintro ⟨a, b⟩ ⟨_, h2⟩ e
  simp at h2
  exact h2 e

theorem parseQueryLoop_nodup (fuel : Nat) (query : GoString) (m : Values) (err : Option UrlErr)
    (h : (m.map (·.1)).Nodup) : ((parseQueryLoop fuel query (m, err)).1.map (·.1)).Nodup := by
  induction fuel generalizing query m err with
  | zero => exact h
  | succ n ih =>
    unfold parseQueryLoop
    simp only
    repeat' first
      | exact h
      | exact ih _ _ _ h
      | exact ih _ _ _ (store_keys_nodup _ _ _ h)
      | split

/-- The map `url.ParseQuery` returns has one binding per key. -/
theorem ParseQuery_nodup (q : GoString) : ((ParseQuery q).1.map (·.1)).Nodup :=
  parseQueryLoop_nodup _ _ _ _ List.nodup_nil

theorem index_of_not_mem (v : Values) (k : GoString) (h : k ∉ v.map (·.1)) : v.index k = [] := by
  unfold Values.index
  have : v.lookup k = none := by
    rw [List.lookup_eq_none_iff]
    intro p hp
    simp only [bne_iff_ne, ne_eq]
    intro e
    exact h (List.mem_map.2 ⟨p, hp, e.symm⟩)
  rw [this]
  rfl

theorem countP_eq_one_of_nodup (l : List GoString) (k : GoString) (hn : l.Nodup) (hk : k ∈ l) :
    l.countP (fun x => decide (x = k)) = 1 := by
  induction l with
  | nil => cases hk
  | cons a t ih =>
    rw [List.nodup_cons] at hn
    by_cases e : a = k
    · subst e
      have : t.countP (fun x => decide (x = a)) = 0 := by
        apply List.countP_eq_zero.mpr
        intro b hb
        simp only [decide_eq_true_eq]
        rintro rfl
        exact hn.1 hb
      simp [List.countP_cons, this]
    · have hk2 : k ∈ t := by
        rcases List.mem_cons.1 hk with h | h
        · exact absurd h.symm e
        · exact h
      simp [List.countP_cons, e, ih hn.2 hk2]

/-- The query `LoginURL` writes, parsed again, holds under every key what the
map it was written from holds. -/
theorem ParseQuery_Encode (v : Values) (h : (v.map (·.1)).Nodup) (k : GoString) :
    (ParseQuery v.Encode).1.index k = v.index k := by
  have hperm : (sortStrings (v.map (·.1))).countP (fun x => decide (x = k)) =
      (v.map (·.1)).countP (fun x => decide (x = k)) :=
    List.Perm.countP_eq _ (List.perm_insertionSort _ _)
  rw [Encode_eq, ParseQuery_joinPairs, index_addPairs, filter_pairsOf, hperm]
  have e0 : Values.index [] k = [] := rfl
  rw [e0, List.nil_append]
  by_cases hk : k ∈ v.map (·.1)
  · rw [countP_eq_one_of_nodup _ k h hk]
    simp
  · have hc2 : (v.map (·.1)).countP (fun x => decide (x = k)) = 0 := by
      apply List.countP_eq_zero.mpr
      intro a ha
      simp only [decide_eq_true_eq]
      rintro rfl
      exact hk ha
    rw [hc2, index_of_not_mem v k hk]
    rfl

/-- The encoded form of a map with one binding per key lists its pairs by
strictly ascending key. -/
theorem Encode_sorted (v : Values) (h : (v.map (·.1)).Nodup) :
    ∃ ks : List GoString, ks.Sorted (fun a b => stringLess a b = true) ∧
      v.Encode = joinPairs (pairsOf (ParseQuery v.Encode).1 ks) := by
  refine ⟨sortStrings (v.map (·.1)), sortStrings_sorted _ h, ?_⟩
  have e : pairsOf (ParseQuery v.Encode).1 (sortStrings (v.map (·.1))) =
      pairsOf v (sortStrings (v.map (·.1))) := by
    unfold pairsOf
    simp only [ParseQuery_Encode v h]
  rw [e]
  exact Encode_eq v

/-- The query of the string `LoginURL` returns is the encoded form of the
parameters of `callbackURL` with `state` set. -/
theorem LoginURL_queryText (m : callback) (s : Scopes) (B S : GoString) (u : URL)
    (hB : Parse B = .ok u) :
    queryText (m.LoginURL s B S).1 =
      ((ParseQuery u.RawQuery).1.Set (ascii "state") S).Encode := by
  obtain ⟨_, hO, hS⟩ := Parse_weak B u hB
  obtain ⟨_, hq, hq2⟩ := Query_Set_Encode (ParseQuery u.RawQuery).1 (ascii "state") S
  have hbuf : ∀ x ∈ (if u.Scheme ≠ [] then u.Scheme ++ ascii ":" else []),
      x ≠ (0x23 : Byte) ∧ x ≠ 0x3f := by
    intro x hx
    split_ifs at hx
    · rcases List.mem_append.1 hx with h | h
      · exact hS x h
      · rw [ascii_colon, List.mem_singleton] at h
        rw [h]
        decide
    · cases hx
  have hfrag : fragmentText u = [] ∨ ∃ f, fragmentText u = 0x23 :: f := by
    unfold fragmentText
    split_ifs
    · exact Or.inr ⟨_, by rw [ascii_hash]; rfl⟩
    · exact Or.inl rfl
  rw [LoginURL_of_ok m s B S u hB]
  generalize ((ParseQuery u.RawQuery).1.Set (ascii "state") S).Encode = q at hq hq2 ⊢
  have hfr : fragmentText { u with Path := u.Path ++ m.pathSuffix, RawQuery := q } =
      fragmentText u := rfl
  by_cases hop : u.Opaque = []
  · have hs := String_of_hier { u with Path := u.Path ++ m.pathSuffix, RawQuery := q } hop hq
    simp only [hs, hfr]
    refine queryText_shape _ _ _ (fun x hx => ?_) (fun h => (hq2 _ h).1 rfl) hfrag
    rcases writeHierPart_mem _ _ x hx with h | h
    · exact hbuf x h
    · exact h
  · have hs := String_of_opaque { u with Path := u.Path ++ m.pathSuffix, RawQuery := q } hop hq
    simp only [hs, hfr]
    refine queryText_shape _ _ _ (fun x hx => ?_) (fun h => (hq2 _ h).1 rfl) hfrag
    rcases List.mem_append.1 hx with h | h
    · exact hbuf x h
    · exact hO x h

/-! ## The path of a URL as it is written -/

theorem Cut_single_initial (c : Byte) (s : GoString) : (Cut s [c]).1 <+: s := by
  rcases Cut_single_spec c s with ⟨_, h2⟩ | ⟨p, post, h1, _, h3⟩
  · rw [h2]
  · rw [h3]
    exact ⟨c :: post, h1.symm⟩

theorem hierPathText_suffix (hasScheme : Bool) (rest : GoString) :
    hierPathText hasScheme rest <:+ rest := by
  unfold hierPathText
  split_ifs
  · exact List.nil_suffix
  · split
    · exact (List.drop_suffix _ _).trans (List.drop_suffix _ _)
    · exact List.nil_suffix
  · exact List.suffix_refl _

/-- The first segment of a text that begins with a slash is empty. -/
theorem Cut_slash_head (r : GoString) (hr : HasPrefix r (ascii "/") = true) :
    (Cut r (ascii "/")).1 = [] := by
  rw [ascii_slash, HasPrefix_single] at hr
  cases r with
  | nil => simp at hr
  | cons a t =>
    simp only [List.head?_cons, beq_iff_eq, Option.some.injEq] at hr
    subst hr
    have := Cut_single_append 0x2f [] t (List.not_mem_nil _)
    rw [ascii_slash]
    simpa using congrArg Prod.fst this

/-- The ways `parseHier` succeeds: with an opaque part, or by `setPath` on the
text `hierPathText` gives, whose first segment has no colon if there is no
scheme. -/
theorem parseHier_cases (url u : URL) (rest : GoString) (h : parseHier url rest = .ok u) :
    (u = { url with Opaque := rest } ∧ HasPrefix rest (ascii "/") = false ∧ url.Scheme ≠ []) ∨
    (∃ v : URL, v.setPath (hierPathText (decide (url.Scheme ≠ [])) rest) = .ok u ∧
      v.Opaque = url.Opaque ∧
      ((url.Host = [] → v.Host ≠ [] →
        hierPathText (decide (url.Scheme ≠ [])) rest = [] ∨
          HasPrefix (hierPathText (decide (url.Scheme ≠ [])) rest) (ascii "/") = true) ∧
      (url.Scheme = [] →
        Contains (Cut (hierPathText (decide (url.Scheme ≠ [])) rest) (ascii "/")).1 (ascii ":") =
          false))) := by
  have hnil : Contains ([] : GoString) (ascii ":") = false := rfl
  unfold parseHier at h
  unfold hierPathText
  by_cases c1 : (!HasPrefix rest (ascii "/") && decide (url.Scheme ≠ [])) = true
  · left
    rw [if_pos c1] at h
    simp only [Except.ok.injEq] at h
    simp only [Bool.and_eq_true, Bool.not_eq_true', decide_eq_true_eq] at c1
    exact ⟨h.symm, c1.1, c1.2⟩
  · right
    rw [if_neg c1] at h ⊢
    by_cases c2 : (!HasPrefix rest (ascii "/") &&
        Contains (Cut rest (ascii "/")).1 (ascii ":")) = true
    · rw [if_pos c2] at h
      cases h
    · rw [if_neg c2] at h
      by_cases c3 : ((decide (url.Scheme ≠ []) || !HasPrefix rest (ascii "///")) &&
          HasPrefix rest (ascii "//")) = true
      · rw [if_pos c3] at h ⊢
        simp only at h
        have hcn : Contains (Cut ([] : GoString) (ascii "/")).1 (ascii ":") = false := rfl
        cases hi : Index (rest.drop 2) (ascii "/") with
        | none =>
          rw [hi] at h
          simp only at h
          split at h
          · cases h
          · exact ⟨_, h, rfl, fun _ _ => Or.inl rfl, fun _ => hcn⟩
        | some i =>
          rw [hi] at h
          simp only at h
          have hd : HasPrefix ((rest.drop 2).drop i) (ascii "/") = true := by
            rw [ascii_slash] at hi ⊢
            rw [HasPrefix_single, (Index_single_drop _ _ _ hi).1]
            simp
          split at h
          · cases h
          · refine ⟨_, h, rfl, fun _ _ => Or.inr hd, fun _ => ?_⟩
            show Contains (Cut ((rest.drop 2).drop i) (ascii "/")).1 (ascii ":") = false
            rw [Cut_slash_head _ hd]
            exact hnil
      · rw [if_neg c3] at h ⊢
        have hcol : url.Scheme = [] → Contains (Cut rest (ascii "/")).1 (ascii ":") = false := by
          intro _
          by_cases hp : HasPrefix rest (ascii "/") = true
          · rw [Cut_slash_head _ hp]
            exact hnil
          · simp only [Bool.and_eq_true, Bool.not_eq_true', not_and, Bool.not_eq_true] at c2
            exact c2 (by simpa using hp)
        split_ifs at h
        · exact ⟨_, h, rfl, fun h1 h2 => absurd h1 h2, hcol⟩
        · exact ⟨_, h, rfl, fun h1 h2 => absurd h1 h2, hcol⟩

theorem decide_ToLower (scheme : GoString) :
    decide (ToLower scheme ≠ []) = decide (scheme ≠ []) := by
  by_cases h : scheme = []
  · subst h
    rfl
  · have : ToLower scheme ≠ [] := fun e => h ((ToLower_eq_nil _).1 e)
    simp [h, this]

/-- What `parseHier` makes of the text it hands to `setPath`, for a result
without opaque part: the path is that text unescaped, the raw path is kept
when that text is not the escaped form of the path, a URL with a host has an
empty path or one that begins with a slash, and without scheme the first
segment of the text has no colon. -/
theorem parseHier_pathText (url u : URL) (rest : GoString) (h : parseHier url rest = .ok u)
    (hz : url.Opaque = [] ∧ url.Path = [] ∧ url.RawPath = [] ∧ url.Host = [])
    (hop : u.Opaque = []) :
    unescape (hierPathText (decide (url.Scheme ≠ [])) rest) .encodePath = .ok u.Path ∧
    u.RawPath =
      (if hierPathText (decide (url.Scheme ≠ [])) rest = escape u.Path .encodePath then []
        else hierPathText (decide (url.Scheme ≠ [])) rest) ∧
    (u.Host ≠ [] → u.Path = [] ∨ u.Path.head? = some 0x2f) ∧
    (url.Scheme = [] →
      Contains (Cut (hierPathText (decide (url.Scheme ≠ [])) rest) (ascii "/")).1 (ascii ":") =
        false) := by
  rcases parseHier_cases url u rest h with ⟨e, h1, h2⟩ | ⟨v, hv, _, h3, h4⟩
  · subst e
    simp only at hop
    subst hop
    have e : hierPathText (decide (url.Scheme ≠ [])) [] = [] := by
      simp [hierPathText, h1, h2]
    rw [e]
    simp only [hz.2.1, hz.2.2.1, hz.2.2.2]
    exact ⟨rfl, rfl, fun hh => absurd rfl hh, fun hs => absurd hs h2⟩
  · obtain ⟨path, hp, e⟩ := setPath_ok _ _ _ hv
    subst e
    refine ⟨hp, rfl, fun hh => ?_, h4⟩
    simp only at hh ⊢
    have hd := unescape_ok_decode _ _ _ hp
    rcases h3 hz.2.2.2 hh with h5 | h5
    · left
      rw [hd, h5]
      rfl
    · right
      rw [hd]
      apply unescapeDecode_head_slash
      rw [ascii_slash, HasPrefix_single] at h5
      simpa using h5

/-- The path of `body` as it is written, for the URL `url.parse` makes of
`body`. -/
theorem parse_pathText (body : GoString) (u : URL) (h : parse body = .ok u)
    (hop : u.Opaque = []) :
    ∃ P, pathText body = (if (Cut body (ascii "#")).1 = body then P else pathText body) ∧
      P <:+: body ∧ unescape P .encodePath = .ok u.Path ∧
      (body ≠ ascii "*" → u.RawPath = (if P = escape u.Path .encodePath then [] else P)) ∧
      (u.Host ≠ [] → u.Path = [] ∨ u.Path.head? = some 0x2f) ∧
      (u.Scheme = [] → Contains (Cut P (ascii "/")).1 (ascii ":") = false) := by
  unfold parse at h
  split_ifs at h with c1 c2
  · simp only [Except.ok.injEq] at h
    subst h
    refine ⟨ascii "*", ?_, ?_, by decide, fun e => absurd c2 e, fun e => absurd rfl e,
      fun _ => by decide⟩
    · split_ifs with e
      · unfold pathText
        rw [e, if_pos c2]
      · rfl
    · rw [c2]
  · split at h
    · cases h
    · rename_i scheme rest0 hg
      simp only at h
      obtain ⟨pre, hb, _⟩ := getScheme_split body scheme rest0 hg
      have hsuf : rest0 <:+ body := ⟨pre, hb.symm⟩
      have hPT : ∀ r : GoString, r <+: rest0 →
          hierPathText (decide (scheme ≠ [])) r <:+: body := fun r hr =>
        ((hierPathText_suffix _ r).isInfix.trans hr.isInfix).trans hsuf.isInfix
      split_ifs at h with c3
      · obtain ⟨i1, i2, i3, i4⟩ := parseHier_pathText _ _ _ h ⟨rfl, rfl, rfl, rfl⟩ hop
        have hsch := (parseHier_frame _ _ _ h).1
        simp only [decide_ToLower] at i1 i2 i4
        refine ⟨hierPathText (decide (scheme ≠ [])) (rest0.take (rest0.length - 1)), ?_,
          hPT _ (List.take_prefix _ _), i1, fun _ => i2, i3, fun hs => i4 ?_⟩
        · split_ifs with e
          · unfold pathText
            rw [e, if_neg c2, hg]
            simp only [c3, if_true]
          · rfl
        · rw [hsch] at hs
          exact hs
      · obtain ⟨i1, i2, i3, i4⟩ := parseHier_pathText _ _ _ h ⟨rfl, rfl, rfl, rfl⟩ hop
        have hsch := (parseHier_frame _ _ _ h).1
        simp only [decide_ToLower] at i1 i2 i4
        refine ⟨hierPathText (decide (scheme ≠ [])) (Cut rest0 (ascii "?")).1, ?_,
          hPT _ (by rw [ascii_question]; exact Cut_single_initial _ _), i1, fun _ => i2, i3,
          fun hs => i4 ?_⟩
        · split_ifs with e
          · unfold pathText
            rw [e, if_neg c2, hg]
            simp only [c3, Bool.false_eq_true, if_false]
          · rfl
        · rw [hsch] at hs
          exact hs

/-- The path of `callbackURL` as it is written, for the URL `url.Parse` makes
of `callbackURL` when that has no opaque part: it is a part of `callbackURL`,
the path of the URL is that text unescaped, a raw path is kept when the text is
not the escaped form of the path, a URL with a host has an empty path or one
that begins with a slash, and without scheme the first segment of the text has
no colon. -/
theorem Parse_pathText (B : GoString) (u : URL) (h : Parse B = .ok u) (hop : u.Opaque = []) :
    pathText B <:+: B ∧ unescape (pathText B) .encodePath = .ok u.Path ∧
    ((Cut B (ascii "#")).1 ≠ ascii "*" →
      u.RawPath = (if pathText B = escape u.Path .encodePath then [] else pathText B)) ∧
    (u.Host ≠ [] → u.Path = [] ∨ u.Path.head? = some 0x2f) ∧
    (u.Scheme = [] → Contains (Cut (pathText B) (ascii "/")).1 (ascii ":") = false) := by
  obtain ⟨u3, h3, e1, e2, _, e4, e5, e6, _⟩ := Parse_fields B u h
  obtain ⟨P, hP, p1, p2, p3, p4, p5⟩ := parse_pathText _ u3 h3 (e2 ▸ hop)
  have hcc : (Cut (Cut B [0x23]).1 (ascii "#")).1 = (Cut B [0x23]).1 := by
    rw [ascii_hash, Cut_single_none _ _ (Cut_single_fst _ _).1]
  have hPB : pathText B = P := by
    have e : pathText B = pathText (Cut B [0x23]).1 := by
      unfold pathText
      rw [hcc, ascii_hash]
    rw [e, hP, if_pos hcc]
  rw [hPB, e1, e4, e5, e6, ascii_hash]
  exact ⟨p1.trans (Cut_single_initial _ _).isInfix, p2, p3, p4, p5⟩

/-- A URL that `url.Parse` returns with an opaque part has a scheme. -/
theorem Parse_opaque_scheme (B : GoString) (u : URL) (h : Parse B = .ok u)
    (hop : u.Opaque ≠ []) : u.Scheme ≠ [] := by
  intro hs
  obtain ⟨u3, h3, e1, e2, _⟩ := Parse_fields B u h
  exact hop (e2.trans (parse_noscheme _ u3 h3 (e1.symm.trans hs)).1)

/-- Escaping a path that does not begin with `//` gives a text that does not
begin with `//`. -/
theorem escape_path_prefix2 (p : GoString) (h : HasPrefix p (ascii "//") = false) :
    HasPrefix (escape p .encodePath) (ascii "//") = false := by
  rw [ascii_slash2] at h ⊢
  cases p with
  | nil => rfl
  | cons c t =>
    by_cases hc : c = 0x2f
    · subst hc
      rw [escape_path_slash]
      have ht : t.head? ≠ some 0x2f := by
        intro e
        cases t with
        | nil => cases e
        | cons d r =>
          simp only [List.head?_cons, Option.some.injEq] at e
          subst e
          simp [HasPrefix, List.isPrefixOf] at h
      have := escape_path_head_ne t ht
      cases he : escape t .encodePath with
      | nil => simp [HasPrefix, List.isPrefixOf]
      | cons a b =>
        rw [he] at this
        have : ¬ (0x2f : Byte) = a := by
          intro e; exact this (by simp [e])
        simp [HasPrefix, List.isPrefixOf, this]
    · have := escape_path_head_ne (c :: t) (by simpa using hc)
      cases he : escape (c :: t) .encodePath with
      | nil => simp [HasPrefix, List.isPrefixOf]
      | cons a b =>
        rw [he] at this
        have : ¬ (0x2f : Byte) = a := by
          intro e; exact this (by simp [e])
        simp [HasPrefix, List.isPrefixOf, this]

/-- What `writeHierPart` writes for a URL with a path, when no slash has to be
added after the host and the path is not one that begins with `//` after an
omitted host: the authority if any, `./` before a first segment with a colon
that nothing precedes, and the path. -/
theorem writeHierPart_shape (u : URL) (ep : GoString) (hep : u.EscapedPath = ep)
    (hp : u.Path ≠ []) (hfix : u.Host ≠ [] → ep.head? = some 0x2f)
    (hsl : u.OmitHost = true → u.Host = [] → u.User = none → u.Scheme ≠ [] →
      HasPrefix ep (ascii "//") = false) :
    u.writeHierPart (if u.Scheme ≠ [] then u.Scheme ++ ascii ":" else []) =
      authorityPrefix u ++
        (if u.Scheme = [] ∧ u.Host = [] ∧ u.User = none ∧
            Contains (Cut ep (ascii "/")).1 (ascii ":") = true then ascii "./" else []) ++ ep := by
  have e0 : escape [] .encodeHost = [] := rfl
  unfold URL.writeHierPart authorityPrefix authorityText
  rw [hep]
  cases hU : u.User <;> by_cases hH : u.Host = [] <;> by_cases hO : u.OmitHost = true <;>
    by_cases hS : u.Scheme = [] <;> by_cases hc : Contains (Cut ep (ascii "/")).1 (ascii ":") = true <;>
    simp [hU, hH, hO, hS, hp, e0, hc, ascii_slash2, ascii_slash, ascii_at, ascii_colon] <;>
    simp_all [ascii_slash2, ascii_slash]

/-- The first segment of a text followed by a slash is the first segment of
the text. -/
theorem Cut_fst_append_slash (p x : GoString) :
    (Cut (p ++ 0x2f :: x) [0x2f]).1 = (Cut p [0x2f]).1 := by
  rcases Cut_single_spec 0x2f p with ⟨h1, h2⟩ | ⟨pre, post, h1, h2, h3⟩
  · rw [h2, Cut_single_append _ _ _ h1]
  · rw [h3]
    have : p ++ 0x2f :: x = pre ++ 0x2f :: (post ++ 0x2f :: x) := by rw [h1]; simp
    rw [this, Cut_single_append _ _ _ h2]

/-! ## Theorems on `HandleCallback` -/

/-- C1: `HandleCallback` returns an error exactly when the value read from the
header named `userHeader` is empty, that is when the header has no value or its
first value is the empty string, whatever the other headers are; the result is
then the zero identity with the error "need login redirect". -/
theorem HandleCallback_error_iff (m : callback) (s : Scopes) (r : Request) :
    ((m.HandleCallback s r).2 ≠ none ↔ r.Header.Get m.userHeader = []) ∧
    (r.Header.Get m.userHeader = [] ↔
      r.Header.index (CanonicalMIMEHeaderKey m.userHeader) = [] ∨
        (r.Header.index (CanonicalMIMEHeaderKey m.userHeader)).head? = some []) ∧
    ((m.HandleCallback s r).2 ≠ none →
      m.HandleCallback s r = (Identity.zero, some (ascii "need login redirect"))) := by
  by_cases h : r.Header.Get m.userHeader = []
  · refine ⟨?_, Header.Get_eq_nil_iff _ _, fun _ => HandleCallback_of_eq m s r h⟩
    simp [HandleCallback_of_eq m s r h, h]
  · refine ⟨?_, Header.Get_eq_nil_iff _ _, ?_⟩
    · simp [HandleCallback_of_ne m s r h, h]
    · simp [HandleCallback_of_ne m s r h]

/-- C1 at a request that has every auxiliary header but no primary header. -/
theorem HandleCallback_error_iff_witness :
    defaultConnector.HandleCallback noScopes
        (requestWith [(ascii "X-Shib-Mail", [ascii "alice@example.com"]),
          (ascii "X-Remote-User", [])]) =
      (Identity.zero, some (ascii "need login redirect")) :=
  (HandleCallback_error_iff defaultConnector noScopes
    (requestWith [(ascii "X-Shib-Mail", [ascii "alice@example.com"]),
      (ascii "X-Remote-User", [])])).2.2 (by decide)

/-- C2: when the primary user header has a non-empty value `v`,
`HandleCallback` succeeds and the identity's `UserID` is `v`, byte for byte. -/
theorem HandleCallback_userID (m : callback) (s : Scopes) (r : Request) (v : GoString)
    (hv : r.Header.Get m.userHeader = v) (hne : v ≠ []) :
    (m.HandleCallback s r).2 = none ∧ (m.HandleCallback s r).1.UserID = v := by
  subst hv
  simp [HandleCallback_of_ne m s r hne]

/-- C2 at a primary header that is neither trimmed nor a valid email. -/
theorem HandleCallback_userID_witness :
    (defaultConnector.HandleCallback noScopes
        (requestWith [(ascii "X-Remote-User", [ascii "  Not An Email\t"])])).2 = none ∧
    (defaultConnector.HandleCallback noScopes
        (requestWith [(ascii "X-Remote-User", [ascii "  Not An Email\t"])])).1.UserID =
      ascii "  Not An Email\t" :=
  HandleCallback_userID defaultConnector noScopes
    (requestWith [(ascii "X-Remote-User", [ascii "  Not An Email\t"])])
    (ascii "  Not An Email\t") (by decide) (by decide)

/-- C3: if `HandleCallback` returns an identity with `EmailVerified = true`
then its `Email` is non-empty and is the value of the `X-Shib-mail` header;
`EmailVerified` is true whenever the call succeeds and `X-Shib-mail` is
non-empty; and when `X-Shib-mail` is absent or empty, `EmailVerified` is false
and `Email` is empty. -/
theorem HandleCallback_emailVerified (m : callback) (s : Scopes) (r : Request) :
    ((m.HandleCallback s r).1.EmailVerified = true →
      (m.HandleCallback s r).1.Email ≠ [] ∧
        (m.HandleCallback s r).1.Email = r.Header.Get (ascii "X-Shib-mail")) ∧
    ((m.HandleCallback s r).2 = none → r.Header.Get (ascii "X-Shib-mail") ≠ [] →
      (m.HandleCallback s r).1.EmailVerified = true) ∧
    (r.Header.Get (ascii "X-Shib-mail") = [] →
      (m.HandleCallback s r).1.EmailVerified = false ∧ (m.HandleCallback s r).1.Email = []) := by
  by_cases h : r.Header.Get m.userHeader = []
  · simp [HandleCallback_of_eq m s r h, Identity.zero]
  · simp only [HandleCallback_of_ne m s r h]
    refine ⟨?_, ?_, ?_⟩
    · intro hv
      simpa using hv
    · intro _ hm
      simpa using hm
    · intro hm
      simp [hm]

/-- C3 at a request with both headers, and at one with the primary header
only. -/
theorem HandleCallback_emailVerified_witness :
    ((defaultConnector.HandleCallback noScopes fullRequest).1.Email ≠ [] ∧
      (defaultConnector.HandleCallback noScopes fullRequest).1.Email =
        fullRequest.Header.Get (ascii "X-Shib-mail")) ∧
    ((defaultConnector.HandleCallback noScopes
        (requestWith [(ascii "X-Remote-User", [ascii "alice@example.com"])])).1.EmailVerified
        = false ∧
      (defaultConnector.HandleCallback noScopes
        (requestWith [(ascii "X-Remote-User", [ascii "alice@example.com"])])).1.Email = []) :=
  ⟨(HandleCallback_emailVerified defaultConnector noScopes fullRequest).1 (by decide),
   (HandleCallback_emailVerified defaultConnector noScopes
      (requestWith [(ascii "X-Remote-User", [ascii "alice@example.com"])])).2.2 (by decide)⟩

/-- C4: with a non-empty primary header and a non-empty
`X-Shib-eduPersonScopedAffiliation` value `a`, `Groups` is the split of `a` on
";": joining `Groups` with ";" gives `a` back, no element contains ";", there
is one element more than there are ";" in `a` (so order and empty segments are
kept), and "staff;alumni;" yields ["staff", "alumni", ""]. -/
theorem HandleCallback_groups (m : callback) (s : Scopes) (r : Request) (a : GoString)
    (hu : r.Header.Get m.userHeader ≠ [])
    (ha : r.Header.Get (ascii "X-Shib-eduPersonScopedAffiliation") = a) (hne : a ≠ []) :
    (m.HandleCallback s r).1.Groups = Split a (ascii ";") ∧
    Join (m.HandleCallback s r).1.Groups (ascii ";") = a ∧
    (∀ g ∈ (m.HandleCallback s r).1.Groups, (0x3b : Byte) ∉ g) ∧
    (m.HandleCallback s r).1.Groups.length = a.count 0x3b + 1 ∧
    (a = ascii "staff;alumni;" →
      (m.HandleCallback s r).1.Groups = [ascii "staff", ascii "alumni", ascii ""]) := by
  subst ha
  have hsc : ascii ";" = [(0x3b : Byte)] := by decide
  simp only [HandleCallback_of_ne m s r hu, if_pos hne]
  rw [hsc, Split_single]
  refine ⟨trivial, Join_genSplitLoop _ _ _, genSplitLoop_not_mem _ _ _ (le_refl _),
    genSplitLoop_length _ _ _ (le_refl _), ?_⟩
  intro e
  rw [e]
  decide

/-- C4 at the affiliation value "staff;alumni;". -/
theorem HandleCallback_groups_witness :
    (defaultConnector.HandleCallback noScopes fullRequest).1.Groups =
      [ascii "staff", ascii "alumni", ascii ""] :=
  (HandleCallback_groups defaultConnector noScopes fullRequest (ascii "staff;alumni;")
    (by decide) (by decide) (by decide)).2.2.2.2 rfl

/-- C5: with a non-empty primary header, the display name (`Username`) is the
value of `X-Shib-displayName`, `PreferredUsername` that of
`X-Shib-eduPersonPrincipalName` and `Email` that of `X-Shib-mail`, each read
from its own header only, and `UserID` is the value of the primary header. -/
theorem HandleCallback_attributes (m : callback) (s : Scopes) (r : Request)
    (hu : r.Header.Get m.userHeader ≠ []) :
    (m.HandleCallback s r).1.Username = r.Header.Get (ascii "X-Shib-displayName") ∧
    (m.HandleCallback s r).1.PreferredUsername =
      r.Header.Get (ascii "X-Shib-eduPersonPrincipalName") ∧
    (m.HandleCallback s r).1.Email = r.Header.Get (ascii "X-Shib-mail") ∧
    (m.HandleCallback s r).1.UserID = r.Header.Get m.userHeader := by
  simp [HandleCallback_of_ne m s r hu]

/-- C5 at a request whose primary header differs from its mail header. -/
theorem HandleCallback_attributes_witness :
    (defaultConnector.HandleCallback noScopes fullRequest).1.Username = ascii "Alice A." ∧
    (defaultConnector.HandleCallback noScopes fullRequest).1.PreferredUsername =
      ascii "alice@example.org" ∧
    (defaultConnector.HandleCallback noScopes fullRequest).1.Email =
      ascii "alice@example.com" ∧
    (defaultConnector.HandleCallback noScopes fullRequest).1.UserID = ascii "alice" :=
  HandleCallback_attributes defaultConnector noScopes fullRequest (by decide)

/-- C6: with a non-empty primary header, each auxiliary attribute whose header
is absent or empty keeps its zero value, independently of the other headers;
when none of the four auxiliary headers has a value the result is the identity
whose only non-zero field is `UserID`. -/
theorem HandleCallback_zero_values (m : callback) (s : Scopes) (r : Request)
    (hu : r.Header.Get m.userHeader ≠ []) :
    (r.Header.Get (ascii "X-Shib-displayName") = [] →
      (m.HandleCallback s r).1.Username = []) ∧
    (r.Header.Get (ascii "X-Shib-eduPersonPrincipalName") = [] →
      (m.HandleCallback s r).1.PreferredUsername = []) ∧
    (r.Header.Get (ascii "X-Shib-mail") = [] →
      (m.HandleCallback s r).1.Email = [] ∧ (m.HandleCallback s r).1.EmailVerified = false) ∧
    (r.Header.Get (ascii "X-Shib-eduPersonScopedAffiliation") = [] →
      (m.HandleCallback s r).1.Groups = []) ∧
    (r.Header.Get (ascii "X-Shib-displayName") = [] →
      r.Header.Get (ascii "X-Shib-eduPersonPrincipalName") = [] →
      r.Header.Get (ascii "X-Shib-mail") = [] →
      r.Header.Get (ascii "X-Shib-eduPersonScopedAffiliation") = [] →
      m.HandleCallback s r =
        ({ Identity.zero with UserID := r.Header.Get m.userHeader }, none)) := by
  simp only [HandleCallback_of_ne m s r hu]
  refine ⟨?_, ?_, ?_, ?_, ?_⟩
  · intro h; exact h
  · intro h; exact h
  · intro h; simp [h]
  · intro h; simp [h]
  · intro h1 h2 h3 h4
    simp [h1, h2, h3, h4, Identity.zero]

/-- C6 at the request whose only header is `X-Remote-User: alice@example.com`. -/
theorem HandleCallback_zero_values_witness :
    defaultConnector.HandleCallback noScopes
        (requestWith [(ascii "X-Remote-User", [ascii "alice@example.com"])]) =
      ({ UserID := ascii "alice@example.com", Username := [], PreferredUsername := [],
         Email := [], EmailVerified := false, Groups := [], ConnectorData := [] }, none) :=
  (HandleCallback_zero_values defaultConnector noScopes
    (requestWith [(ascii "X-Remote-User", [ascii "alice@example.com"])])
    (by decide)).2.2.2.2 (by decide) (by decide) (by decide) (by decide)

/-- C10: on the request whose only header is `X-Remote-User: alice@example.com`
the default connector succeeds with `UserID = "alice@example.com"`, an empty
`Email` and `EmailVerified = false`: the header is not returned as verified
email. -/
theorem HandleCallback_remote_user_not_email :
    defaultConnector.userHeader = ascii "X-Remote-User" ∧
    (requestWith [(ascii "X-Remote-User", [ascii "alice@example.com"])]).Header.Get
        (ascii "X-Remote-User") = ascii "alice@example.com" ∧
    defaultConnector.HandleCallback noScopes
        (requestWith [(ascii "X-Remote-User", [ascii "alice@example.com"])]) =
      ({ UserID := ascii "alice@example.com", Username := [], PreferredUsername := [],
         Email := [], EmailVerified := false, Groups := [], ConnectorData := [] }, none) := by
  decide

/-! ## Theorems on `LoginURL` -/

/-- C7 (amended): for every `callbackURL` that `url.Parse` accepts with a
scheme and without opaque part, that has an authority or else a path that is
not `/` and does not begin with `//`, and whose host has no IPv6 zone with a
non-ASCII byte, `LoginURL` succeeds and returns a string that parses as a URL
whose path is the path of `callbackURL` followed by `/` and the instance id. -/
theorem LoginURL_path (c : Config) (id : GoString) (s : Scopes) (B S : GoString) (u : URL)
    (hB : Parse B = .ok u) (habs : u.Scheme ≠ []) (hop : u.Opaque = [])
    (hom : u.OmitHost = true → u.Path ≠ ascii "/" ∧ HasPrefix u.Path (ascii "//") = false)
    (hz : zoneASCII u.Host) :
    ((c.Open id).1.LoginURL s B S).2 = none ∧
    ∃ u2, Parse ((c.Open id).1.LoginURL s B S).1 = .ok u2 ∧
      u2.Path = u.Path ++ ascii "/" ++ id := by
  obtain ⟨body, _, inv, _, _⟩ := Parse_inv B u hB habs
  have hom2 : u.OmitHost = true →
      ¬ HasPrefix (u.Path ++ ascii "/" ++ id) (ascii "//") = true := fun h =>
    not_prefix_append _ _ (inv.omitHost h).2.2 (hom h).1 (hom h).2
  obtain ⟨u2, h2⟩ := LoginURL_reparse_ok c id s B S u hB habs hz
  exact ⟨by rw [LoginURL_of_ok _ s B S u hB], u2, h2,
    (LoginURL_reparse c id s B S u hB habs u2 h2).2 hop hom2⟩

set_option maxRecDepth 100000 in
/-- C7 at `https://dex.example.com/callback?foo=bar&state=old#frag`. -/
theorem LoginURL_path_witness :
    ((Config.Open { UserHeader := [] } (ascii "authproxy")).1.LoginURL noScopes
        (ascii "https://dex.example.com/callback?foo=bar&state=old#frag") (ascii "abc")).2 = none ∧
    ∃ u2, Parse ((Config.Open { UserHeader := [] } (ascii "authproxy")).1.LoginURL noScopes
        (ascii "https://dex.example.com/callback?foo=bar&state=old#frag") (ascii "abc")).1 =
          .ok u2 ∧
      u2.Path = sampleURL.Path ++ ascii "/" ++ ascii "authproxy" :=
  LoginURL_path { UserHeader := [] } (ascii "authproxy") noScopes
    (ascii "https://dex.example.com/callback?foo=bar&state=old#frag") (ascii "abc") sampleURL
    (by decide) (by decide) (by decide) (by decide) (by unfold zoneASCII; decide)

set_option maxRecDepth 100000 in
/-- C7 fails at the opaque URL `http:callback`, which parses with the scheme
`http` and an empty path: `LoginURL` returns `http:callback?state=s`, whose
path is empty and not `/authproxy`. It fails at `http:/` too, whose path is
`/`: `LoginURL` returns `http:%2F/authproxy?state=s`, which parses with the
opaque part `%2F/authproxy` and an empty path, not `//authproxy`. And it fails
at `http://[fe80::1%25é]/cb`, where `LoginURL` returns a string that
`url.Parse` rejects. -/
theorem LoginURL_path_counterexample :
    (Parse (ascii "http:callback")).map (fun u => (u.Scheme, u.Opaque, u.Path)) =
      .ok (ascii "http", ascii "callback", []) ∧
    defaultConnector.LoginURL noScopes (ascii "http:callback") (ascii "s") =
      (ascii "http:callback?state=s", none) ∧
    (Parse (ascii "http:callback?state=s")).map (fun u => u.Path) = .ok [] ∧
    (Parse (ascii "http:/")).map (fun u => (u.Scheme, u.Opaque, u.Path)) =
      .ok (ascii "http", [], ascii "/") ∧
    defaultConnector.LoginURL noScopes (ascii "http:/") (ascii "s") =
      (ascii "http:%2F/authproxy?state=s", none) ∧
    (Parse (ascii "http:%2F/authproxy?state=s")).map (fun u => (u.Opaque, u.Path)) =
      .ok (ascii "%2F/authproxy", []) ∧
    (Parse zoneCallbackURL).map (fun u => (u.Scheme, u.Opaque, u.Path)) =
      .ok (ascii "http", [], ascii "/cb") ∧
    (Parse (defaultConnector.LoginURL noScopes zoneCallbackURL (ascii "s")).1).toOption =
      none := by
  decide

/-- C9: `LoginURL` returns an error exactly when `url.Parse` fails on
`callbackURL`; it then returns the empty string and an error whose message
contains the quoted `callbackURL` and the text of the parse error; when
`url.Parse` succeeds it returns no error. -/
theorem LoginURL_error_iff (m : callback) (s : Scopes) (B S : GoString) :
    ((m.LoginURL s B S).2 ≠ none ↔ ∃ e, Parse B = .error e) ∧
    (∀ e, Parse B = .error e →
      m.LoginURL s B S = ([], some { callbackURL := B, err := e }) ∧
      ∀ Quote : GoString → GoString,
        Quote B <:+: ({ callbackURL := B, err := e } : CallbackURLError).Error Quote ∧
        e.Error Quote <:+: ({ callbackURL := B, err := e } : CallbackURLError).Error Quote ∧
        e.Err.Error Quote <:+: ({ callbackURL := B, err := e } : CallbackURLError).Error Quote) ∧
    (∀ u, Parse B = .ok u → (m.LoginURL s B S).2 = none) := by
  refine ⟨?_, ?_, ?_⟩
  · cases h : Parse B with
    | error e => simp [callback.LoginURL, h]
    | ok u => simp [callback.LoginURL, h]
  · intro e h
    refine ⟨by simp [callback.LoginURL, h], fun Quote => ⟨?_, ?_, ?_⟩⟩
    · exact ⟨ascii "failed to parse callbackURL ", ascii ": " ++ e.Error Quote, by
        simp [CallbackURLError.Error]⟩
    · exact ⟨ascii "failed to parse callbackURL " ++ Quote B ++ ascii ": ", [], by
        simp [CallbackURLError.Error]⟩
    · exact ⟨ascii "failed to parse callbackURL " ++ Quote B ++ ascii ": " ++
        (e.Op ++ ascii " " ++ Quote e.URL ++ ascii ": "), [], by
        simp [CallbackURLError.Error, Error.Error]⟩
  · intro u h
    simp [callback.LoginURL, h]

set_option maxRecDepth 100000 in
/-- C9 at the malformed `callbackURL` `http://host:port/`. -/
theorem LoginURL_error_iff_witness :
    defaultConnector.LoginURL noScopes (ascii "http://host:port/") (ascii "s") =
      ([], some { callbackURL := ascii "http://host:port/",
                  err := { Op := ascii "parse", URL := ascii "http://host:port/",
                           Err := .invalidPort (ascii ":port") } }) :=
  ((LoginURL_error_iff defaultConnector noScopes (ascii "http://host:port/") (ascii "s")).2.1
    { Op := ascii "parse", URL := ascii "http://host:port/", Err := .invalidPort (ascii ":port") }
    (by decide)).1

/-! ## Theorems on `Open`, the scopes and the request -/

/-- C11: `Open` never fails; the connector it yields reads the user from the
header `X-Remote-User` when the configured `userHeader` is empty (the zero
value of an unset field) and from the configured `userHeader`, unchanged,
otherwise; its path suffix is `/` followed by the id. -/
theorem Open_connector (c : Config) (id : GoString) :
    (c.Open id).2 = none ∧
    (c.Open id).1.userHeader =
      (if c.UserHeader = [] then ascii "X-Remote-User" else c.UserHeader) ∧
    (c.Open id).1.pathSuffix = ascii "/" ++ id :=
  ⟨rfl, rfl, rfl⟩

/-- C12: the scopes never alter the output of `LoginURL` nor that of
`HandleCallback`, neither the value returned nor the error. -/
theorem scopes_ignored (m : callback) (s1 s2 : Scopes) (B S : GoString) (r : Request) :
    m.LoginURL s1 B S = m.LoginURL s2 B S ∧ m.HandleCallback s1 r = m.HandleCallback s2 r :=
  ⟨rfl, rfl⟩

/-- C13: for one connector, `HandleCallback` returns the same identity and the
same error on two requests whose header maps hold the same values under every
key, whatever their methods, URLs and bodies are. -/
theorem HandleCallback_idempotent (m : callback) (s : Scopes) (r1 r2 : Request)
    (h : ∀ k, r1.Header.index k = r2.Header.index k) :
    m.HandleCallback s r1 = m.HandleCallback s r2 := by
  apply HandleCallback_congr <;> simp only [Header.Get_eq_head, h]

/-- C13 at two requests with the headers of `fullRequest`, one a `GET` and one
a `POST` with a body, and at two requests without primary header. -/
theorem HandleCallback_idempotent_witness :
    defaultConnector.HandleCallback noScopes fullRequest =
      defaultConnector.HandleCallback noScopes
        { Method := ascii "POST", URL := ascii "/other?x=1", Header := fullRequest.Header,
          Body := ascii "payload" } ∧
    defaultConnector.HandleCallback noScopes (requestWith []) =
      defaultConnector.HandleCallback noScopes
        { Method := ascii "POST", URL := ascii "/other?x=1", Header := [],
          Body := ascii "payload" } :=
  ⟨HandleCallback_idempotent defaultConnector noScopes fullRequest
      { Method := ascii "POST", URL := ascii "/other?x=1", Header := fullRequest.Header,
        Body := ascii "payload" } (fun _ => rfl),
   HandleCallback_idempotent defaultConnector noScopes (requestWith [])
      { Method := ascii "POST", URL := ascii "/other?x=1", Header := [],
        Body := ascii "payload" } (fun _ => rfl)⟩

/-! ## Theorems on `LoginURL`, continued -/

/-- C14 (amended): `LoginURL` fails, with the error that carries the
`callbackURL` and the parse error, for every `callbackURL` that `url.Parse`
rejects; a `callbackURL` without scheme is not rejected for that: for every
`callbackURL` that is empty or begins with one `/`, and holds bytes a path
keeps unescaped, `url.Parse` returns a URL without scheme and `LoginURL`
returns, without error, the `callbackURL` followed by `/`, the escaped id,
`?state=` and the escaped state. -/
theorem LoginURL_relative (c : Config) (id : GoString) (s : Scopes) (B S : GoString) :
    (∀ e, Parse B = .error e →
      (c.Open id).1.LoginURL s B S = ([], some { callbackURL := B, err := e })) ∧
    ((B = [] ∨ B.head? = some 0x2f) → HasPrefix B (ascii "//") = false →
      (∀ x ∈ B, shouldEscape x .encodePath = false) →
      Parse B = .ok { URL.zero with Path := B } ∧
      ({ URL.zero with Path := B } : URL).Scheme = [] ∧
      (c.Open id).1.LoginURL s B S =
        (B ++ ascii "/" ++ escape id .encodePath ++ ascii "?state=" ++ QueryEscape S, none)) := by
  refine ⟨fun e h => ?_, fun hB h2 hs => ⟨Parse_plain_path B hB h2 hs, rfl, ?_⟩⟩
  · simp [callback.LoginURL, h]
  · exact LoginURL_plain_path _ s B S id (Open_pathSuffix c id) hB h2 hs

set_option maxRecDepth 100000 in
/-- C14 at the relative reference `/callback/v1`. -/
theorem LoginURL_relative_witness :
    (Config.Open { UserHeader := [] } (ascii "authproxy")).1.LoginURL noScopes
        (ascii "/callback/v1") (ascii "a b") =
      (ascii "/callback/v1/authproxy?state=a+b", none) :=
  ((LoginURL_relative { UserHeader := [] } (ascii "authproxy") noScopes (ascii "/callback/v1")
    (ascii "a b")).2 (by decide) (by decide) (by decide)).2.2.trans (by decide)

set_option maxRecDepth 100000 in
/-- C14 fails at the relative reference `/callback` and at the empty string:
neither has a scheme, `url.Parse` accepts both, and `LoginURL` returns a URL
and no error. -/
theorem LoginURL_relative_counterexample :
    (Parse (ascii "/callback")).map (fun u => (u.Scheme, u.Path)) =
      .ok ([], ascii "/callback") ∧
    defaultConnector.LoginURL noScopes (ascii "/callback") (ascii "s") =
      (ascii "/callback/authproxy?state=s", none) ∧
    (Parse (ascii "")).map (fun u => (u.Scheme, u.Path)) = .ok ([], []) ∧
    defaultConnector.LoginURL noScopes (ascii "") (ascii "s") =
      (ascii "/authproxy?state=s", none) := by
  decide

/-- C15 (amended): for every `callbackURL` that `url.Parse` accepts,
`LoginURL` succeeds. If `callbackURL` is of the opaque form, the string
returned is the scheme, the opaque part, `?`, the query and the fragment, with
no suffix. Otherwise the path of `callbackURL` as it is written is a part of
`callbackURL` that unescapes to the path of the URL, and, provided that
`callbackURL` has an authority or that its path followed by `/` and the
instance id does not begin with `//`, the string returned is the scheme and the
authority, then the path of `callbackURL` in decoded form followed by `/` and
the instance id, escaped afresh as a path (after `./` when nothing precedes it
and its first segment has a colon), then `?`, the query and the fragment. When
the path is written in `callbackURL` as that escaping writes it, this is the
scheme and the authority, the path exactly as it is written, `/`, the escaped
instance id, `?`, the query and the fragment. -/
theorem LoginURL_escaped_path (c : Config) (id : GoString) (s : Scopes) (B S : GoString)
    (u : URL) (hB : Parse B = .ok u) :
    ((c.Open id).1.LoginURL s B S).2 = none ∧
    (u.Opaque ≠ [] →
      ((c.Open id).1.LoginURL s B S).1 =
        u.Scheme ++ ascii ":" ++ u.Opaque ++
          0x3f :: (((ParseQuery u.RawQuery).1.Set (ascii "state") S).Encode ++ fragmentText u)) ∧
    (u.Opaque = [] →
      pathText B <:+: B ∧ unescape (pathText B) .encodePath = .ok u.Path ∧
      ((u.Host = [] → u.User = none → u.Scheme = [] ∨ u.OmitHost = true →
          HasPrefix (u.Path ++ ascii "/" ++ id) (ascii "//") = false) →
        ((c.Open id).1.LoginURL s B S).1 =
          authorityPrefix u ++
            (if u.Scheme = [] ∧ u.Host = [] ∧ u.User = none ∧
                Contains (Cut (escape (u.Path ++ ascii "/" ++ id) .encodePath) (ascii "/")).1
                  (ascii ":") = true then ascii "./" else []) ++
            escape (u.Path ++ ascii "/" ++ id) .encodePath ++
            0x3f :: (((ParseQuery u.RawQuery).1.Set (ascii "state") S).Encode ++
              fragmentText u) ∧
        (pathText B = escape u.Path .encodePath →
          ((c.Open id).1.LoginURL s B S).1 =
            authorityPrefix u ++ pathText B ++ ascii "/" ++ escape id .encodePath ++
              0x3f :: (((ParseQuery u.RawQuery).1.Set (ascii "state") S).Encode ++
                fragmentText u)))) := by
  obtain ⟨hraw, _, _⟩ := Parse_weak B u hB
  obtain ⟨_, hq, _⟩ := Query_Set_Encode (ParseQuery u.RawQuery).1 (ascii "state") S
  refine ⟨by rw [LoginURL_of_ok _ s B S u hB], fun hop => ?_, fun hop => ?_⟩
  · have hsc := Parse_opaque_scheme B u hB hop
    rw [LoginURL_of_ok _ s B S u hB, Open_pathSuffix]
    generalize ((ParseQuery u.RawQuery).1.Set (ascii "state") S).Encode = q at hq ⊢
    have hs := String_of_opaque { u with Path := u.Path ++ 0x2f :: id, RawQuery := q } hop hq
    simp only [hs, hsc, ne_eq, not_false_eq_true, if_true]
    rfl
  · obtain ⟨p1, p2, _, p4, p5⟩ := Parse_pathText B u hB hop
    refine ⟨p1, p2, fun hna => ?_⟩
    have hE : ∀ q, ({ u with Path := u.Path ++ 0x2f :: id, RawQuery := q } : URL).EscapedPath =
        escape (u.Path ++ 0x2f :: id) .encodePath := fun q =>
      EscapedPath_login u hraw (0x2f :: id) q rfl
    have hfix : u.Host ≠ [] → (escape (u.Path ++ 0x2f :: id) .encodePath).head? = some 0x2f := by
      intro hh
      rcases p4 hh with e | e
      · rw [e, List.nil_append, escape_path_slash]
        rfl
      · cases hP : u.Path with
        | nil => rw [hP] at e; cases e
        | cons a t =>
          rw [hP] at e
          simp only [List.head?_cons, Option.some.injEq] at e
          subst e
          rw [List.cons_append, escape_path_slash]
          rfl
    have hsl : u.OmitHost = true → u.Host = [] → u.User = none → u.Scheme ≠ [] →
        HasPrefix (escape (u.Path ++ 0x2f :: id) .encodePath) (ascii "//") = false := by
      intro hO hH hU _
      apply escape_path_prefix2
      have := hna hH hU (Or.inr hO)
      rwa [ascii_slash, List.append_assoc, List.singleton_append] at this
    have hshape : ∀ q, q ≠ [] →
        (({ u with Path := u.Path ++ 0x2f :: id, RawQuery := q } : URL).String =
          authorityPrefix u ++
            (if u.Scheme = [] ∧ u.Host = [] ∧ u.User = none ∧
                Contains (Cut (escape (u.Path ++ 0x2f :: id) .encodePath) (ascii "/")).1
                  (ascii ":") = true then ascii "./" else []) ++
            escape (u.Path ++ 0x2f :: id) .encodePath ++ 0x3f :: (q ++ fragmentText u)) := by
      intro q hq
      rw [String_of_hier { u with Path := u.Path ++ 0x2f :: id, RawQuery := q } hop hq,
        writeHierPart_shape { u with Path := u.Path ++ 0x2f :: id, RawQuery := q } _ (hE q)
          (by simp) hfix hsl]
      rfl
    have hR := hshape _ hq
    rw [LoginURL_of_ok _ s B S u hB, Open_pathSuffix]
    simp only [ascii_slash, List.append_assoc, List.singleton_append]
    simp only [List.append_assoc] at hR
    refine ⟨hR, fun hw => ?_⟩
    rw [hR]
    have hep : escape (u.Path ++ 0x2f :: id) .encodePath =
        pathText B ++ 0x2f :: escape id .encodePath := by
      rw [escape_append, escape_path_slash, ← hw]
    have hdot : ¬ (u.Scheme = [] ∧ u.Host = [] ∧ u.User = none ∧
        Contains (Cut (escape (u.Path ++ 0x2f :: id) .encodePath) (ascii "/")).1
          (ascii ":") = true) := by
      rintro ⟨h1, _, _, h4⟩
      rw [hep, ascii_slash, Cut_fst_append_slash, ← ascii_slash, p5 h1] at h4
      cases h4
    rw [if_neg hdot, hep]
    simp

set_option maxRecDepth 100000 in
/-- C15 at `https://dex.example.com/a%20b/c`, whose path is written in the
escaped form, and at the relative reference `a%3Ab`, whose path is not and has
a colon in its first segment. -/
theorem LoginURL_escaped_path_witness :
    pathText (ascii "https://dex.example.com/a%20b/c") = ascii "/a%20b/c" ∧
    ((Config.Open { UserHeader := [] } (ascii "authproxy")).1.LoginURL noScopes
        (ascii "https://dex.example.com/a%20b/c") (ascii "s")).1 =
      ascii "https://dex.example.com" ++ ascii "/a%20b/c" ++ ascii "/authproxy?state=s" ∧
    ((Config.Open { UserHeader := [] } (ascii "authproxy")).1.LoginURL noScopes
        (ascii "a%3Ab") (ascii "s")).1 = ascii "./a:b/authproxy?state=s" :=
  ⟨by decide,
   ((((LoginURL_escaped_path { UserHeader := [] } (ascii "authproxy") noScopes
      (ascii "https://dex.example.com/a%20b/c") (ascii "s") spacePathURL (by decide)).2.2
      (by decide)).2.2 (by decide)).2 (by decide)).trans (by decide),
   ((((LoginURL_escaped_path { UserHeader := [] } (ascii "authproxy") noScopes
      (ascii "a%3Ab") (ascii "s") colonPathURL (by decide)).2.2
      (by decide)).2.2 (by decide)).1).trans (by decide)⟩

set_option maxRecDepth 100000 in
/-- C15 fails at `http://h/a%2Fb`, whose path is written `/a%2Fb`: `LoginURL`
returns `http://h/a/b/authproxy?state=s`, in which `/a%2Fb/authproxy` does not
occur. It fails at the opaque URL `http:callback`, for which `LoginURL` returns
`http:callback?state=s`, in which `/authproxy` does not occur. It fails at
`http:/`, whose path is written `/`: `LoginURL` returns
`http:%2F/authproxy?state=s`, in which `//authproxy` does not occur. And the
instance id `my id` is written `my%20id`. -/
theorem LoginURL_escaped_path_counterexample :
    pathText (ascii "http://h/a%2Fb") = ascii "/a%2Fb" ∧
    defaultConnector.LoginURL noScopes (ascii "http://h/a%2Fb") (ascii "s") =
      (ascii "http://h/a/b/authproxy?state=s", none) ∧
    ¬ (ascii "/a%2Fb/authproxy" <:+:
      (defaultConnector.LoginURL noScopes (ascii "http://h/a%2Fb") (ascii "s")).1) ∧
    (Parse (ascii "http:callback")).map (fun u => (u.Scheme, u.Opaque)) =
      .ok (ascii "http", ascii "callback") ∧
    defaultConnector.LoginURL noScopes (ascii "http:callback") (ascii "s") =
      (ascii "http:callback?state=s", none) ∧
    ¬ (ascii "/authproxy" <:+:
      (defaultConnector.LoginURL noScopes (ascii "http:callback") (ascii "s")).1) ∧
    pathText (ascii "http:/") = ascii "/" ∧
    defaultConnector.LoginURL noScopes (ascii "http:/") (ascii "s") =
      (ascii "http:%2F/authproxy?state=s", none) ∧
    ¬ (ascii "//authproxy" <:+:
      (defaultConnector.LoginURL noScopes (ascii "http:/") (ascii "s")).1) ∧
    (Config.Open { UserHeader := [] } (ascii "my id")).1.LoginURL noScopes
        (ascii "http://h/cb") (ascii "s") =
      (ascii "http://h/cb/my%20id?state=s", none) := by
  decide

/-- C16: for every `callbackURL` that `url.Parse` accepts, `LoginURL` succeeds
and the query of the string it returns (what follows the first `?`, up to the
`#` if any) is well-formed, holds under every key other than `state` exactly
the values the query of `callbackURL` holds under that key, in their order (so
no other key is added), and lists its pairs by strictly ascending key; the
query of every URL parsed from the returned string is that query. -/
theorem LoginURL_query_kept (m : callback) (s : Scopes) (B S : GoString) (u : URL)
    (hB : Parse B = .ok u) :
    (m.LoginURL s B S).2 = none ∧
    (ParseQuery (queryText (m.LoginURL s B S).1)).2 = none ∧
    (∀ k, k ≠ ascii "state" →
      (ParseQuery (queryText (m.LoginURL s B S).1)).1.index k = u.Query.index k) ∧
    (∃ ks : List GoString, ks.Sorted (fun a b => stringLess a b = true) ∧
      queryText (m.LoginURL s B S).1 =
        joinPairs (pairsOf (ParseQuery (queryText (m.LoginURL s B S).1)).1 ks)) ∧
    (∀ u2, Parse (m.LoginURL s B S).1 = .ok u2 →
      u2.RawQuery = queryText (m.LoginURL s B S).1 ∧
      ∀ k, k ≠ ascii "state" → u2.Query.index k = u.Query.index k) := by
  have hn : (((ParseQuery u.RawQuery).1.Set (ascii "state") S).map (·.1)).Nodup :=
    store_keys_nodup _ _ _ (ParseQuery_nodup _)
  have hk : ∀ k, k ≠ ascii "state" →
      (ParseQuery (queryText (m.LoginURL s B S).1)).1.index k = u.Query.index k := by
    intro k hk
    rw [LoginURL_queryText m s B S u hB, ParseQuery_Encode _ hn, Values.Set, index_store,
      if_neg hk]
    rfl
  refine ⟨by rw [LoginURL_of_ok m s B S u hB], ?_, hk, ?_, fun u2 h2 => ?_⟩
  · rw [LoginURL_queryText m s B S u hB, Encode_eq, ParseQuery_joinPairs]
  · rw [LoginURL_queryText m s B S u hB]
    exact Encode_sorted _ hn
  · have e := Parse_RawQuery _ u2 h2
    refine ⟨e, fun k hk2 => ?_⟩
    unfold URL.Query
    rw [e]
    exact hk k hk2

set_option maxRecDepth 100000 in
/-- C16 at `https://h/cb?z=1&a=2&z=3&state=old`: the returned query is
`a=2&state=s&z=1&z=3`. -/
theorem LoginURL_query_kept_witness :
    queryText (defaultConnector.LoginURL noScopes
      (ascii "https://h/cb?z=1&a=2&z=3&state=old") (ascii "s")).1 = ascii "a=2&state=s&z=1&z=3" ∧
    (ParseQuery (queryText (defaultConnector.LoginURL noScopes
      (ascii "https://h/cb?z=1&a=2&z=3&state=old") (ascii "s")).1)).1.index (ascii "z") =
        [ascii "1", ascii "3"] ∧
    (ParseQuery (queryText (defaultConnector.LoginURL noScopes
      (ascii "https://h/cb?z=1&a=2&z=3&state=old") (ascii "s")).1)).1.index (ascii "a") =
        [ascii "2"] :=
  ⟨by decide,
   ((LoginURL_query_kept defaultConnector noScopes (ascii "https://h/cb?z=1&a=2&z=3&state=old")
      (ascii "s") multiQueryURL (by decide)).2.2.1 (ascii "z") (by decide)).trans (by decide),
   ((LoginURL_query_kept defaultConnector noScopes (ascii "https://h/cb?z=1&a=2&z=3&state=old")
      (ascii "s") multiQueryURL (by decide)).2.2.1 (ascii "a") (by decide)).trans (by decide)⟩

/-! ## Theorems on the header lookups -/

/-- C18: the result of `HandleCallback` is the same on two requests whose
header maps agree on the first value of each of the five headers it consults,
whatever the later values are and whether there are any; a primary header whose
first value is empty yields the error "need login redirect" whatever values
follow; and `Groups` is the split of the first affiliation value. -/
theorem HandleCallback_first_value (m : callback) (s : Scopes) (r1 r2 : Request)
    (h : ∀ k ∈ [m.userHeader, ascii "X-Shib-displayName", ascii "X-Shib-eduPersonPrincipalName",
        ascii "X-Shib-mail", ascii "X-Shib-eduPersonScopedAffiliation"],
      (r1.Header.index (CanonicalMIMEHeaderKey k)).head? =
        (r2.Header.index (CanonicalMIMEHeaderKey k)).head?) :
    m.HandleCallback s r1 = m.HandleCallback s r2 ∧
    (∀ vs, r1.Header.index (CanonicalMIMEHeaderKey m.userHeader) = [] :: vs →
      m.HandleCallback s r1 = (Identity.zero, some (ascii "need login redirect"))) ∧
    (∀ a vs, r1.Header.Get m.userHeader ≠ [] →
      r1.Header.index (CanonicalMIMEHeaderKey (ascii "X-Shib-eduPersonScopedAffiliation")) =
        a :: vs →
      a ≠ [] → (m.HandleCallback s r1).1.Groups = Split a (ascii ";")) := by
  refine ⟨?_, ?_, ?_⟩
  · apply HandleCallback_congr <;> rw [Header.Get_eq_head, Header.Get_eq_head, h _ (by simp)]
  · intro vs hvs
    apply HandleCallback_of_eq
    rw [Header.Get_eq_head, hvs]
    rfl
  · intro a vs hu ha hne
    have hg : r1.Header.Get (ascii "X-Shib-eduPersonScopedAffiliation") = a := by
      rw [Header.Get_eq_head, ha]
      rfl
    simp [HandleCallback_of_ne m s r1 hu, hg, hne]

set_option maxRecDepth 100000 in
/-- C18 at a request whose primary and affiliation headers have two values
each, and at a request whose primary header has the values "" and "bob". -/
theorem HandleCallback_first_value_witness :
    defaultConnector.HandleCallback noScopes
        (requestWith [(ascii "X-Remote-User", [ascii "alice", ascii "bob"]),
          (ascii "X-Shib-Edupersonscopedaffiliation", [ascii "staff;alumni", ascii "guest"])]) =
      defaultConnector.HandleCallback noScopes
        (requestWith [(ascii "X-Remote-User", [ascii "alice"]),
          (ascii "X-Shib-Edupersonscopedaffiliation", [ascii "staff;alumni"])]) ∧
    defaultConnector.HandleCallback noScopes
        (requestWith [(ascii "X-Remote-User", [ascii "", ascii "bob"])]) =
      (Identity.zero, some (ascii "need login redirect")) ∧
    (defaultConnector.HandleCallback noScopes
        (requestWith [(ascii "X-Remote-User", [ascii "alice", ascii "bob"]),
          (ascii "X-Shib-Edupersonscopedaffiliation",
            [ascii "staff;alumni", ascii "guest"])])).1.Groups =
      Split (ascii "staff;alumni") (ascii ";") :=
  ⟨(HandleCallback_first_value defaultConnector noScopes
      (requestWith [(ascii "X-Remote-User", [ascii "alice", ascii "bob"]),
        (ascii "X-Shib-Edupersonscopedaffiliation", [ascii "staff;alumni", ascii "guest"])])
      (requestWith [(ascii "X-Remote-User", [ascii "alice"]),
        (ascii "X-Shib-Edupersonscopedaffiliation", [ascii "staff;alumni"])])
      (by decide)).1,
   (HandleCallback_first_value defaultConnector noScopes
      (requestWith [(ascii "X-Remote-User", [ascii "", ascii "bob"])])
      (requestWith [(ascii "X-Remote-User", [ascii "", ascii "bob"])])
      (by decide)).2.1 [ascii "bob"] (by decide),
   (HandleCallback_first_value defaultConnector noScopes
      (requestWith [(ascii "X-Remote-User", [ascii "alice", ascii "bob"]),
        (ascii "X-Shib-Edupersonscopedaffiliation", [ascii "staff;alumni", ascii "guest"])])
      (requestWith [(ascii "X-Remote-User", [ascii "alice"]),
        (ascii "X-Shib-Edupersonscopedaffiliation", [ascii "staff;alumni"])])
      (by decide)).2.2 (ascii "staff;alumni") [ascii "guest"] (by decide) (by decide)
      (by decide)⟩

end Authproxy
